import Mathlib

/-!
# wp-to-sanity-migration: HTML to Portable Text conversion and link formatting

A shallow embedding of `scripts/fix-sanity-content-formatting.js`,
`scripts/format-links-in-posts.js` and the converter of
`scripts/convert-wordpress-to-sanity.js`.

## Modelling

* JavaScript strings are `List Char`. A `Char` is a Unicode scalar value, so the
  strings covered are the well-formed ones; the patterns of the scripts only
  name ASCII characters and white space, and every other character is treated
  alike by them.
* The regular expressions of the scripts are values of `JsRe.Re`, run by a
  backtracking matcher that follows the ECMAScript rules: ordered alternation,
  greedy and lazy quantifiers with the empty-iteration check, look-ahead, `^`,
  `$` and `\b`. The flags `i` and `s` are resolved when a pattern is written
  down: a letter of an `i` pattern is the class of its two ASCII cases (without
  the `u` flag no other character folds onto an ASCII letter), and `.` of an
  `s` pattern is the class of all characters.
* `String.prototype.split`, `match`, `replace` and `RegExp.prototype.test` are
  the loops `splitGo`, `matchAllGo`, `replaceAllGo` and `searchFrom`, which
  scan the input from left to right as the ECMAScript algorithms do.
* Objects are structures; a field that the code tests for presence is an
  `Option`. Mutation of `block.markDefs` and the `Math.random()` keys of the
  link pass are threaded through as explicit state (`Ctx`).
-/

set_option autoImplicit false

/-- JavaScript string. -/
abbrev Str := List Char

namespace JsRe

/-- Matcher state: `pre` is the input before the current position (nearest
character first), `rest` the input from the current position on, `caps` the
capture groups recorded so far (most recent first). -/
structure St where
  pre : Str
  rest : Str
  caps : List (Nat × Str)

/-- Regular expression syntax (the fragment used by the scripts). -/
inductive Re where
  | eps : Re
  | cls (p : Char → Bool) : Re
  | seq (a b : Re) : Re
  | alt (a b : Re) : Re
  | rep (lo : Nat) (hi : Option Nat) (greedy : Bool) (a : Re) : Re
  | bol : Re
  | eol : Re
  | wordB : Re
  | ahead (a : Re) : Re
  | grp (i : Nat) (a : Re) : Re

/-- Continuation of a match. -/
abbrev Cont := St → Option St

/-- First successful alternative. -/
def orElse (a : Option St) (b : Option St) : Option St :=
  match a with
  | some r => some r
  | none => b

/-- ECMAScript `RepeatMatcher`: `m` matches the body once.  An iteration that
consumes nothing once the minimum is reached is rejected. -/
def repLoop (m : Cont → St → Option St) (greedy : Bool) :
    Nat → Nat → Option Nat → Cont → St → Option St
  | 0, _, _, _, _ => none
  | fuel + 1, lo, hi, k, x =>
    if hi = some 0 then k x
    else
      let d : Cont := fun y =>
        if lo = 0 ∧ y.rest.length = x.rest.length then none
        else repLoop m greedy fuel (lo - 1) (hi.map (fun h => h - 1)) k y
      if 0 < lo then m d x
      else if greedy then orElse (m d x) (k x)
      else orElse (k x) (m d x)

/-- `\w` -/
def isWordChar (c : Char) : Bool :=
  ('a' ≤ c && c ≤ 'z') || ('A' ≤ c && c ≤ 'Z') || ('0' ≤ c && c ≤ '9') || c == '_'

/-- Is the character next to a position (if any) a word character. -/
def isWordAt : Str → Bool
  | [] => false
  | c :: _ => isWordChar c

/-- The backtracking matcher, in continuation-passing style. -/
def matchRe : Re → Cont → St → Option St
  | .eps, k, s => k s
  | .cls p, k, s =>
    match s.rest with
    | [] => none
    | c :: cs => if p c then k { s with pre := c :: s.pre, rest := cs } else none
  | .seq a b, k, s => matchRe a (matchRe b k) s
  | .alt a b, k, s => orElse (matchRe a k s) (matchRe b k s)
  | .rep lo hi g a, k, s => repLoop (matchRe a) g (lo + s.rest.length + 1) lo hi k s
  | .bol, k, s => if s.pre.isEmpty then k s else none
  | .eol, k, s => if s.rest.isEmpty then k s else none
  | .wordB, k, s => if isWordAt s.pre != isWordAt s.rest then k s else none
  | .ahead a, k, s =>
    match matchRe a some s with
    | some r => k { s with caps := r.caps }
    | none => none
  | .grp i a, k, s =>
    matchRe a (fun y =>
      k { y with caps := (i, s.rest.take (s.rest.length - y.rest.length)) :: y.caps }) s

/-- Result of one match: the matched text and the capture groups. -/
structure Match where
  text : Str
  caps : List (Nat × Str)

/-- Capture group `i` of a match (`""` when the group is not set). -/
def Match.group (m : Match) (i : Nat) : Str :=
  match m.caps.find? (fun c => c.1 == i) with
  | some c => c.2
  | none => []

/-- Match `re` at exactly the current position (sticky match). -/
def execAt (re : Re) (pre rest : Str) : Option Match :=
  match matchRe re some ⟨pre, rest, []⟩ with
  | some r => some ⟨rest.take (rest.length - r.rest.length), r.caps⟩
  | none => none

/-- Leftmost match searching forward from the current position
(`RegExp.prototype.exec` of a non-global pattern, `lastIndex` 0). Returns the
text before the match together with the match. -/
def searchFrom (re : Re) : Str → Str → Option (Str × Match)
  | pre, [] =>
    match execAt re pre [] with
    | some m => some (pre.reverse, m)
    | none => none
  | pre, c :: cs =>
    match execAt re pre (c :: cs) with
    | some m => some (pre.reverse, m)
    | none => searchFrom re (c :: pre) cs

/-- `s.match(re)` for a pattern without the `g` flag. -/
def jsMatch (re : Re) (s : Str) : Option Match :=
  (searchFrom re [] s).map Prod.snd

/-- `re.test(s)` for a pattern without the `g` flag. -/
def test (re : Re) (s : Str) : Bool :=
  (searchFrom re [] s).isSome

/-- Loop of `s.replace(re, rep)` for a pattern with the `g` flag and a
replacement without `$`; `skip` counts the characters of the current match that
are still to be passed over. After an empty match the scan advances by one
character. -/
def replaceAllGo (re : Re) (rep : Str) : Nat → Str → Str → Str
  | _ + 1, _, [] => []
  | skip + 1, pre, c :: cs => replaceAllGo re rep skip (c :: pre) cs
  | 0, pre, [] =>
    match execAt re pre [] with
    | some _ => rep
    | none => []
  | 0, pre, c :: cs =>
    match execAt re pre (c :: cs) with
    | none => c :: replaceAllGo re rep 0 (c :: pre) cs
    | some m =>
      match m.text.length with
      | 0 => rep ++ c :: replaceAllGo re rep 0 (c :: pre) cs
      | n + 1 => rep ++ replaceAllGo re rep n (c :: pre) cs

/-- `s.replace(re, rep)` for a pattern with the `g` flag. -/
def replaceAll (re : Re) (rep : Str) (s : Str) : Str :=
  replaceAllGo re rep 0 [] s

/-- `s.replace(re, rep)` for a pattern without the `g` flag: only the leftmost
match is replaced. -/
def replaceFirst (re : Re) (rep : Str) (s : Str) : Str :=
  match searchFrom re [] s with
  | none => s
  | some (before, m) => before ++ rep ++ s.drop (before.length + m.text.length)

/-- Loop of `s.match(re)` for a pattern with the `g` flag: the texts of the
successive matches. -/
def matchAllGo (re : Re) : Nat → Str → Str → List Str
  | _ + 1, _, [] => []
  | skip + 1, pre, c :: cs => matchAllGo re skip (c :: pre) cs
  | 0, pre, [] =>
    match execAt re pre [] with
    | some m => [m.text]
    | none => []
  | 0, pre, c :: cs =>
    match execAt re pre (c :: cs) with
    | none => matchAllGo re 0 (c :: pre) cs
    | some m =>
      match m.text.length with
      | 0 => m.text :: matchAllGo re 0 (c :: pre) cs
      | n + 1 => m.text :: matchAllGo re n (c :: pre) cs

/-- `s.match(re)` for a pattern with the `g` flag: `null` when nothing
matches, else the list of matched texts. -/
def matchAll (re : Re) (s : Str) : Option (List Str) :=
  match matchAllGo re 0 [] s with
  | [] => none
  | l => some l

/-- Loop of `s.split(re)` on a non-empty string. `cur` is the piece being
collected (reversed), `skip` the characters of the current match still to be
passed over. A match is tried at every position before the end of the input;
an empty match right at the start of the current piece is ignored. With
`withCaps` the text of group 1 is spliced in after each piece. -/
def splitGo (re : Re) (withCaps : Bool) : Nat → Str → Str → Str → List Str
  | _, cur, _, [] => [cur.reverse]
  | skip + 1, cur, pre, c :: cs => splitGo re withCaps skip cur (c :: pre) cs
  | 0, cur, pre, c :: cs =>
    match execAt re pre (c :: cs) with
    | none => splitGo re withCaps 0 (c :: cur) (c :: pre) cs
    | some m =>
      match m.text.length with
      | 0 =>
        if cur.isEmpty then splitGo re withCaps 0 (c :: cur) (c :: pre) cs
        else cur.reverse :: ((if withCaps then [m.group 1] else []) ++
          splitGo re withCaps 0 [c] (c :: pre) cs)
      | n + 1 =>
        cur.reverse :: ((if withCaps then [m.group 1] else []) ++
          splitGo re withCaps n [] (c :: pre) cs)

/-- `s.split(re)`: for the empty string the result is `[]` when the pattern
matches it and `[""]` otherwise. -/
def split (re : Re) (withCaps : Bool) (s : Str) : List Str :=
  match s with
  | [] =>
    match execAt re [] [] with
    | some _ => []
    | none => [[]]
  | _ => splitGo re withCaps 0 [] [] s

/-! ### Pattern building blocks -/

/-- A literal character (case-sensitive). -/
def chr (c : Char) : Re := .cls (fun x => x == c)

/-- A literal ASCII letter under the `i` flag. -/
def chrI (c : Char) : Re := .cls (fun x => x == c.toLower || x == c.toUpper)

/-- Sequence of patterns. -/
def seqs : List Re → Re
  | [] => .eps
  | [a] => a
  | a :: as => .seq a (seqs as)

/-- A literal string (case-sensitive). -/
def lit (s : String) : Re := seqs (s.toList.map chr)

/-- A literal string under the `i` flag. -/
def litI (s : String) : Re := seqs (s.toList.map chrI)

/-- Alternation of patterns, in order. -/
def alts : List Re → Re
  | [] => .eps
  | [a] => a
  | a :: as => .alt a (alts as)

/-- `a*` -/
def many (a : Re) : Re := .rep 0 none true a
/-- `a*?` -/
def manyLazy (a : Re) : Re := .rep 0 none false a
/-- `a+` -/
def many1 (a : Re) : Re := .rep 1 none true a
/-- `a?` -/
def maybe (a : Re) : Re := .rep 0 (some 1) true a

/-- White space of `\s` and of `String.prototype.trim`. -/
def isSpace (c : Char) : Bool :=
  c == '\t' || c == '\n' || c.val == 0x0B || c.val == 0x0C || c == '\r' || c == ' ' ||
  c.val == 0xA0 || c.val == 0x1680 || (0x2000 ≤ c.val && c.val ≤ 0x200A) ||
  c.val == 0x2028 || c.val == 0x2029 || c.val == 0x202F || c.val == 0x205F ||
  c.val == 0x3000 || c.val == 0xFEFF

/-- `[a-z]` under the `i` flag, `[a-zA-Z]` without it. -/
def isLetter (c : Char) : Bool :=
  ('a' ≤ c && c ≤ 'z') || ('A' ≤ c && c ≤ 'Z')

/-- `\d` -/
def isDigit (c : Char) : Bool := '0' ≤ c && c ≤ '9'

/-- `.` under the `s` flag. -/
def anyChar : Re := .cls (fun _ => true)

/-- `[^>]` -/
def notGt : Re := .cls (fun c => c != '>')

/-- `\s` -/
def space : Re := .cls isSpace

end JsRe

/-- `String.prototype.trim` -/
def jsTrim (s : Str) : Str :=
  ((s.dropWhile JsRe.isSpace).reverse.dropWhile JsRe.isSpace).reverse


namespace FixFormatting

open JsRe

/-- Entry of `markDefs` (the converter always leaves the list empty). -/
structure MarkDef where
  _key : Str
  _type : Str
  href : Str
  deriving DecidableEq

/-- Portable Text span. -/
structure Span where
  _type : Str
  _key : Str
  text : Str
  marks : List Str
  deriving DecidableEq

/-- Portable Text block. -/
structure Block where
  _type : Str
  _key : Str
  style : Str
  listItem : Option Str
  level : Option Nat
  markDefs : List MarkDef
  children : List Span
  deriving DecidableEq

/-- Decimal rendering of a number inside a template string. -/
def num (n : Nat) : Str := Nat.toDigits 10 n

/-- `createEmptyBlock` -/
def createEmptyBlock : Block :=
  { _type := "block".toList
    _key := "empty-block".toList
    style := "normal".toList
    listItem := none
    level := none
    markDefs := []
    children := [{ _type := "span".toList, _key := "empty-span".toList, text := [], marks := [] }] }

/-- `/<br\s*\/?>\s*<br\s*\/?>/gi` -/
def reDoubleBr : Re :=
  seqs [chr '<', litI "br", many space, maybe (chr '/'), chr '>', many space,
        chr '<', litI "br", many space, maybe (chr '/'), chr '>']

/-- The substitution chain that produces `cleanHtml`. -/
def cleanHtml (htmlContent : Str) : Str :=
  htmlContent
    |> replaceAll (lit "&#8211;") [Char.ofNat 0x2013]
    |> replaceAll (lit "&#8212;") [Char.ofNat 0x2014]
    |> replaceAll (lit "&#8220;") [Char.ofNat 0x201C]
    |> replaceAll (lit "&#8221;") [Char.ofNat 0x201D]
    |> replaceAll (lit "&#8216;") [Char.ofNat 0x2018]
    |> replaceAll (lit "&#8217;") [Char.ofNat 0x2019]
    |> replaceAll (lit "&nbsp;") " ".toList
    |> replaceAll (lit "&hellip;") "...".toList
    |> replaceAll (lit "&quot;") "\"".toList
    |> replaceAll (lit "&lt;") "<".toList
    |> replaceAll (lit "&gt;") ">".toList
    |> replaceAll (lit "&amp;") "&".toList
    |> replaceAll (lit "\r\n") "\n".toList
    |> replaceAll (lit "\r") "\n".toList
    |> replaceAll reDoubleBr "</p><p>".toList

/-- `[1-6]` -/
def digit16 : Re := .cls (fun c => '1' ≤ c && c ≤ '6')

/-- The pattern given to `cleanHtml.split`:
`/(?=<h[1-6][^>]*>)|(?=<p[^>]*>)|(?=<ul[^>]*>)|(?=<ol[^>]*>)|(?=<blockquote[^>]*>)|(?=<pre[^>]*>)/` -/
def reBlockSplit : Re :=
  alts [ .ahead (seqs [lit "<h", digit16, many notGt, chr '>']),
         .ahead (seqs [lit "<p", many notGt, chr '>']),
         .ahead (seqs [lit "<ul", many notGt, chr '>']),
         .ahead (seqs [lit "<ol", many notGt, chr '>']),
         .ahead (seqs [lit "<blockquote", many notGt, chr '>']),
         .ahead (seqs [lit "<pre", many notGt, chr '>']) ]

/-- `/^<h([1-6])[^>]*>(.*?)<\/h[1-6]>/is` -/
def reHeader : Re :=
  seqs [.bol, chr '<', chrI 'h', .grp 1 digit16, many notGt, chr '>',
        .grp 2 (manyLazy anyChar), lit "</", chrI 'h', digit16, chr '>']

/-- `/^<tag[^>]*>(.*?)<\/tag>/is` for a tag name. -/
def reElement (tag : String) : Re :=
  seqs [.bol, chr '<', litI tag, many notGt, chr '>',
        .grp 1 (manyLazy anyChar), lit "</", litI tag, chr '>']

/-- `/<li[^>]*>(.*?)<\/li>/gis` -/
def reLi : Re :=
  seqs [chr '<', litI "li", many notGt, chr '>',
        .grp 1 (manyLazy anyChar), lit "</", litI "li", chr '>']

/-- `/<\/?li[^>]*>/gi` -/
def reLiTag : Re :=
  seqs [chr '<', maybe (chr '/'), litI "li", many notGt, chr '>']

/-- `/<[^>]*>/g` -/
def reAnyTag : Re :=
  seqs [chr '<', many notGt, chr '>']

/-- The pattern given to `htmlContent.split` in `parseInlineElements`:
`/(<\/?(?:strong|b|em|i|u|code|a)[^>]*>|<br\s*\/?>)/gi` -/
def reInlineSplit : Re :=
  .grp 1 (.alt
    (seqs [chr '<', maybe (chr '/'),
           alts [litI "strong", litI "b", litI "em", litI "i", litI "u", litI "code", litI "a"],
           many notGt, chr '>'])
    (seqs [chr '<', litI "br", many space, maybe (chr '/'), chr '>']))

/-- `/^<(strong|b)(\s[^>]*)?>$/i` -/
def reOpenStrong : Re :=
  seqs [.bol, chr '<', .alt (litI "strong") (litI "b"), maybe (.seq space (many notGt)),
        chr '>', .eol]

/-- `/^<\/(strong|b)>$/i` -/
def reCloseStrong : Re :=
  seqs [.bol, lit "</", .alt (litI "strong") (litI "b"), chr '>', .eol]

/-- `/^<(em|i)(\s[^>]*)?>$/i` -/
def reOpenEm : Re :=
  seqs [.bol, chr '<', .alt (litI "em") (litI "i"), maybe (.seq space (many notGt)),
        chr '>', .eol]

/-- `/^<\/(em|i)>$/i` -/
def reCloseEm : Re :=
  seqs [.bol, lit "</", .alt (litI "em") (litI "i"), chr '>', .eol]

/-- `/^<code(\s[^>]*)?>$/i` -/
def reOpenCode : Re :=
  seqs [.bol, chr '<', litI "code", maybe (.seq space (many notGt)), chr '>', .eol]

/-- `/^<\/code>$/i` -/
def reCloseCode : Re :=
  seqs [.bol, lit "</", litI "code", chr '>', .eol]

/-- `/^<br\s*\/?>$/i` -/
def reBr : Re :=
  seqs [.bol, chr '<', litI "br", many space, maybe (chr '/'), chr '>', .eol]

/-- `/^<\/?a[^>]*>$/i` -/
def reAnchor : Re :=
  seqs [.bol, chr '<', maybe (chr '/'), chrI 'a', many notGt, chr '>', .eol]

/-- `/^<[^>]*>$/` -/
def reWholeTag : Re :=
  seqs [.bol, chr '<', many notGt, chr '>', .eol]

/-- Loop state of `parseInlineElements`. The source also keeps `markStack`,
which is written but never read, so it is left out. -/
structure Inline where
  children : List Span
  spanKey : Nat
  currentText : Str
  currentMarks : List Str

/-- The `if (currentText) { spanKey++; children.push(...); currentText = "" }`
step shared by the tag branches. -/
def flush (blockKey : Nat) (st : Inline) : Inline :=
  if st.currentText.isEmpty then st
  else
    { st with
      spanKey := st.spanKey + 1
      children := st.children ++
        [{ _type := "span".toList
           _key := "span-".toList ++ num blockKey ++ "-".toList ++ num (st.spanKey + 1)
           text := st.currentText
           marks := st.currentMarks }]
      currentText := [] }

/-- Opening tag of a style: flush, then add the mark unless it is present. -/
def openMark (blockKey : Nat) (mark : Str) (st : Inline) : Inline :=
  let st := flush blockKey st
  if st.currentMarks.contains mark then st
  else { st with currentMarks := st.currentMarks ++ [mark] }

/-- Closing tag of a style: flush, then remove the mark. -/
def closeMark (blockKey : Nat) (mark : Str) (st : Inline) : Inline :=
  let st := flush blockKey st
  { st with currentMarks := st.currentMarks.filter (fun m => m != mark) }

/-- One iteration of the `for (const part of parts)` loop. -/
def inlineStep (blockKey : Nat) (st : Inline) (part : Str) : Inline :=
  if part.isEmpty then st
  else if test reOpenStrong part then openMark blockKey "strong".toList st
  else if test reCloseStrong part then closeMark blockKey "strong".toList st
  else if test reOpenEm part then openMark blockKey "em".toList st
  else if test reCloseEm part then closeMark blockKey "em".toList st
  else if test reOpenCode part then openMark blockKey "code".toList st
  else if test reCloseCode part then closeMark blockKey "code".toList st
  else if test reBr part then { st with currentText := st.currentText ++ ['\n'] }
  else if test reAnchor part then st
  else if !test reWholeTag part then { st with currentText := st.currentText ++ part }
  else st

/-- The tail of `parseInlineElements`: the remaining text is trimmed and, when
not empty, pushed as the last span. -/
def finishInline (blockKey : Nat) (st : Inline) : List Span :=
  if (jsTrim st.currentText).isEmpty then st.children
  else st.children ++
    [{ _type := "span".toList
       _key := "span-".toList ++ num blockKey ++ "-".toList ++ num (st.spanKey + 1)
       text := jsTrim st.currentText
       marks := st.currentMarks }]

/-- The `children.length > 0 ? children : [empty span]` result of
`parseInlineElements`. -/
def orEmptySpan (blockKey : Nat) (children : List Span) : List Span :=
  if children.isEmpty then
    [{ _type := "span".toList
       _key := "empty-span-".toList ++ num blockKey
       text := []
       marks := [] }]
  else children

/-- `parseInlineElements(htmlContent, blockKey)` -/
def parseInlineElements (htmlContent : Str) (blockKey : Nat) : List Span :=
  let parts := split reInlineSplit true htmlContent
  orEmptySpan blockKey
    (finishInline blockKey (parts.foldl (inlineStep blockKey) ⟨[], 0, [], []⟩))

/-- The `listItems.forEach((item, index) => ...)` loop of a list element. -/
def listBlocks (kind : Str) (blockKey : Nat) : Nat → List Str → List Block
  | _, [] => []
  | index, item :: items =>
    let content := replaceAll reLiTag [] item
    let children := parseInlineElements content (blockKey + index)
    { _type := "block".toList
      _key := "list-".toList ++ num blockKey ++ "-".toList ++ num index
      style := "normal".toList
      listItem := some kind
      level := some 1
      markDefs := []
      children := children } :: listBlocks kind blockKey (index + 1) items

/-- Blocks pushed for one trimmed HTML block with counter value `blockKey`. -/
def convertBlock (trimmedBlock : Str) (blockKey : Nat) : List Block :=
  match jsMatch reHeader trimmedBlock with
  | some headerMatch =>
    let headerText := jsTrim (replaceAll reAnyTag [] (headerMatch.group 2))
    [{ _type := "block".toList
       _key := "header-".toList ++ num blockKey
       style := 'h' :: headerMatch.group 1
       listItem := none
       level := none
       markDefs := []
       children := [{ _type := "span".toList
                      _key := "header-span-".toList ++ num blockKey
                      text := headerText
                      marks := [] }] }]
  | none =>
  match jsMatch (reElement "ul") trimmedBlock with
  | some ulMatch =>
    match matchAll reLi (ulMatch.group 1) with
    | some listItems => listBlocks "bullet".toList blockKey 0 listItems
    | none => []
  | none =>
  match jsMatch (reElement "ol") trimmedBlock with
  | some olMatch =>
    match matchAll reLi (olMatch.group 1) with
    | some listItems => listBlocks "number".toList blockKey 0 listItems
    | none => []
  | none =>
  match (jsMatch (reElement "p") trimmedBlock).orElse (fun _ =>
        (jsMatch (reElement "div") trimmedBlock).orElse (fun _ =>
          jsMatch (reElement "blockquote") trimmedBlock)) with
  | some paragraphMatch =>
    let children := parseInlineElements (paragraphMatch.group 1) blockKey
    if 0 < children.length ∧ children.any (fun child => !(jsTrim child.text).isEmpty) then
      [{ _type := "block".toList
         _key := "block-".toList ++ num blockKey
         style := "normal".toList
         listItem := none
         level := none
         markDefs := []
         children := children }]
    else []
  | none =>
    let textContent := jsTrim (replaceAll reAnyTag [] trimmedBlock)
    if !textContent.isEmpty then
      [{ _type := "block".toList
         _key := "block-".toList ++ num blockKey
         style := "normal".toList
         listItem := none
         level := none
         markDefs := []
         children := [{ _type := "span".toList
                        _key := "span-".toList ++ num blockKey ++ "-0".toList
                        text := textContent
                        marks := [] }] }]
    else []

/-- One iteration of `for (const htmlBlock of htmlBlocks)`; the state is
`(blocks, blockKey)`. -/
def blockStep (st : List Block × Nat) (htmlBlock : Str) : List Block × Nat :=
  let trimmedBlock := jsTrim htmlBlock
  if trimmedBlock.isEmpty then st
  else (st.1 ++ convertBlock trimmedBlock (st.2 + 1), st.2 + 1)

/-- `convertHtmlToPortableText(htmlContent)` -/
def convertHtmlToPortableText (htmlContent : Str) : List Block :=
  if htmlContent.isEmpty ∨ (jsTrim htmlContent).isEmpty then [createEmptyBlock]
  else
    let htmlBlocks := (split reBlockSplit false (cleanHtml htmlContent)).filter
      (fun block => !(jsTrim block).isEmpty)
    let blocks := (htmlBlocks.foldl blockStep ([], 0)).1
    if 0 < blocks.length then blocks else [createEmptyBlock]

end FixFormatting


namespace FormatLinks

open JsRe

/-- `(?:https?:\/\/)?` under the `i` flag -/
def reScheme : Re := maybe (seqs [litI "http", maybe (chrI 's'), lit "://"])

/-- `(?:www\.)?` under the `i` flag -/
def reWww : Re := maybe (seqs [litI "www", chr '.'])

/-- `[-a-zA-Z0-9@:%._\+~#=]` -/
def isHostChar (c : Char) : Bool :=
  isLetter c || isDigit c || "-@:%._+~#=".toList.contains c

/-- `[a-zA-Z0-9()]` -/
def isTldChar (c : Char) : Bool :=
  isLetter c || isDigit c || c == '(' || c == ')'

/-- `[-a-zA-Z0-9()@:%_\+.~#?&\/=]` -/
def isPathChar (c : Char) : Bool :=
  isLetter c || isDigit c || "-()@:%_+.~#?&/=".toList.contains c

/-- `URL_REGEX`:
`/(?:https?:\/\/)?(?:www\.)?[-a-zA-Z0-9@:%._\+~#=]{1,256}\.[a-zA-Z0-9()]{1,6}\b(?:[-a-zA-Z0-9()@:%_\+.~#?&\/=]*)/gi` -/
def URL_REGEX : Re :=
  seqs [reScheme, reWww, .rep 1 (some 256) true (.cls isHostChar), chr '.',
        .rep 1 (some 6) true (.cls isTldChar), .wordB, many (.cls isPathChar)]

/-- `[^\s]` -/
def notSpace : Re := .cls (fun c => !isSpace c)

/-- `SPECIFIC_PATTERNS`:
`/(?:https?:\/\/)?(?:www\.)?asivuri\.com[^\s]*/gi` and
`/(?:https?:\/\/)?(?:www\.)?asido[^\s]*\.(?:com|org|ng)[^\s]*/gi` -/
def SPECIFIC_PATTERNS : List Re :=
  [ seqs [reScheme, reWww, litI "asivuri", chr '.', litI "com", many notSpace],
    seqs [reScheme, reWww, litI "asido", many notSpace, chr '.',
          alts [litI "com", litI "org", litI "ng"], many notSpace] ]

/-- `[.,;:!?]` -/
def isTrailingPunct (c : Char) : Bool := ".,;:!?".toList.contains c

/-- `normalizeUrl(url)` -/
def normalizeUrl (url : Str) : Str :=
  let normalized := jsTrim url
  let normalized := replaceFirst (seqs [many1 (.cls isTrailingPunct), .eol]) [] normalized
  if !test (seqs [.bol, litI "http", maybe (chrI 's'), lit "://"]) normalized then
    "https://".toList ++ normalized
  else normalized

/-- The `falsePositives` table of `isValidUrl`. -/
def falsePositives : List Re :=
  [ seqs [.bol, litI "etc", chr '.'],
    seqs [.bol, chrI 'e', chr '.', chrI 'g', chr '.'],
    seqs [.bol, chrI 'i', chr '.', chrI 'e', chr '.'],
    seqs [.bol, litI "vs", chr '.'],
    seqs [.bol, many1 (.cls isDigit), chr '.', many1 (.cls isDigit)],
    lit "...",
    seqs [.bol, many1 (chr '.')],
    seqs [many1 (chr '.'), .eol] ]

/-- `isValidUrl(text)` -/
def isValidUrl (text : Str) : Bool :=
  -- /\.[a-z]{2,}($|\/)/i
  if !test (seqs [chr '.', .rep 2 none true (.cls isLetter), .alt .eol (chr '/')]) text then false
  -- /^\.[a-z]+$/i
  else if test (seqs [.bol, chr '.', many1 (.cls isLetter), .eol]) text then false
  -- /\.{2,}/
  else if test (.rep 2 none true (chr '.')) text then false
  -- /^\.|\.{2,}$/
  else if test (.alt (seqs [.bol, chr '.']) (seqs [.rep 2 none true (chr '.'), .eol])) text then
    false
  -- /[a-z]{2,}\./i
  else if !test (seqs [.rep 2 none true (.cls isLetter), chr '.']) text then false
  else if falsePositives.any (fun pattern => test pattern text) then false
  else true

/-- `urls.add(match)` for each valid match, on a `Set` kept in insertion order. -/
def addValid (urls : List Str) (found : List Str) : List Str :=
  found.foldl (fun urls m => if isValidUrl m then (if urls.contains m then urls else urls ++ [m])
    else urls) urls

/-- `findUrls(text)` -/
def findUrls (text : Str) : List Str :=
  let urls := addValid [] ((matchAll URL_REGEX text).getD [])
  SPECIFIC_PATTERNS.foldl (fun urls pattern => addValid urls ((matchAll pattern text).getD [])) urls

/-- Kind of a part produced by `splitTextWithUrls`. -/
inductive PartType where
  | text
  | url
  deriving DecidableEq

/-- Part produced by `splitTextWithUrls`. -/
structure Part where
  type : PartType
  content : Str
  deriving DecidableEq

/-- `text.indexOf(url)`: index of the first occurrence, `-1` when there is none. -/
def indexOf (url : Str) : Str → Int
  | [] => if url.isEmpty then 0 else -1
  | c :: cs =>
    if url.isPrefixOf (c :: cs) then 0
    else
      match indexOf url cs with
      | Int.negSucc _ => -1
      | Int.ofNat n => Int.ofNat (n + 1)

/-- `s.substring(start)`: a negative start counts as 0. -/
def substringFrom (s : Str) (start : Int) : Str := s.drop start.toNat

/-- `s.substring(0, stop)` -/
def substringTo (s : Str) (stop : Int) : Str := s.take stop.toNat

/-- Loop state of `splitTextWithUrls`. -/
structure SplitState where
  parts : List Part
  remainingText : Str
  offset : Int

/-- Body of `urlPositions.forEach(({ url, index }) => ...)`. -/
def splitStep (st : SplitState) (p : Str × Int) : SplitState :=
  let url := p.1
  let index := p.2
  let parts :=
    if index > st.offset then
      let beforeText := substringTo st.remainingText (index - st.offset)
      if !beforeText.isEmpty then st.parts ++ [⟨.text, beforeText⟩] else st.parts
    else st.parts
  let parts := parts ++ [⟨.url, url⟩]
  let urlEnd : Int := index - st.offset + url.length
  { parts := parts
    remainingText := substringFrom st.remainingText urlEnd
    offset := index + url.length }

/-- `urlPositions`: the URLs with the index of their first occurrence, sorted by
that index (the sort is stable). -/
def urlPositions (text : Str) (urls : List Str) : List (Str × Int) :=
  (urls.map (fun url => (url, indexOf url text))).insertionSort (fun a b => a.2 ≤ b.2)

/-- `splitTextWithUrls(text)` -/
def splitTextWithUrls (text : Str) : List Part :=
  let urls := findUrls text
  if urls.length = 0 then [⟨.text, text⟩]
  else
    let st := (urlPositions text urls).foldl splitStep ⟨[], text, 0⟩
    if !st.remainingText.isEmpty then st.parts ++ [⟨.text, st.remainingText⟩] else st.parts

/-- Entry of `markDefs`; `_key` and `href` may be absent. -/
structure MarkDef where
  _key : Option Str
  _type : Str
  href : Option Str
  deriving DecidableEq

/-- Element of `marks`: a string, or `none` for a value that is not a string. -/
abbrev Mark := Option Str

/-- Child of a block; `text` and `marks` may be absent. -/
structure Span where
  _type : Str
  _key : Str
  text : Option Str
  marks : Option (List Mark)
  deriving DecidableEq

/-- Element of a post body; `markDefs` and `children` may be absent. -/
structure Block where
  _type : Str
  _key : Str
  style : Option Str
  listItem : Option Str
  level : Option Nat
  markDefs : Option (List MarkDef)
  children : Option (List Span)
  deriving DecidableEq

/-- `hasLinkMark(span)`; an absent `marks` is falsy. -/
def hasLinkMark (span : Span) : Bool :=
  match span.marks with
  | none => false
  | some marks =>
    marks.any (fun mark =>
      match mark with
      | some s => "link-".toList.isPrefixOf s
      | none => false)

/-- State threaded through the link pass: the block being mutated and the
number of `Math.random()` keys drawn so far. The n-th drawn value
`Math.random().toString(36).substr(2, 9)` is `rnd n`. -/
structure Ctx where
  block : Block
  drawn : Nat

/-- The `block.markDefs.find` / `block.markDefs.push` step for a URL part:
the registry after the step and the `_key` of the mark to reference. -/
def registerLink (markDefs : List MarkDef) (linkMarkKey normalizedUrl : Str) :
    List MarkDef × Option Str :=
  match markDefs.find? (fun mark => mark._type == "link".toList && mark.href == some normalizedUrl) with
  | none =>
    (markDefs ++ [⟨some linkMarkKey, "link".toList, some normalizedUrl⟩], some linkMarkKey)
  | some existingMark => (markDefs, existingMark._key)

/-- Body of `parts.map((part) => ...)` in `convertSpanWithUrls`. -/
def partStep (rnd : Nat → Str) (span : Span) (acc : List Span × Ctx) (part : Part) :
    List Span × Ctx :=
  let ctx := acc.2
  match part.type with
  | .url =>
    let linkMarkKey := "link-".toList ++ rnd ctx.drawn
    let normalizedUrl := normalizeUrl part.content
    let r := registerLink (ctx.block.markDefs.getD []) linkMarkKey normalizedUrl
    (acc.1 ++
      [⟨"span".toList, "span-".toList ++ rnd (ctx.drawn + 1), some part.content,
        some (span.marks.getD [] ++ [r.2])⟩],
     ⟨{ ctx.block with markDefs := some r.1 }, ctx.drawn + 2⟩)
  | .text =>
    (acc.1 ++
      [⟨"span".toList, "span-".toList ++ rnd ctx.drawn, some part.content,
        some (span.marks.getD [])⟩],
     ⟨ctx.block, ctx.drawn + 1⟩)

/-- `convertSpanWithUrls(span, block)` -/
def convertSpanWithUrls (rnd : Nat → Str) (span : Span) (ctx : Ctx) : List Span × Ctx :=
  let text := span.text.getD []
  let parts := splitTextWithUrls text
  match parts with
  | [⟨.text, _⟩] => ([span], ctx)
  | _ => parts.foldl (partStep rnd span) ([], ctx)

/-- Loop state of `processBlock`. -/
structure BlockLoop where
  newChildren : List Span
  modified : Bool
  ctx : Ctx

/-- Body of `for (const child of block.children)`. -/
def childStep (rnd : Nat → Str) (st : BlockLoop) (child : Span) : BlockLoop :=
  if child._type == "span".toList && !(child.text.getD []).isEmpty && !hasLinkMark child then
    let urls := findUrls (child.text.getD [])
    if 0 < urls.length then
      let r := convertSpanWithUrls rnd child st.ctx
      { newChildren := st.newChildren ++ r.1, modified := true, ctx := r.2 }
    else { st with newChildren := st.newChildren ++ [child] }
  else { st with newChildren := st.newChildren ++ [child] }

/-- Result of `processBlock`, with the count of random keys drawn. -/
structure BlockResult where
  block : Block
  modified : Bool
  drawn : Nat

/-- `processBlock(block)` -/
def processBlock (rnd : Nat → Str) (drawn : Nat) (block : Block) : BlockResult :=
  match block.children with
  | none => ⟨block, false, drawn⟩
  | some children =>
    if block._type != "block".toList then ⟨block, false, drawn⟩
    else
      let st := children.foldl (childStep rnd) ⟨[], false, ⟨block, drawn⟩⟩
      if st.modified then
        ⟨{ st.ctx.block with children := some st.newChildren }, true, st.ctx.drawn⟩
      else ⟨st.ctx.block, false, st.ctx.drawn⟩

/-- Result of `processPostBody`, with the count of random keys drawn. -/
structure BodyResult where
  body : List Block
  modified : Bool
  drawn : Nat

/-- `processPostBody(body)` for a body that is an array. -/
def processPostBody (rnd : Nat → Str) (drawn : Nat) (body : List Block) : BodyResult :=
  body.foldl (fun acc block =>
    let result := processBlock rnd acc.drawn block
    ⟨acc.body ++ [result.block], acc.modified || result.modified, result.drawn⟩)
    ⟨[], false, drawn⟩

end FormatLinks

namespace JsRe

/-- Loop of `s.replace(re, rep)` for a pattern with the `g` flag whose replacement refers
to a capture group (`$1`): `rep` builds the replacement from the match; `skip` counts the
characters of the current match that are still to be passed over. -/
def replaceAllWithGo (re : Re) (rep : Match → Str) : Nat → Str → Str → Str
  | _ + 1, _, [] => []
  | skip + 1, pre, c :: cs => replaceAllWithGo re rep skip (c :: pre) cs
  | 0, pre, [] =>
    match execAt re pre [] with
    | some m => rep m
    | none => []
  | 0, pre, c :: cs =>
    match execAt re pre (c :: cs) with
    | none => c :: replaceAllWithGo re rep 0 (c :: pre) cs
    | some m =>
      match m.text.length with
      | 0 => rep m ++ c :: replaceAllWithGo re rep 0 (c :: pre) cs
      | n + 1 => rep m ++ replaceAllWithGo re rep n (c :: pre) cs

/-- `s.replace(re, rep)` for a pattern with the `g` flag and a replacement built from the
match. -/
def replaceAllWith (re : Re) (rep : Match → Str) (s : Str) : Str :=
  replaceAllWithGo re rep 0 [] s

/-- `.` without the `s` flag: any character but a line terminator. -/
def dot : Re :=
  .cls (fun c => !(c == '\n' || c == '\r' || c.val == 0x2028 || c.val == 0x2029))

end JsRe

namespace ConvertWordpress

open JsRe

/-- Span of a block; this script gives spans no `_key`. -/
structure Span where
  _type : Str
  text : Str
  marks : List Str
  deriving DecidableEq

/-- Portable Text block; `markDefs` is always the empty array. -/
structure Block where
  _type : Str
  _key : Str
  style : Str
  markDefs : List Unit
  children : List Span
  deriving DecidableEq

/-- `/<h([1-6])[^>]*>/g` -/
def reHeaderOpen : Re :=
  seqs [lit "<h", .grp 1 FixFormatting.digit16, many notGt, chr '>']

/-- `/<\/h[1-6]>/g` -/
def reHeaderClose : Re :=
  seqs [lit "</h", FixFormatting.digit16, chr '>']

/-- `/<p[^>]*>/g` -/
def reParaOpen : Re :=
  seqs [lit "<p", many notGt, chr '>']

/-- The pattern `---HEADER(\d)---(.+)` of `trimmed.match`. -/
def reHeaderMarker : Re :=
  seqs [lit "---HEADER", .grp 1 (.cls isDigit), lit "---", .grp 2 (many1 dot)]

/-- `parseInt` of a string of decimal digits (what `(\d)` captures). -/
def parseInt (s : Str) : Nat :=
  s.foldl (fun n c => 10 * n + (c.toNat - '0'.toNat)) 0

/-- The marker text that replaces the header and paragraph tags, split into lines. -/
def paragraphs (htmlContent : Str) : List Str :=
  (htmlContent
    |> replaceAllWith reHeaderOpen
        (fun m => "\n---HEADER".toList ++ m.group 1 ++ "---".toList)
    |> replaceAll reHeaderClose "---/HEADER---\n".toList
    |> replaceAll reParaOpen "\n---PARA---".toList
    |> replaceAll (lit "</p>") "---/PARA---\n".toList
    |> split (chr '\n') false).filter (fun p => !(jsTrim p).isEmpty)

/-- The block pushed by each of the three branches. -/
def mkBlock (blockKey : Nat) (style text : Str) : Block :=
  { _type := "block".toList
    _key := "block-".toList ++ FixFormatting.num blockKey
    style := style
    markDefs := []
    children := [{ _type := "span".toList, text := text, marks := [] }] }

/-- Body of `paragraphs.forEach((paragraph) => ...)`; the state is `(blocks, blockKey)`. -/
def paragraphStep (st : List Block × Nat) (paragraph : Str) : List Block × Nat :=
  let trimmed := jsTrim paragraph
  if trimmed.isEmpty || trimmed == "---PARA---".toList || trimmed == "---/PARA---".toList ||
      trimmed == "---/HEADER---".toList then st
  else
    match jsMatch reHeaderMarker trimmed with
    | some headerMatch =>
      let level := parseInt (headerMatch.group 1)
      let text := headerMatch.group 2
        |> replaceAll FixFormatting.reAnyTag []
        |> replaceAll (lit "---/HEADER---") []
        |> replaceAll (lit "---/PARA---") []
        |> jsTrim
      if !text.isEmpty then
        (st.1 ++ [mkBlock st.2 ('h' :: FixFormatting.num level) text], st.2 + 1)
      else st
    | none =>
      if "---PARA---".toList.isPrefixOf trimmed then
        let text := trimmed
          |> replaceFirst (lit "---PARA---") []
          |> replaceAll FixFormatting.reAnyTag []
          |> replaceAll (lit "---/PARA---") []
          |> replaceAll (lit "---/HEADER---") []
          |> jsTrim
        if !text.isEmpty then (st.1 ++ [mkBlock st.2 "normal".toList text], st.2 + 1) else st
      else
        let text := trimmed
          |> replaceAll FixFormatting.reAnyTag []
          |> replaceAll (lit "---/PARA---") []
          |> replaceAll (lit "---/HEADER---") []
          |> replaceAll (lit "---PARA---") []
          |> jsTrim
        if !text.isEmpty then (st.1 ++ [mkBlock st.2 "normal".toList text], st.2 + 1) else st

/-- The block returned when no block was pushed. -/
def defaultBlock (htmlContent : Str) : Block :=
  let stripped := jsTrim (replaceAll FixFormatting.reAnyTag [] htmlContent)
  { _type := "block".toList
    _key := "default-block".toList
    style := "normal".toList
    markDefs := []
    children := [{ _type := "span".toList
                   text := if stripped.isEmpty then "No content".toList else stripped
                   marks := [] }] }

/-- `convertHtmlToPortableText(htmlContent)` of `convert-wordpress-to-sanity.js`. -/
def convertHtmlToPortableText (htmlContent : Str) : List Block :=
  let blocks := ((paragraphs htmlContent).foldl paragraphStep ([], 0)).1
  if 0 < blocks.length then blocks else [defaultBlock htmlContent]

end ConvertWordpress

/-! ## Vocabulary of the statements -/

namespace JsRe

/-- The pattern matches at no position that starts with the character `c`. -/
def FailsAt (re : Re) (c : Char) : Prop :=
  ∀ (pre rest : Str), execAt re pre (c :: rest) = none

end JsRe

namespace FixFormatting

/-- Text and marks of a span. -/
def spanView (s : Span) : Str × List Str := (s.text, s.marks)

/-- Style, list kind, level and span views of a block. -/
def blockView (b : Block) : Str × Option Str × Option Nat × List (Str × List Str) :=
  (b.style, b.listItem, b.level, b.children.map spanView)

/-- No `<` of the string is followed by a character of the class `bad`. -/
def noLtThen (bad : Char → Bool) : Str → Bool
  | [] => true
  | [_] => true
  | c :: d :: rest => !(c == '<' && bad d) && noLtThen bad (d :: rest)

/-- Second character of `<br` under the `i` flag. -/
def isBrStart (d : Char) : Bool := d == 'b' || d == 'B'

/-- Second character of the opening tags at which `reBlockSplit` can match. -/
def isBlockStart (d : Char) : Bool := d == 'h' || d == 'p' || d == 'u' || d == 'o' || d == 'b'

/-- A text without markup: not empty, no white space at either end, and none
of the characters `<`, `>`, `&`, CR. -/
def PlainText (t : Str) : Prop :=
  t ≠ [] ∧ (∀ c ∈ t.head?, JsRe.isSpace c = false) ∧ (∀ c ∈ t.getLast?, JsRe.isSpace c = false) ∧
    ∀ c ∈ t, c ≠ '<' ∧ c ≠ '>' ∧ c ≠ '&' ∧ c ≠ '\r'

/-- `<p>t</p>` -/
def paragraph (t : Str) : Str := "<p>".toList ++ t ++ "</p>".toList

/-- `<p>t1</p>...<p>tk</p>` -/
def paragraphsHtml (ts : List Str) : Str := (ts.map paragraph).flatten

/-- `<li>t</li>` -/
def listItemHtml (t : Str) : Str := "<li>".toList ++ t ++ "</li>".toList

/-- `<li>t1</li>...<li>tn</li>` -/
def listItemsHtml (ts : List Str) : Str := (ts.map listItemHtml).flatten

/-- `<xl>` items `</xl>` for the list tag `ul` (`x = 'u'`) or `ol` (`x = 'o'`). -/
def listHtml (x : Char) (ts : List Str) : Str :=
  '<' :: x :: 'l' :: '>' :: listItemsHtml ts ++ ['<', '/', x, 'l', '>']

/-- The style tags of the inline markup considered: `strong`, `em`, `code`. -/
inductive StyleTag where
  | strong
  | em
  | code
  deriving DecidableEq

/-- Tag name, which is also the name of the mark. -/
def StyleTag.name : StyleTag → Str
  | .strong => "strong".toList
  | .em => "em".toList
  | .code => "code".toList

/-- A style event of inline HTML: plain text, the opening of a style or the closing of a
style. -/
inductive Tok where
  | text (s : Str)
  | opening (m : StyleTag)
  | closing (m : StyleTag)

/-- The text of the style events: the inner HTML with its tags removed. -/
def strippedText : List Tok → Str
  | [] => []
  | .text s :: rest => s ++ strippedText rest
  | _ :: rest => strippedText rest

/-- Marks open after an opening tag: the mark is added unless it is already open. -/
def addMark (m : Str) (marks : List Str) : List Str :=
  if marks.contains m then marks else marks ++ [m]

/-- Marks open after a closing tag. -/
def dropMark (m : Str) (marks : List Str) : List Str :=
  marks.filter (fun x => x != m)

/-- The runs of text between tags, each with the marks open at that point; `marks`
are the marks open so far and `buf` the text since the last tag. The text after
the last tag is trimmed and left out when nothing remains. -/
def runsGo (marks : List Str) (buf : Str) : List Tok → List (Str × List Str)
  | [] => if (jsTrim buf).isEmpty then [] else [(jsTrim buf, marks)]
  | .text s :: rest => runsGo marks (buf ++ s) rest
  | .opening m :: rest =>
    (if buf.isEmpty then [] else [(buf, marks)]) ++ runsGo (addMark m.name marks) [] rest
  | .closing m :: rest =>
    (if buf.isEmpty then [] else [(buf, marks)]) ++ runsGo (dropMark m.name marks) [] rest

/-- The spans built from the style events: the runs, or one empty run when there is none. -/
def spanRuns (toks : List Tok) : List (Str × List Str) :=
  if (runsGo [] [] toks).isEmpty then [([], [])] else runsGo [] [] toks

/-- The tag-stripped text up to the last tag and the text after the last tag,
starting from the pair `acc`. -/
def lastTagSplitFrom (acc : Str × Str) : List Tok → Str × Str
  | [] => acc
  | .text s :: rest => lastTagSplitFrom (acc.1, acc.2 ++ s) rest
  | _ :: rest => lastTagSplitFrom (acc.1 ++ acc.2, []) rest

/-- The tag-stripped text up to the last tag and the text after the last tag. -/
def lastTagSplit (toks : List Tok) : Str × Str := lastTagSplitFrom ([], []) toks

/-- The token-level step of the loop of `parseInlineElements`. -/
def tokStep (blockKey : Nat) (st : Inline) : Tok → Inline
  | .text s => { st with currentText := st.currentText ++ s }
  | .opening m => openMark blockKey m.name st
  | .closing m => closeMark blockKey m.name st

/-- The tag names that `parseInlineElements` treats as style tags. -/
inductive TagName where
  | strong
  | b
  | em
  | i
  | code
  deriving DecidableEq

/-- The letters of a tag name, in lower case. -/
def TagName.letters : TagName → Str
  | .strong => "strong".toList
  | .b => "b".toList
  | .em => "em".toList
  | .i => "i".toList
  | .code => "code".toList

/-- The style a tag name stands for: `strong` and `b` are `strong`, `em` and `i` are `em`. -/
def TagName.style : TagName → StyleTag
  | .strong => .strong
  | .b => .strong
  | .em => .em
  | .i => .em
  | .code => .code

/-- The character `x` is the letter `c` in lower or upper case. -/
def isLetterOf (x c : Char) : Bool := x == c.toLower || x == c.toUpper

/-- The string `sp` spells the letters `l`, each in lower or upper case. -/
def spells : Str → Str → Bool
  | [], [] => true
  | x :: xs, c :: cs => isLetterOf x c && spells xs cs
  | _, _ => false

/-- The attribute part of an opening style tag: nothing, or a white-space character
followed by characters other than `>`. -/
def attrsOk : Str → Bool
  | [] => true
  | w :: rest => JsRe.isSpace w && rest.all (fun c => c != '>')

/-- A piece of inline HTML: plain text, an opening style tag as written (name `sp`,
attributes `attrs`) or a closing style tag as written. -/
inductive Piece where
  | text (s : Str)
  | opening (n : TagName) (sp attrs : Str)
  | closing (n : TagName) (sp : Str)

/-- The HTML of a piece. -/
def Piece.render : Piece → Str
  | .text s => s
  | .opening _ sp attrs => '<' :: (sp ++ attrs ++ ['>'])
  | .closing _ sp => '<' :: '/' :: (sp ++ ['>'])

/-- A text piece has no `<`; a tag piece spells its name in any mix of cases, and an
opening tag has well-formed attributes. -/
def Piece.wellFormed : Piece → Bool
  | .text s => s.all (fun c => c != '<')
  | .opening n sp attrs => spells sp n.letters && attrsOk attrs
  | .closing n sp => spells sp n.letters

/-- The style event of a piece. -/
def Piece.tok : Piece → Tok
  | .text s => .text s
  | .opening n _ _ => .opening n.style
  | .closing n _ => .closing n.style

/-- The inner HTML made of the pieces. -/
def renderPieces (ps : List Piece) : Str := (ps.map Piece.render).flatten

/-- The two lists of marks are the same set. -/
def sameMarks (a b : List Str) : Bool :=
  a.all (fun m => b.contains m) && b.all (fun m => a.contains m)

/-- The marks differ, as a set, from the marks of the previous span, if there is one. -/
def differsFrom (prev : Option (List Str)) (marks : List Str) : Bool :=
  match prev with
  | none => true
  | some p => !sameMarks p marks

/-- At every span boundary the set of open marks differs from the marks of the previous
span. `prev` are the marks of the last span pushed, `marks` the open marks and `buf` the
text since the last tag; a span is pushed at a tag that follows pending text, and at the
end when the trimmed pending text is not empty. -/
def boundariesChange (prev : Option (List Str)) (marks : List Str) (buf : Str) :
    List Tok → Bool
  | [] => (jsTrim buf).isEmpty || differsFrom prev marks
  | .text s :: rest => boundariesChange prev marks (buf ++ s) rest
  | .opening m :: rest =>
    if buf.isEmpty then boundariesChange prev (addMark m.name marks) [] rest
    else differsFrom prev marks && boundariesChange (some marks) (addMark m.name marks) [] rest
  | .closing m :: rest =>
    if buf.isEmpty then boundariesChange prev (dropMark m.name marks) [] rest
    else differsFrom prev marks && boundariesChange (some marks) (dropMark m.name marks) [] rest

/-- Consecutive spans differ in their set of marks. -/
def AdjacentMarkSetsDiffer (spans : List Span) : Prop :=
  List.Chain' (fun s t : Span => sameMarks s.marks t.marks = false) spans

/-- A marks list without duplicates whose elements are among `strong`, `em`, `code`. -/
def MarksOk (marks : List Str) : Prop :=
  marks.Nodup ∧ ∀ m ∈ marks, m = "strong".toList ∨ m = "em".toList ∨ m = "code".toList

/-- The pushed spans and the current marks of a loop state are `MarksOk`. -/
def InlineOk (st : Inline) : Prop :=
  (∀ s ∈ st.children, MarksOk s.marks) ∧ MarksOk st.currentMarks

/-- The three spellings of a line-break tag. -/
def brTags : List Str := ["<br>".toList, "<br/>".toList, "<br />".toList]

/-- A text without `<` that is not empty and has no white space at either end. -/
def TightText (t : Str) : Prop :=
  t ≠ [] ∧ (∀ c ∈ t.head?, JsRe.isSpace c = false) ∧
    (∀ c ∈ t.getLast?, JsRe.isSpace c = false) ∧ ∀ c ∈ t, c ≠ '<'

/-- One line-break tag of `reDoubleBr`: `<br\s*\/?>` under the `i` flag. -/
def reBrTag : JsRe.Re :=
  JsRe.seqs [JsRe.chr '<', JsRe.litI "br", JsRe.many JsRe.space, JsRe.maybe (JsRe.chr '/'),
    JsRe.chr '>']

/-- The number written by a string of decimal digits. -/
def digitsValue (s : Str) : Nat :=
  s.foldl (fun n c => 10 * n + (c.toNat - '0'.toNat)) 0

/-- A block key made from the counter value `k`: `header-k`, `block-k` or `list-k-i`. -/
def KeyedBy (k : Nat) (key : Str) : Prop :=
  key = "header-".toList ++ num k ∨ key = "block-".toList ++ num k ∨
    ∃ i, key = "list-".toList ++ num k ++ "-".toList ++ num i

/-- The keys of the pushed blocks are distinct and made from counter values `1..blockKey`. -/
def BlocksKeyed (st : List Block × Nat) : Prop :=
  (st.1.map Block._key).Nodup ∧ ∀ b ∈ st.1, ∃ j, 1 ≤ j ∧ j ≤ st.2 ∧ KeyedBy j b._key

/-- The keys of the pushed spans are distinct and made from the counter values
`1..spanKey`. -/
def SpansKeyed (k : Nat) (st : Inline) : Prop :=
  (st.children.map Span._key).Nodup ∧
    ∀ s ∈ st.children, ∃ j, 1 ≤ j ∧ j ≤ st.spanKey ∧
      s._key = "span-".toList ++ num k ++ "-".toList ++ num j

end FixFormatting

namespace FormatLinks

/-- The link definitions of a registry. -/
def linkDefs (markDefs : List MarkDef) : List MarkDef :=
  markDefs.filter (fun mark => mark._type == "link".toList)

/-- No two link definitions of the registry have the same `href`. -/
def HrefsDistinct (markDefs : List MarkDef) : Prop :=
  (linkDefs markDefs).Pairwise (fun a b => a.href ≠ b.href)

/-- Every definition of the registry has a `_key`. -/
def AllKeyed (markDefs : List MarkDef) : Prop := ∀ md ∈ markDefs, md._key.isSome

/-- The last mark of `sub` is the `_key` of a link definition of `markDefs` whose
`href` is `normalizeUrl` of the text of `sub`. -/
def Resolves (markDefs : List MarkDef) (sub : Span) : Prop :=
  ∃ md ∈ markDefs, ∃ key txt ms, md._type = "link".toList ∧ sub.text = some txt ∧
    md.href = some (normalizeUrl txt) ∧ md._key = some key ∧ sub.marks = some (ms ++ [some key])

/-- The sub-span made from `part` has the text of the part and, for a URL part,
resolves in `markDefs`. -/
def PartOk (markDefs : List MarkDef) (part : Part) (sub : Span) : Prop :=
  sub.text = some part.content ∧ (part.type = .url → Resolves markDefs sub)

/-- The guard under which `processBlock` replaces a child by sub-spans. -/
def Converts (child : Span) : Bool :=
  child._type == "span".toList && !(child.text.getD []).isEmpty && !hasLinkMark child &&
    decide (0 < (findUrls (child.text.getD [])).length)

/-- The children `piece` that `processBlock` returns in place of `child`: the
sub-spans of the parts of its text when the child is converted, the child itself
otherwise. -/
def ChildOk (markDefs : List MarkDef) (child : Span) (piece : List Span) : Prop :=
  if Converts child then
    List.Forall₂ (PartOk markDefs) (splitTextWithUrls (child.text.getD [])) piece
  else piece = [child]

/-- A block of plain spans with an empty registry. -/
def plainBlock (texts : List Str) : Block :=
  { _type := "block".toList, _key := "b".toList, style := some "normal".toList, listItem := none,
    level := none, markDefs := some [],
    children := some (texts.map (fun t => ⟨"span".toList, "s".toList, some t, some []⟩)) }

/-- Texts of the children of the blocks of a body. -/
def spanTexts (body : List Block) : List (List (Option Str)) :=
  body.map (fun b => (b.children.getD []).map Span.text)

/-- Text and marks of the children of a block. -/
def childViews (b : Block) : List (Option Str × Option (List Mark)) :=
  (b.children.getD []).map (fun s => (s.text, s.marks))

/-- A sample value of the random key source. -/
def sampleRnd (n : Nat) : Str := 'k' :: Nat.toDigits 10 n

/-- Sample texts. -/
def exampleCom : Str := "example.com".toList
/-- Sample: the normalized sample URL. -/
def httpsExampleCom : Str := "https://example.com".toList
/-- Sample: a text that mentions the same URL twice. -/
def repeatedUrlText : Str := "example.com and example.com".toList
/-- Sample: what follows the first URL of `repeatedUrlText`. -/
def andExampleCom : Str := " and example.com".toList
/-- Sample: the text between the two URLs of `repeatedUrlText`. -/
def andText : Str := " and ".toList
/-- Sample: first span of the two-mention block. -/
def seeExampleCom : Str := "see example.com".toList
/-- Sample: second span of the two-mention block. -/
def visitExampleComNow : Str := "visit example.com now".toList
/-- Sample: a text in which the second URL also occurs inside the first. -/
def nestedUrlText : Str := "xfoo.com foo.com".toList

/-- A block whose registry already holds the sample link under a key that does
not start with `link-`. -/
def keyedBlock : Block :=
  { _type := "block".toList, _key := "b".toList, style := some "normal".toList, listItem := none,
    level := none,
    markDefs := some [⟨some "abc123".toList, "link".toList, some httpsExampleCom⟩],
    children := some [⟨"span".toList, "s".toList, some seeExampleCom, some []⟩] }

/-- Sample: the false-positive text of the spec. -/
def chartText : Str := "see e.g. the chart...".toList

/-- Sample: the URL forms of the header comment of the script. -/
def headerUrls : List Str :=
  ["https://example.com".toList, "http://example.com".toList, "www.example.com".toList,
   "example.com".toList, "asivuri.com".toList]

/-- A block whose only span has the sample URL as text and already references the link
definition of the registry, whose key does not start with `link-`. -/
def linkedSpanBlock : Block :=
  { _type := "block".toList, _key := "b".toList, style := some "normal".toList, listItem := none,
    level := none,
    markDefs := some [⟨some "abc123".toList, "link".toList, some httpsExampleCom⟩],
    children := some [⟨"span".toList, "s".toList, some exampleCom, some [some "abc123".toList]⟩] }

/-- The sub-span made from `part` keeps the marks `m` of the original span: a text part
has marks exactly `m`, a URL part has `m` followed by the `_key` of a link definition of
`markDefs` for the normalized URL. -/
def KeepsMarks (markDefs : List MarkDef) (m : List Mark) (part : Part) (sub : Span) : Prop :=
  match part.type with
  | .text => sub.marks = some m
  | .url => ∃ md ∈ markDefs, md._type = "link".toList ∧
      md.href = some (normalizeUrl part.content) ∧ sub.marks = some (m ++ [md._key])

/-- No span of the body has a text in which `findUrls` finds a URL. -/
def NoUrls (body : List Block) : Prop :=
  ∀ block ∈ body, ∀ child ∈ block.children.getD [], findUrls (child.text.getD []) = []

/-- The character `x` is the letter `c` in either ASCII case (any other `c` only equals
itself). -/
def sameLetter (x c : Char) : Bool := x == c.toLower || x == c.toUpper

/-- The string `t` starts, case-insensitively, with `p`. -/
def startsWithI : Str → Str → Bool
  | [], _ => true
  | _ :: _, [] => false
  | c :: p, x :: t => sameLetter x c && startsWithI p t

/-- The texts of the rejection policy: an abbreviation start (`etc.`, `e.g.`, `i.e.`,
`vs.`, in any case), a decimal start, two consecutive dots, a dot at the start or at the
end, or no run of two letters followed by a dot. -/
def Rejected (t : Str) : Prop :=
  startsWithI "etc.".toList t = true ∨ startsWithI "e.g.".toList t = true ∨
  startsWithI "i.e.".toList t = true ∨ startsWithI "vs.".toList t = true ∨
  (∃ ds d rest, ds ≠ [] ∧ (∀ c ∈ ds, JsRe.isDigit c = true) ∧ JsRe.isDigit d = true ∧
    t = ds ++ '.' :: d :: rest) ∨
  (∃ a b, t = a ++ '.' :: '.' :: b) ∨
  t.head? = some '.' ∨ t.getLast? = some '.' ∨
  ¬ ∃ a c d b, JsRe.isLetter c = true ∧ JsRe.isLetter d = true ∧ t = a ++ c :: d :: '.' :: b

/-- `/\.{2,}/` of `isValidUrl`. -/
def reTwoDots : JsRe.Re := .rep 2 none true (JsRe.chr '.')

/-- `/^\.|\.{2,}$/` of `isValidUrl`. -/
def reDotEdge : JsRe.Re :=
  .alt (JsRe.seqs [.bol, JsRe.chr '.']) (JsRe.seqs [.rep 2 none true (JsRe.chr '.'), .eol])

/-- `/[a-z]{2,}\./i` of `isValidUrl`. -/
def reLettersDot : JsRe.Re := JsRe.seqs [.rep 2 none true (.cls JsRe.isLetter), JsRe.chr '.']

/-- The string without its trailing run of the characters `. , ; : ! ?`. -/
def stripTrailingPunct (s : Str) : Str := (s.reverse.dropWhile isTrailingPunct).reverse

/-- The string starts, case-insensitively, with `http://` or `https://`. -/
def hasScheme (s : Str) : Bool :=
  startsWithI "http://".toList s || startsWithI "https://".toList s

/-- `/[.,;:!?]+$/` of `normalizeUrl`. -/
def rePunctEnd : JsRe.Re := JsRe.seqs [JsRe.many1 (.cls isTrailingPunct), .eol]

/-- `/^https?:\/\//i` of `normalizeUrl`. -/
def reSchemeStart : JsRe.Re :=
  JsRe.seqs [.bol, JsRe.litI "http", JsRe.maybe (JsRe.chrI 's'), JsRe.lit "://"]

/-- The returned element `r` has the fields of `b` other than `children` and `markDefs`. -/
def SameFrame (b r : Block) : Prop :=
  r._type = b._type ∧ r._key = b._key ∧ r.style = b.style ∧ r.listItem = b.listItem ∧
    r.level = b.level

/-- The returned element `r` corresponds to the input element `b`: it is `b` itself when
`b` is not of type `block` or has no children, and it has the frame of `b` in any case. -/
def Corresponds (b r : Block) : Prop :=
  ((b._type ≠ "block".toList ∨ b.children = none) → r = b) ∧ SameFrame b r

/-- The first occurrences in `t` of the strings of `urls` are pairwise disjoint. -/
def FirstOccurrencesDisjoint (t : Str) (urls : List Str) : Prop :=
  urls.Pairwise (fun a b =>
    indexOf a t + a.length ≤ indexOf b t ∨ indexOf b t + b.length ≤ indexOf a t)

/-- The contents of the URL parts, in order. -/
def urlContents (parts : List Part) : List Str :=
  (parts.filter (fun p => p.type == PartType.url)).map Part.content

/-- Sample: a text with two URLs. -/
def twoUrlsText : Str := "see example.com or asivuri.com".toList

end FormatLinks

namespace ConvertWordpress

/-- A style that is `normal` or `h` followed by one decimal digit. -/
def StyleOk (style : Str) : Prop :=
  style = "normal".toList ∨ ∃ n, n < 10 ∧ style = 'h' :: FixFormatting.num n

end ConvertWordpress

/-! ## Theorems -/

/-! ### The matcher and the scanning loops -/
namespace JsRe

@[simp] theorem matchRe_eps (k : Cont) (s : St) : matchRe .eps k s = k s := rfl

@[simp] theorem matchRe_cls_cons (p : Char → Bool) (k : Cont) (pre cs : Str) (c : Char)
    (caps : List (Nat × Str)) :
    matchRe (.cls p) k ⟨pre, c :: cs, caps⟩ = if p c then k ⟨c :: pre, cs, caps⟩ else none := rfl

@[simp] theorem matchRe_cls_nil (p : Char → Bool) (k : Cont) (pre : Str)
    (caps : List (Nat × Str)) : matchRe (.cls p) k ⟨pre, [], caps⟩ = none := rfl

@[simp] theorem matchRe_seq (a b : Re) (k : Cont) (s : St) :
    matchRe (.seq a b) k s = matchRe a (matchRe b k) s := rfl

@[simp] theorem matchRe_alt (a b : Re) (k : Cont) (s : St) :
    matchRe (.alt a b) k s = orElse (matchRe a k s) (matchRe b k s) := rfl

theorem matchRe_rep (lo : Nat) (hi : Option Nat) (g : Bool) (a : Re) (k : Cont) (s : St) :
    matchRe (.rep lo hi g a) k s = repLoop (matchRe a) g (lo + s.rest.length + 1) lo hi k s := rfl

@[simp] theorem matchRe_bol (k : Cont) (s : St) :
    matchRe .bol k s = if s.pre.isEmpty then k s else none := rfl

@[simp] theorem matchRe_eol (k : Cont) (s : St) :
    matchRe .eol k s = if s.rest.isEmpty then k s else none := rfl

@[simp] theorem matchRe_wordB (k : Cont) (s : St) :
    matchRe .wordB k s = if isWordAt s.pre != isWordAt s.rest then k s else none := rfl

@[simp] theorem matchRe_ahead (a : Re) (k : Cont) (s : St) :
    matchRe (.ahead a) k s =
      match matchRe a some s with
      | some r => k { s with caps := r.caps }
      | none => none := rfl

@[simp] theorem matchRe_grp (i : Nat) (a : Re) (k : Cont) (s : St) :
    matchRe (.grp i a) k s =
      matchRe a (fun y =>
        k { y with caps := (i, s.rest.take (s.rest.length - y.rest.length)) :: y.caps }) s := rfl

@[simp] theorem orElse_some (r : St) (b : Option St) : orElse (some r) b = some r := rfl

@[simp] theorem orElse_none (b : Option St) : orElse none b = b := rfl

/-- A lazy `p*?` passes over a text on which the continuation fails at every character. -/
theorem repLoop_lazy_skip (p : Char → Bool) (K : Cont) (t : Str) :
    ∀ (fuel : Nat) (pre r : Str) (caps : List (Nat × Str)), t.length < fuel →
      (∀ c ∈ t, p c = true) →
      (∀ c ∈ t, ∀ pre1 rest1 caps1, K ⟨pre1, c :: rest1, caps1⟩ = none) →
      repLoop (matchRe (.cls p)) false fuel 0 none K ⟨pre, t ++ r, caps⟩ =
        repLoop (matchRe (.cls p)) false (fuel - t.length) 0 none K
          ⟨t.reverse ++ pre, r, caps⟩ := by
  induction t with
  | nil => intro fuel pre r caps _ _ _; simp
  | cons c t ih =>
    intro fuel pre r caps hf hp hK
    cases fuel with
    | zero => simp at hf
    | succ f =>
      have h1 : K ⟨pre, c :: (t ++ r), caps⟩ = none := hK c (by simp) _ _ _
      have h2 : p c = true := hp c (by simp)
      rw [List.cons_append, repLoop]
      simp only [h1, h2, matchRe_cls_cons, orElse_none, if_true]
      simp only [List.length_cons, List.reverse_cons, List.append_assoc, List.singleton_append]
      rw [show f + 1 - (t.length + 1) = f - t.length by omega]
      rw [← ih f (c :: pre) r caps (by simp at hf; omega) (fun c hc => hp c (by simp [hc]))
        (fun c hc => hK c (by simp [hc]))]
      simp

/-- A lazy `p*?` stops at the first position where the continuation succeeds. -/
theorem matchRe_lazy_until (p : Char → Bool) (K : Cont) (t pre r : Str)
    (caps : List (Nat × Str))
    (hp : ∀ c ∈ t, p c = true)
    (hK : ∀ c ∈ t, ∀ pre1 rest1 caps1, K ⟨pre1, c :: rest1, caps1⟩ = none)
    (hres : (K ⟨t.reverse ++ pre, r, caps⟩).isSome = true) :
    matchRe (.rep 0 none false (.cls p)) K ⟨pre, t ++ r, caps⟩ =
      K ⟨t.reverse ++ pre, r, caps⟩ := by
  rw [matchRe_rep, repLoop_lazy_skip p K t _ pre r caps (by simp; omega) hp hK]
  obtain ⟨n, hn⟩ : ∃ n, 0 + (t ++ r).length + 1 - t.length = n + 1 :=
    ⟨0 + (t ++ r).length + 1 - t.length - 1, by simp; omega⟩
  simp only [hn]
  rw [repLoop]
  obtain ⟨res, hres2⟩ := Option.isSome_iff_exists.mp hres
  simp [hres2]

/-- A greedy `p*` makes no iteration when the next character is not in the class. -/
theorem matchRe_many_stop (p : Char → Bool) (k : Cont) (pre cs : Str) (c : Char)
    (caps : List (Nat × Str)) (hc : p c = false) :
    matchRe (.rep 0 none true (.cls p)) k ⟨pre, c :: cs, caps⟩ = k ⟨pre, c :: cs, caps⟩ := by
  rw [matchRe_rep]
  simp only [List.length_cons, Nat.zero_add]
  rw [repLoop]
  simp [hc]

/-- A greedy `p*` makes no iteration at the end of the input. -/
theorem matchRe_many_nil (p : Char → Bool) (k : Cont) (pre : Str)
    (caps : List (Nat × Str)) :
    matchRe (.rep 0 none true (.cls p)) k ⟨pre, [], caps⟩ = k ⟨pre, [], caps⟩ := by
  rw [matchRe_rep]
  simp only [List.length_nil, Nat.zero_add]
  rw [repLoop]
  simp

/-- An optional character class that does not match is passed over. -/
theorem matchRe_optional_skip (p : Char → Bool) (k : Cont) (pre cs : Str) (c : Char)
    (caps : List (Nat × Str)) (hc : p c = false) :
    matchRe (.rep 0 (some 1) true (.cls p)) k ⟨pre, c :: cs, caps⟩ = k ⟨pre, c :: cs, caps⟩ := by
  rw [matchRe_rep]
  simp only [List.length_cons, Nat.zero_add]
  rw [repLoop]
  simp [hc]

end JsRe

namespace JsRe

/-- The text of a match is the input between its start and its end. -/
theorem execAt_of_matchRe (re : Re) (pre a r pre1 : Str) (caps : List (Nat × Str))
    (h : matchRe re some ⟨pre, a ++ r, []⟩ = some ⟨pre1, r, caps⟩) :
    execAt re pre (a ++ r) = some ⟨a, caps⟩ := by
  unfold execAt
  rw [h]
  simp

theorem execAt_of_matchRe_none (re : Re) (pre rest : Str)
    (h : matchRe re some ⟨pre, rest, []⟩ = none) : execAt re pre rest = none := by
  unfold execAt
  rw [h]

end JsRe

namespace JsRe

/-- A lazy `p*?` passes over a character at which the continuation fails. -/
theorem matchRe_lazy_step (p : Char → Bool) (K : Cont) (pre cs : Str) (c : Char)
    (caps : List (Nat × Str)) (hK : K ⟨pre, c :: cs, caps⟩ = none) (hp : p c = true) :
    matchRe (.rep 0 none false (.cls p)) K ⟨pre, c :: cs, caps⟩ =
      matchRe (.rep 0 none false (.cls p)) K ⟨c :: pre, cs, caps⟩ := by
  rw [matchRe_rep, matchRe_rep]
  simp only [List.length_cons, Nat.zero_add]
  rw [repLoop]
  simp [hK, hp]

/-- A lazy `p*?` stops where the continuation succeeds. -/
theorem matchRe_lazy_stop (p : Char → Bool) (K : Cont) (s : St)
    (hres : (K s).isSome = true) :
    matchRe (.rep 0 none false (.cls p)) K s = K s := by
  rw [matchRe_rep, repLoop]
  obtain ⟨res, hres2⟩ := Option.isSome_iff_exists.mp hres
  simp [hres2]

/-- A lazy `p*?` passes over a text on which the continuation fails at every character. -/
theorem matchRe_lazy_skip (p : Char → Bool) (K : Cont) (t pre r : Str)
    (caps : List (Nat × Str))
    (hp : ∀ c ∈ t, p c = true)
    (hK : ∀ c ∈ t, ∀ pre1 rest1 caps1, K ⟨pre1, c :: rest1, caps1⟩ = none) :
    matchRe (.rep 0 none false (.cls p)) K ⟨pre, t ++ r, caps⟩ =
      matchRe (.rep 0 none false (.cls p)) K ⟨t.reverse ++ pre, r, caps⟩ := by
  induction t generalizing pre with
  | nil => simp
  | cons c t ih =>
    rw [List.cons_append, matchRe_lazy_step p K pre (t ++ r) c caps (hK c (by simp) _ _ _)
      (hp c (by simp)), ih (c :: pre) (fun c hc => hp c (by simp [hc]))
      (fun c hc => hK c (by simp [hc]))]
    simp

/-- A pattern that starts with `^` matches only at the start of the input. -/
theorem execAt_bol_of_pre (b : Re) (pre rest : Str) (h : pre ≠ []) :
    execAt (.seq .bol b) pre rest = none := by
  apply execAt_of_matchRe_none
  cases pre with
  | nil => exact absurd rfl h
  | cons c cs => simp

theorem searchFrom_bol_of_pre (b : Re) (rest : Str) :
    ∀ (pre : Str), pre ≠ [] → searchFrom (.seq .bol b) pre rest = none := by
  induction rest with
  | nil => intro pre h; simp [searchFrom, execAt_bol_of_pre b pre [] h]
  | cons c cs ih =>
    intro pre h
    simp [searchFrom, execAt_bol_of_pre b pre (c :: cs) h, ih (c :: pre) (by simp)]

/-- For a pattern that starts with `^`, `s.match(re)` is the match at position 0. -/
theorem jsMatch_bol (b : Re) (s : Str) :
    jsMatch (.seq .bol b) s = execAt (.seq .bol b) [] s := by
  unfold jsMatch
  cases s with
  | nil => simp only [searchFrom]; cases execAt (.seq .bol b) [] [] <;> rfl
  | cons c cs =>
    simp only [searchFrom]
    cases execAt (.seq .bol b) [] (c :: cs) with
    | some m => rfl
    | none => simp [searchFrom_bol_of_pre b cs [c] (by simp)]

/-- For a pattern that starts with `^`, `re.test(s)` looks at position 0 only. -/
theorem test_bol (b : Re) (s : Str) :
    test (.seq .bol b) s = (execAt (.seq .bol b) [] s).isSome := by
  have h := jsMatch_bol b s
  unfold jsMatch at h
  unfold test
  rw [← h]
  cases searchFrom (.seq .bol b) [] s <;> rfl

/-- `replace` copies a text at whose characters the pattern cannot start. -/
theorem replaceAllGo_pass (re : Re) (rep t : Str) (h : ∀ c ∈ t, FailsAt re c) :
    ∀ (pre r : Str), replaceAllGo re rep 0 pre (t ++ r) =
      t ++ replaceAllGo re rep 0 (t.reverse ++ pre) r := by
  induction t with
  | nil => intro pre r; simp
  | cons c t ih =>
    intro pre r
    have hc : execAt re pre (c :: (t ++ r)) = none := h c (by simp) pre (t ++ r)
    rw [List.cons_append, replaceAllGo, hc]
    simp only [List.cons_append]
    rw [ih (fun c hc => h c (by simp [hc])) (c :: pre) r]
    simp

/-- `replace` passes over the rest of a match. -/
theorem replaceAllGo_skip (re : Re) (rep a : Str) :
    ∀ (pre r : Str), replaceAllGo re rep a.length pre (a ++ r) =
      replaceAllGo re rep 0 (a.reverse ++ pre) r := by
  induction a with
  | nil => intro pre r; simp
  | cons c a ih =>
    intro pre r
    rw [List.cons_append, List.length_cons, replaceAllGo, ih (c :: pre) r]
    simp

/-- `replace` changes nothing when the pattern can start at no character of the text. -/
theorem replaceAll_noop (re : Re) (rep s : Str) (h : ∀ c ∈ s, FailsAt re c)
    (hnil : ∀ pre, execAt re pre [] = none) : replaceAll re rep s = s := by
  unfold replaceAll
  have := replaceAllGo_pass re rep s h [] []
  rw [List.append_nil] at this
  rw [this, replaceAllGo, hnil]
  simp

/-- `match` with `g` finds nothing in a text at whose characters the pattern cannot start. -/
theorem matchAllGo_pass (re : Re) (t : Str) (h : ∀ c ∈ t, FailsAt re c) :
    ∀ (pre r : Str), matchAllGo re 0 pre (t ++ r) = matchAllGo re 0 (t.reverse ++ pre) r := by
  induction t with
  | nil => intro pre r; simp
  | cons c t ih =>
    intro pre r
    have hc : execAt re pre (c :: (t ++ r)) = none := h c (by simp) pre (t ++ r)
    rw [List.cons_append, matchAllGo, hc]
    simp only []
    rw [ih (fun c hc => h c (by simp [hc])) (c :: pre) r]
    simp

/-- `match` with `g` passes over the rest of a match. -/
theorem matchAllGo_skip (re : Re) (a : Str) :
    ∀ (pre r : Str), matchAllGo re a.length pre (a ++ r) =
      matchAllGo re 0 (a.reverse ++ pre) r := by
  induction a with
  | nil => intro pre r; simp
  | cons c a ih =>
    intro pre r
    rw [List.cons_append, List.length_cons, matchAllGo, ih (c :: pre) r]
    simp

/-- `split` collects a text at whose characters the pattern cannot start. -/
theorem splitGo_pass (re : Re) (wc : Bool) (t : Str) (h : ∀ c ∈ t, FailsAt re c) :
    ∀ (cur pre r : Str), splitGo re wc 0 cur pre (t ++ r) =
      splitGo re wc 0 (t.reverse ++ cur) (t.reverse ++ pre) r := by
  induction t with
  | nil => intro cur pre r; simp
  | cons c t ih =>
    intro cur pre r
    have hc : execAt re pre (c :: (t ++ r)) = none := h c (by simp) pre (t ++ r)
    rw [List.cons_append, splitGo, hc]
    simp only []
    rw [ih (fun c hc => h c (by simp [hc])) (c :: cur) (c :: pre) r]
    simp

/-- `split` passes over the rest of a match. -/
theorem splitGo_skip (re : Re) (wc : Bool) (a : Str) :
    ∀ (cur pre r : Str), splitGo re wc a.length cur pre (a ++ r) =
      splitGo re wc 0 cur (a.reverse ++ pre) r := by
  induction a with
  | nil => intro cur pre r; simp
  | cons c a ih =>
    intro cur pre r
    rw [List.cons_append, List.length_cons, splitGo, ih cur (c :: pre) r]
    simp

end JsRe

/-- A string that neither starts nor ends with white space is its own trim. -/
theorem jsTrim_id (s : Str) (h1 : ∀ c ∈ s.head?, JsRe.isSpace c = false)
    (h2 : ∀ c ∈ s.getLast?, JsRe.isSpace c = false) : jsTrim s = s := by
  unfold jsTrim
  have e1 : s.dropWhile JsRe.isSpace = s := by
    cases s with
    | nil => rfl
    | cons c cs => simp [List.dropWhile, h1 c (by simp)]
  rw [e1]
  have e2 : s.reverse.dropWhile JsRe.isSpace = s.reverse := by
    cases hs : s.reverse with
    | nil => rfl
    | cons c cs =>
      have : s.getLast? = some c := by
        rw [List.getLast?_eq_head?_reverse, hs]; rfl
      simp [List.dropWhile, h2 c (by simp [this])]
  rw [e2, List.reverse_reverse]

namespace JsRe
/-- An optional character class that matches is tried first with the character taken. -/
theorem matchRe_optional_take (p : Char → Bool) (k : Cont) (pre cs : Str) (c : Char)
    (caps : List (Nat × Str)) (hc : p c = true) :
    matchRe (.rep 0 (some 1) true (.cls p)) k ⟨pre, c :: cs, caps⟩ =
      orElse (k ⟨c :: pre, cs, caps⟩) (k ⟨pre, c :: cs, caps⟩) := by
  rw [matchRe_rep]
  simp only [List.length_cons, Nat.zero_add]
  rw [repLoop]
  simp only [hc, matchRe_cls_cons]
  rw [repLoop]
  simp
end JsRe

namespace JsRe

/-- A greedy `p{lo,}` that can take a whole run of class characters, followed by a
character outside the class or by the end of the input, takes the whole run when the
continuation succeeds there. -/
theorem repLoop_greedy_run (p : Char → Bool) (k : Cont) (r : Str) (caps : List (Nat × Str))
    (hr : ∀ c ∈ r.head?, p c = false) (ls : Str) :
    ∀ (fuel lo : Nat) (pre : Str), ls.length < fuel → lo ≤ ls.length →
      (∀ c ∈ ls, p c = true) → (k ⟨ls.reverse ++ pre, r, caps⟩).isSome = true →
      repLoop (matchRe (.cls p)) true fuel lo none k ⟨pre, ls ++ r, caps⟩ =
        k ⟨ls.reverse ++ pre, r, caps⟩ := by
  induction ls with
  | nil =>
    intro fuel lo pre hf hlo _ hk
    cases fuel with
    | zero => simp at hf
    | succ f =>
      have hlo0 : lo = 0 := by simpa using hlo
      subst hlo0
      rw [repLoop]
      cases r with
      | nil => simp
      | cons c cs => simp [hr c (by simp)]
  | cons c ls ih =>
    intro fuel lo pre hf hlo hp hk
    cases fuel with
    | zero => simp at hf
    | succ f =>
      have hc : p c = true := hp c (by simp)
      have hk2 : (k ⟨ls.reverse ++ (c :: pre), r, caps⟩).isSome = true := by
        simpa using hk
      have ih2 := ih f (lo - 1) (c :: pre) (by simp at hf; omega) (by simp at hlo; omega)
        (fun c hc => hp c (by simp [hc])) hk2
      obtain ⟨res, hres⟩ := Option.isSome_iff_exists.mp hk2
      rw [List.cons_append, repLoop]
      simp only [matchRe_cls_cons, hc, if_true, Option.map_none']
      have hne : ¬(lo = 0 ∧ (ls ++ r).length = (c :: (ls ++ r)).length) := by
        intro h
        have := h.2
        simp at this
      by_cases hlo0 : 0 < lo
      · simp only [hlo0, if_true]
        rw [if_neg hne, ih2]
        simp
      · have hz : lo = 0 := by omega
        subst hz
        have hne2 : ¬(True ∧ (ls ++ r).length = (c :: (ls ++ r)).length) := by simp
        simp only [Nat.lt_irrefl, if_false, if_true]
        rw [if_neg (by simp), if_neg hne2, ih2, hres]
        simp [hres]

/-- Form of `repLoop_greedy_run` for a pattern `p{lo,}`. -/
theorem matchRe_greedy_run (p : Char → Bool) (k : Cont) (lo : Nat) (pre ls r : Str)
    (caps : List (Nat × Str)) (hr : ∀ c ∈ r.head?, p c = false) (hlo : lo ≤ ls.length)
    (hp : ∀ c ∈ ls, p c = true) (hk : (k ⟨ls.reverse ++ pre, r, caps⟩).isSome = true) :
    matchRe (.rep lo none true (.cls p)) k ⟨pre, ls ++ r, caps⟩ =
      k ⟨ls.reverse ++ pre, r, caps⟩ := by
  rw [matchRe_rep]
  exact repLoop_greedy_run p k r caps hr ls _ lo pre (by simp; omega) hlo hp hk

/-- A greedy `p{lo,}` followed by nothing succeeds when the input starts with `lo`
characters of the class. -/
theorem matchRe_greedy_some (p : Char → Bool) (lo : Nat) (pre ls rest : Str)
    (caps : List (Nat × Str)) (hlo : lo ≤ ls.length) (hp : ∀ c ∈ ls, p c = true) :
    (matchRe (.rep lo none true (.cls p)) some ⟨pre, ls ++ rest, caps⟩).isSome = true := by
  have e : ls ++ rest = (ls ++ rest.takeWhile p) ++ rest.dropWhile p := by
    rw [List.append_assoc, List.takeWhile_append_dropWhile]
  rw [e, matchRe_greedy_run p some lo pre _ _ caps]
  · rfl
  · intro c hc
    cases h : rest.dropWhile p with
    | nil => rw [h] at hc; simp at hc
    | cons d ds =>
      rw [h] at hc
      simp at hc
      subst hc
      have := List.head_dropWhile_not p rest (by rw [h]; simp)
      simpa [h] using this
  · simp; omega
  · intro c hc
    simp only [List.mem_append] at hc
    rcases hc with hc | hc
    · exact hp c hc
    · exact (List.mem_takeWhile_imp hc)
  · rfl

/-- What a successful match of `p{lo,hi}` followed by `k` has consumed. -/
theorem repLoop_sound (p : Char → Bool) (g : Bool) (k : Cont) (caps : List (Nat × Str))
    (res : St) :
    ∀ (fuel lo : Nat) (hi : Option Nat) (pre rest : Str), (∀ h, hi = some h → lo ≤ h) →
      repLoop (matchRe (.cls p)) g fuel lo hi k ⟨pre, rest, caps⟩ = some res →
      ∃ ls r, rest = ls ++ r ∧ (∀ c ∈ ls, p c = true) ∧ lo ≤ ls.length ∧
        k ⟨ls.reverse ++ pre, r, caps⟩ = some res := by
  intro fuel
  induction fuel with
  | zero => intro lo hi pre rest _ h; simp [repLoop] at h
  | succ f ih =>
    intro lo hi pre rest hhi h
    rw [repLoop] at h
    have hstep : matchRe (.cls p) (fun y => if lo = 0 ∧ y.rest.length = rest.length then none
          else repLoop (matchRe (.cls p)) g f (lo - 1) (hi.map (fun h => h - 1)) k y)
          ⟨pre, rest, caps⟩ = some res →
        ∃ ls r, rest = ls ++ r ∧ (∀ c ∈ ls, p c = true) ∧ lo ≤ ls.length ∧
          k ⟨ls.reverse ++ pre, r, caps⟩ = some res := by
      intro hm
      cases rest with
      | nil => simp at hm
      | cons c cs =>
        rw [matchRe_cls_cons] at hm
        by_cases hc : p c = true
        · rw [if_pos hc] at hm
          simp only [] at hm
          split at hm
          · cases hm
          · have hhi2 : ∀ h, hi.map (fun h => h - 1) = some h → lo - 1 ≤ h := by
              intro h hh
              cases hi with
              | none => simp at hh
              | some v =>
                simp at hh
                have := hhi v rfl
                omega
            obtain ⟨ls, r, h1, h2, h3, h4⟩ := ih _ _ _ _ hhi2 hm
            refine ⟨c :: ls, r, by simp [h1], ?_, by simp; omega, by simpa using h4⟩
            intro x hx
            simp at hx
            rcases hx with rfl | hx
            · exact hc
            · exact h2 x hx
        · rw [if_neg hc] at hm
          cases hm
    have hzero : lo = 0 → k ⟨pre, rest, caps⟩ = some res →
        ∃ ls r, rest = ls ++ r ∧ (∀ c ∈ ls, p c = true) ∧ lo ≤ ls.length ∧
          k ⟨ls.reverse ++ pre, r, caps⟩ = some res := by
      intro hz hk
      exact ⟨[], rest, rfl, by simp, by simp [hz], by simpa using hk⟩
    split at h
    · rename_i hhi0
      have := hhi 0 hhi0
      exact hzero (by omega) h
    · simp only [] at h
      split at h
      · exact hstep h
      · rename_i hlo
        have hz : lo = 0 := by omega
        split at h
        · cases hm : matchRe (.cls p) (fun y => if lo = 0 ∧ y.rest.length = rest.length then none
              else repLoop (matchRe (.cls p)) g f (lo - 1) (hi.map (fun h => h - 1)) k y)
              ⟨pre, rest, caps⟩ with
          | some r1 =>
            rw [hm] at h
            simp only [orElse_some] at h
            rw [h] at hm
            exact hstep hm
          | none =>
            rw [hm] at h
            exact hzero hz h
        · cases hk : k ⟨pre, rest, caps⟩ with
          | some r1 =>
            rw [hk] at h
            simp only [orElse_some] at h
            rw [h] at hk
            exact hzero hz hk
          | none =>
            rw [hk] at h
            exact hstep h

/-- Form of `repLoop_sound` for a pattern. -/
theorem matchRe_rep_sound (p : Char → Bool) (g : Bool) (k : Cont) (caps : List (Nat × Str))
    (res : St) (lo : Nat) (hi : Option Nat) (pre rest : Str) (hhi : ∀ h, hi = some h → lo ≤ h)
    (h : matchRe (.rep lo hi g (.cls p)) k ⟨pre, rest, caps⟩ = some res) :
    ∃ ls r, rest = ls ++ r ∧ (∀ c ∈ ls, p c = true) ∧ lo ≤ ls.length ∧
      k ⟨ls.reverse ++ pre, r, caps⟩ = some res := by
  rw [matchRe_rep] at h
  exact repLoop_sound p g k caps res _ lo hi pre rest hhi h

/-- The search finds a match when the pattern matches at some position. -/
theorem searchFrom_isSome (re : Re) (a : Str) :
    ∀ (pre r : Str), (execAt re (a.reverse ++ pre) r).isSome = true →
      (searchFrom re pre (a ++ r)).isSome = true := by
  induction a with
  | nil =>
    intro pre r h
    simp only [List.reverse_nil, List.nil_append] at h ⊢
    obtain ⟨m, hm⟩ := Option.isSome_iff_exists.mp h
    cases r <;> simp [searchFrom, hm]
  | cons c a ih =>
    intro pre r h
    rw [List.cons_append, searchFrom]
    cases hm : execAt re pre (c :: (a ++ r)) with
    | some m => rfl
    | none =>
      simp only []
      apply ih
      simpa using h

/-- The search finds a match only where the pattern matches. -/
theorem searchFrom_sound (re : Re) (s : Str) :
    ∀ (pre : Str), (searchFrom re pre s).isSome = true →
      ∃ a r, s = a ++ r ∧ (execAt re (a.reverse ++ pre) r).isSome = true := by
  induction s with
  | nil =>
    intro pre h
    refine ⟨[], [], rfl, ?_⟩
    simp only [searchFrom] at h
    cases hm : execAt re pre [] with
    | some m => simp [hm]
    | none => rw [hm] at h; cases h
  | cons c cs ih =>
    intro pre h
    rw [searchFrom] at h
    cases hm : execAt re pre (c :: cs) with
    | some m => exact ⟨[], c :: cs, rfl, by simp [hm]⟩
    | none =>
      rw [hm] at h
      obtain ⟨a, r, h1, h2⟩ := ih (c :: pre) h
      exact ⟨c :: a, r, by simp [h1], by simpa using h2⟩

theorem execAt_isSome (re : Re) (pre rest : Str) :
    (execAt re pre rest).isSome = (matchRe re some ⟨pre, rest, []⟩).isSome := by
  unfold execAt
  cases matchRe re some ⟨pre, rest, []⟩ <;> rfl

/-- A match at some position makes `re.test` true. -/
theorem test_of_execAt (re : Re) (a r : Str)
    (h : (matchRe re some ⟨a.reverse, r, []⟩).isSome = true) : test re (a ++ r) = true := by
  unfold test
  apply searchFrom_isSome
  rw [execAt_isSome]
  simpa using h

/-- An optional character class at the end of the input is passed over. -/
theorem matchRe_optional_nil (p : Char → Bool) (k : Cont) (pre : Str)
    (caps : List (Nat × Str)) :
    matchRe (.rep 0 (some 1) true (.cls p)) k ⟨pre, [], caps⟩ = k ⟨pre, [], caps⟩ := by
  rw [matchRe_rep]
  simp only [List.length_nil, Nat.zero_add]
  rw [repLoop]
  simp

end JsRe

namespace JsRe

theorem execAt_text_isPrefix (re : Re) (pre rest : Str) (m : Match)
    (h : execAt re pre rest = some m) : m.text <+: rest := by
  unfold execAt at h
  split at h
  · simp only [Option.some.injEq] at h
    rw [← h]
    exact List.take_prefix _ _
  · cases h

/-- Every text found by `match` with `g` occurs in the input. -/
theorem matchAllGo_infix (re : Re) (s : Str) :
    ∀ (skip : Nat) (pre : Str), ∀ m ∈ matchAllGo re skip pre s, m <:+: s := by
  induction s with
  | nil =>
    intro skip pre m hm
    cases skip with
    | zero =>
      rw [matchAllGo] at hm
      split at hm
      · rename_i x hx
        simp only [List.mem_singleton] at hm
        rw [hm]
        exact (execAt_text_isPrefix re pre [] x hx).isInfix
      · cases hm
    | succ n => rw [matchAllGo] at hm; cases hm
  | cons c cs ih =>
    intro skip pre m hm
    have hcs : ∀ x, x <:+: cs → x <:+: c :: cs := fun x hx =>
      hx.trans (List.suffix_cons c cs).isInfix
    cases skip with
    | zero =>
      rw [matchAllGo] at hm
      split at hm
      · exact hcs m (ih 0 (c :: pre) m hm)
      · rename_i x hx
        have hp := (execAt_text_isPrefix re pre (c :: cs) x hx).isInfix
        split at hm
        · simp only [List.mem_cons] at hm
          rcases hm with rfl | hm
          · exact hp
          · exact hcs m (ih 0 (c :: pre) m hm)
        · simp only [List.mem_cons] at hm
          rcases hm with rfl | hm
          · exact hp
          · exact hcs m (ih _ (c :: pre) m hm)
    | succ n =>
      rw [matchAllGo] at hm
      exact hcs m (ih n (c :: pre) m hm)

theorem matchAll_getD (re : Re) (s : Str) : (matchAll re s).getD [] = matchAllGo re 0 [] s := by
  unfold matchAll
  split
  · rename_i h; rw [h]; rfl
  · rfl

theorem matchRe_seqs_cons (a : Re) (as : List Re) (k : Cont) (s : St) :
    matchRe (seqs (a :: as)) k s = matchRe a (matchRe (seqs as) k) s := by
  cases as with
  | nil => rfl
  | cons b bs => rfl

/-- A literal that matches is in front of the input. -/
theorem matchRe_chars_sound (l : Str) (k : Cont) (res : St) :
    ∀ (pre r : Str) (caps : List (Nat × Str)),
      matchRe (seqs (l.map chr)) k ⟨pre, r, caps⟩ = some res →
      ∃ r', r = l ++ r' ∧ k ⟨l.reverse ++ pre, r', caps⟩ = some res := by
  induction l with
  | nil => intro pre r caps h; exact ⟨r, rfl, h⟩
  | cons c l ih =>
    intro pre r caps h
    rw [List.map_cons, matchRe_seqs_cons] at h
    cases r with
    | nil => simp [chr] at h
    | cons x xs =>
      simp only [chr, matchRe_cls_cons] at h
      split at h
      · rename_i hx
        have hxc : x = c := by simpa using hx
        subst hxc
        obtain ⟨r', h1, h2⟩ := ih (x :: pre) xs caps h
        exact ⟨r', by rw [h1]; rfl, by simpa using h2⟩
      · cases h

theorem searchFrom_some_execAt (re : Re) (s : Str) :
    ∀ (pre : Str) (b : Str) (m : Match), searchFrom re pre s = some (b, m) →
      ∃ pre' r, execAt re pre' r = some m := by
  induction s with
  | nil =>
    intro pre b m h
    rw [searchFrom] at h
    split at h
    · rename_i x hx
      simp only [Option.some.injEq, Prod.mk.injEq] at h
      exact ⟨pre, [], by rw [hx, h.2]⟩
    · cases h
  | cons c cs ih =>
    intro pre b m h
    rw [searchFrom] at h
    split at h
    · rename_i x hx
      simp only [Option.some.injEq, Prod.mk.injEq] at h
      exact ⟨pre, c :: cs, by rw [hx, h.2]⟩
    · exact ih (c :: pre) b m h

theorem execAt_some_caps (re : Re) (pre r : Str) (m : Match) (h : execAt re pre r = some m) :
    ∃ res, matchRe re some ⟨pre, r, []⟩ = some res ∧ m.caps = res.caps := by
  unfold execAt at h
  split at h
  · rename_i res hres
    simp only [Option.some.injEq] at h
    exact ⟨res, hres, by rw [← h]⟩
  · cases h

end JsRe

/-! ### `fix-sanity-content-formatting.js` -/

namespace FixFormatting

open JsRe

theorem jsTrim_blank (s : Str) (h : ∀ c ∈ s, isSpace c = true) : jsTrim s = [] := by
  unfold jsTrim
  have : s.dropWhile isSpace = [] := List.dropWhile_eq_nil_iff.mpr h
  rw [this]
  rfl

theorem convert_blank (s : Str) (h : ∀ c ∈ s, isSpace c = true) :
    convertHtmlToPortableText s = [createEmptyBlock] := by
  unfold convertHtmlToPortableText
  rw [if_pos (Or.inr (by rw [jsTrim_blank s h]; rfl))]

/-- C1: `convertHtmlToPortableText` returns the single empty block for the empty string, for
every string made of white space only (such as `"   "`) and for `<p></p>`; that block has
style `normal`, no markDefs and exactly one span, with text `""` and marks `[]`. -/
theorem convert_empty_inputs :
    (∀ s : Str, (∀ c ∈ s, isSpace c = true) →
      convertHtmlToPortableText s = [createEmptyBlock]) ∧
    convertHtmlToPortableText "".toList = [createEmptyBlock] ∧
    convertHtmlToPortableText "   ".toList = [createEmptyBlock] ∧
    convertHtmlToPortableText " \t\n\r ".toList = [createEmptyBlock] ∧
    convertHtmlToPortableText "<p></p>".toList = [createEmptyBlock] ∧
    createEmptyBlock.style = "normal".toList ∧ createEmptyBlock.markDefs = [] ∧
    createEmptyBlock.children.map spanView = [([], [])] :=
  ⟨convert_blank, by decide, by decide, by decide, by decide, by decide, by decide, by decide⟩

theorem orEmptySpan_ne_nil (k : Nat) (c : List Span) : orEmptySpan k c ≠ [] := by
  unfold orEmptySpan
  split
  · simp
  · rename_i h
    intro h2
    rw [h2] at h
    simp at h

theorem parseInlineElements_ne_nil (html : Str) (k : Nat) : parseInlineElements html k ≠ [] :=
  orEmptySpan_ne_nil _ _

theorem listBlocks_children (kind : Str) (bk : Nat) (items : List Str) :
    ∀ (i : Nat), ∀ b ∈ listBlocks kind bk i items, b.children ≠ [] := by
  induction items with
  | nil => intro i b hb; simp [listBlocks] at hb
  | cons item items ih =>
    intro i b hb
    simp only [listBlocks, List.mem_cons] at hb
    rcases hb with hb | hb
    · rw [hb]; exact parseInlineElements_ne_nil _ _
    · exact ih _ b hb

theorem convertBlock_children (t : Str) (bk : Nat) :
    ∀ b ∈ convertBlock t bk, b.children ≠ [] := by
  intro b hb
  unfold convertBlock at hb
  split at hb
  · simp at hb; rw [hb]; simp
  · split at hb
    · split at hb
      · exact listBlocks_children _ _ _ _ b hb
      · simp at hb
    · split at hb
      · split at hb
        · exact listBlocks_children _ _ _ _ b hb
        · simp at hb
      · split at hb
        · simp only [] at hb
          split at hb
          · simp at hb; rw [hb]; exact parseInlineElements_ne_nil _ _
          · simp at hb
        · simp only [] at hb
          split at hb
          · simp at hb; rw [hb]; simp
          · simp at hb

theorem foldl_blockStep_children (l : List Str) :
    ∀ (st : List Block × Nat), (∀ b ∈ st.1, b.children ≠ []) →
      ∀ b ∈ (l.foldl blockStep st).1, b.children ≠ [] := by
  induction l with
  | nil => intro st h; simpa using h
  | cons x xs ih =>
    intro st h
    rw [List.foldl_cons]
    apply ih
    unfold blockStep
    simp only []
    split
    · exact h
    · intro b hb
      simp only [List.mem_append] at hb
      rcases hb with hb | hb
      · exact h b hb
      · exact convertBlock_children _ _ b hb

/-- C2: for every input string, `convertHtmlToPortableText` returns a non-empty list of
blocks, and every block of the list has a non-empty children list. -/
theorem convert_blocks_and_children_nonempty (html : Str) :
    convertHtmlToPortableText html ≠ [] ∧
      ∀ b ∈ convertHtmlToPortableText html, b.children ≠ [] := by
  unfold convertHtmlToPortableText
  split
  · refine ⟨by simp, ?_⟩
    intro b hb
    simp at hb
    rw [hb]
    simp [createEmptyBlock]
  · simp only []
    split
    · rename_i h
      refine ⟨?_, ?_⟩
      · intro h2; rw [h2] at h; simp at h
      · exact foldl_blockStep_children _ _ (by simp)
    · refine ⟨by simp, ?_⟩
      intro b hb
      simp at hb
      rw [hb]
      simp [createEmptyBlock]

/-- C6: the substitution chain decodes `&amp;` last and does not decode twice:
`"A &amp;amp; B"` becomes `"A &amp; B"`, and for each entity `E` of the table, `&amp;`
followed by `E` without its `&` becomes the literal text `E`. -/
theorem cleanHtml_amp_decoded_last :
    cleanHtml "A &amp;amp; B".toList = "A &amp; B".toList ∧
    ["&lt;", "&gt;", "&quot;", "&nbsp;", "&hellip;", "&#8211;", "&#8212;", "&#8216;", "&#8217;",
      "&#8220;", "&#8221;"].map (fun e => cleanHtml ("&amp;".toList ++ e.toList.drop 1)) =
    ["&lt;", "&gt;", "&quot;", "&nbsp;", "&hellip;", "&#8211;", "&#8212;", "&#8216;", "&#8217;",
      "&#8220;", "&#8221;"].map String.toList := by
  decide

theorem execAt_lit_ne (s : String) (d : Char) (ds : Str) (hs : s.toList = d :: ds) (c : Char)
    (hc : c ≠ d) : FailsAt (lit s) c := by
  intro pre rest
  apply execAt_of_matchRe_none
  unfold lit
  rw [hs]
  cases ds with
  | nil => simp [seqs, chr, hc]
  | cons e es => simp [seqs, chr, hc]

theorem execAt_lit_nil (s : String) (d : Char) (ds : Str) (hs : s.toList = d :: ds) (pre : Str) :
    execAt (lit s) pre [] = none := by
  apply execAt_of_matchRe_none
  unfold lit
  rw [hs]
  cases ds with
  | nil => simp [seqs, chr]
  | cons e es => simp [seqs, chr]

theorem replaceAll_lit_noop (s : String) (d : Char) (ds : Str) (hs : s.toList = d :: ds)
    (rep t : Str) (ht : ∀ c ∈ t, c ≠ d) : replaceAll (lit s) rep t = t :=
  replaceAll_noop _ _ _ (fun c hc => execAt_lit_ne s d ds hs c (ht c hc))
    (execAt_lit_nil s d ds hs)

theorem execAt_reDoubleBr_none (pre rest : Str) (c : Char)
    (h : c ≠ '<' ∨ ∀ d ∈ rest.head?, d ≠ 'b' ∧ d ≠ 'B') :
    execAt reDoubleBr pre (c :: rest) = none := by
  apply execAt_of_matchRe_none
  rcases h with h | h
  · simp [reDoubleBr, seqs, chr, h]
  · cases rest with
    | nil => simp [reDoubleBr, seqs, chr, litI, chrI]
    | cons d ds =>
      have hd := h d (by simp)
      simp [reDoubleBr, seqs, chr, litI, chrI, hd.1, hd.2]

theorem replaceAllGo_reDoubleBr_noop (rep : Str) :
    ∀ (s pre : Str), noLtThen isBrStart s = true →
      replaceAllGo reDoubleBr rep 0 pre s = s := by
  intro s
  induction s with
  | nil =>
    intro pre _
    rw [replaceAllGo, execAt_of_matchRe_none]
    simp [reDoubleBr, seqs, chr]
  | cons c rest ih =>
    intro pre h
    have hrest : noLtThen isBrStart rest = true := by
      cases rest with
      | nil => rfl
      | cons d ds => simp [noLtThen] at h; exact h.2
    have hc : execAt reDoubleBr pre (c :: rest) = none := by
      apply execAt_reDoubleBr_none
      cases rest with
      | nil => right; simp
      | cons d ds =>
        simp [noLtThen, isBrStart] at h
        rcases h.1 with h1 | h1
        · left; exact h1
        · right; intro e he; simp at he; subst he; exact h1
    rw [replaceAllGo, hc]
    simp only []
    rw [ih _ hrest]

theorem cleanHtml_noop (s : Str) (h1 : ∀ c ∈ s, c ≠ '&') (h2 : ∀ c ∈ s, c ≠ '\r')
    (h3 : noLtThen isBrStart s = true) : cleanHtml s = s := by
  unfold cleanHtml
  rw [replaceAll_lit_noop "&#8211;" '&' _ rfl _ s h1]
  rw [replaceAll_lit_noop "&#8212;" '&' _ rfl _ s h1]
  rw [replaceAll_lit_noop "&#8220;" '&' _ rfl _ s h1]
  rw [replaceAll_lit_noop "&#8221;" '&' _ rfl _ s h1]
  rw [replaceAll_lit_noop "&#8216;" '&' _ rfl _ s h1]
  rw [replaceAll_lit_noop "&#8217;" '&' _ rfl _ s h1]
  rw [replaceAll_lit_noop "&nbsp;" '&' _ rfl _ s h1]
  rw [replaceAll_lit_noop "&hellip;" '&' _ rfl _ s h1]
  rw [replaceAll_lit_noop "&quot;" '&' _ rfl _ s h1]
  rw [replaceAll_lit_noop "&lt;" '&' _ rfl _ s h1]
  rw [replaceAll_lit_noop "&gt;" '&' _ rfl _ s h1]
  rw [replaceAll_lit_noop "&amp;" '&' _ rfl _ s h1]
  rw [replaceAll_lit_noop "\r\n" '\r' _ rfl _ s h2]
  rw [replaceAll_lit_noop "\r" '\r' _ rfl _ s h2]
  exact replaceAllGo_reDoubleBr_noop _ s [] h3

theorem noLtThen_pass (bad : Char → Bool) (t : Str) (ht : ∀ c ∈ t, c ≠ '<') (r : Str) :
    noLtThen bad (t ++ r) = noLtThen bad r := by
  induction t with
  | nil => rfl
  | cons c t ih =>
    have hc : c ≠ '<' := ht c (by simp)
    have ih2 := ih (fun c hc => ht c (by simp [hc]))
    cases h : t ++ r with
    | nil =>
      have ht2 : t = [] := (List.append_eq_nil.mp h).1
      have hr2 : r = [] := (List.append_eq_nil.mp h).2
      subst ht2; subst hr2; rfl
    | cons d x =>
      rw [List.cons_append, h, noLtThen, ← h, ih2]
      simp [hc]

theorem noLtThen_tag (bad : Char → Bool) (d : Char) (a r : Str) (hd : bad d = false)
    (ha : ∀ c ∈ d :: a, c ≠ '<') :
    noLtThen bad ('<' :: d :: a ++ r) = noLtThen bad r := by
  have h := noLtThen_pass bad (d :: a) ha r
  rw [List.cons_append, List.cons_append, noLtThen, ← List.cons_append, h]
  simp [hd]

theorem failsAt_reBlockSplit (c : Char) (hc : c ≠ '<') : FailsAt reBlockSplit c := by
  intro pre rest
  apply execAt_of_matchRe_none
  simp [reBlockSplit, alts, seqs, lit, chr, hc]

theorem execAt_reBlockSplit_close (pre rest : Str) :
    execAt reBlockSplit pre ('<' :: '/' :: rest) = none := by
  apply execAt_of_matchRe_none
  simp [reBlockSplit, alts, seqs, lit, chr]

theorem execAt_reBlockSplit_p (pre rest : Str) :
    execAt reBlockSplit pre ('<' :: 'p' :: '>' :: rest) = some ⟨[], []⟩ := by
  apply execAt_of_matchRe _ _ [] _ pre
  simp [reBlockSplit, alts, seqs, lit, chr, many, notGt, matchRe_many_stop]

theorem splitGo_paragraph (t : Str) (ht : ∀ c ∈ t, c ≠ '<') (cur pre r : Str) :
    splitGo reBlockSplit false 0 cur pre (paragraph t ++ r) =
      (if cur.isEmpty then [] else [cur.reverse]) ++
        splitGo reBlockSplit false 0 (paragraph t).reverse ((paragraph t).reverse ++ pre) r := by
  have step1 : ∀ cur1 pre1, splitGo reBlockSplit false 0 cur1 pre1
      (('p' :: '>' :: t) ++ ('<' :: '/' :: 'p' :: '>' :: r)) =
      splitGo reBlockSplit false 0 (('p' :: '>' :: t).reverse ++ cur1)
        (('p' :: '>' :: t).reverse ++ pre1) ('<' :: '/' :: 'p' :: '>' :: r) := by
    intro cur1 pre1
    apply splitGo_pass
    intro c hc
    apply failsAt_reBlockSplit
    simp at hc
    rcases hc with hc | hc | hc
    · rw [hc]; decide
    · rw [hc]; decide
    · exact ht c hc
  have step2 : ∀ cur1 pre1, splitGo reBlockSplit false 0 cur1 pre1 ('<' :: '/' :: 'p' :: '>' :: r) =
      splitGo reBlockSplit false 0 ('>' :: 'p' :: '/' :: '<' :: cur1)
        ('>' :: 'p' :: '/' :: '<' :: pre1) r := by
    intro cur1 pre1
    rw [splitGo, execAt_reBlockSplit_close]
    simp only []
    have := splitGo_pass reBlockSplit false ['/', 'p', '>']
      (fun c hc => failsAt_reBlockSplit c (by
        simp at hc
        rcases hc with hc | hc | hc <;> (rw [hc]; decide))) ('<' :: cur1) ('<' :: pre1) r
    simpa using this
  have e : paragraph t ++ r = '<' :: (('p' :: '>' :: t) ++ ('<' :: '/' :: 'p' :: '>' :: r)) := by
    simp [paragraph]
  rw [e, splitGo, List.cons_append, List.cons_append, execAt_reBlockSplit_p]
  simp only [List.length_nil]
  have e2 : ∀ cur1 pre1, splitGo reBlockSplit false 0 cur1 pre1
      ('p' :: '>' :: (t ++ '<' :: '/' :: 'p' :: '>' :: r)) =
      splitGo reBlockSplit false 0 ('>' :: 'p' :: '/' :: '<' :: (('p' :: '>' :: t).reverse ++ cur1))
        ('>' :: 'p' :: '/' :: '<' :: (('p' :: '>' :: t).reverse ++ pre1)) r := by
    intro cur1 pre1
    have := step1 cur1 pre1
    rw [List.cons_append, List.cons_append] at this
    rw [this, step2]
  have e3 : (paragraph t).reverse = '>' :: 'p' :: '/' :: '<' :: (('p' :: '>' :: t).reverse ++ ['<']) := by
    simp [paragraph]
  rw [e3]
  cases cur with
  | nil =>
    simp only [List.isEmpty_nil, if_true, List.nil_append]
    rw [e2]
    simp
  | cons x xs =>
    simp only [List.isEmpty_cons, Bool.false_eq_true, if_false, List.nil_append]
    rw [e2]
    simp

theorem splitGo_paragraphs (ts : List Str) (hts : ∀ t ∈ ts, ∀ c ∈ t, c ≠ '<') :
    ∀ (cur pre : Str), cur ≠ [] →
      splitGo reBlockSplit false 0 cur pre (paragraphsHtml ts) = cur.reverse :: ts.map paragraph := by
  induction ts with
  | nil => intro cur pre _; simp [paragraphsHtml, splitGo]
  | cons t ts ih =>
    intro cur pre hcur
    have e : paragraphsHtml (t :: ts) = paragraph t ++ paragraphsHtml ts := by
      simp [paragraphsHtml]
    rw [e, splitGo_paragraph t (hts t (by simp)),
      ih (fun t ht => hts t (by simp [ht])) _ _ (by simp [paragraph])]
    cases cur with
    | nil => exact absurd rfl hcur
    | cons x xs => simp

theorem split_paragraphs (ts : List Str) (hts : ∀ t ∈ ts, ∀ c ∈ t, c ≠ '<') (hne : ts ≠ []) :
    split reBlockSplit false (paragraphsHtml ts) = ts.map paragraph := by
  cases ts with
  | nil => exact absurd rfl hne
  | cons t ts =>
    have e : paragraphsHtml (t :: ts) = paragraph t ++ paragraphsHtml ts := by
      simp [paragraphsHtml]
    have e2 : paragraph t ++ paragraphsHtml ts =
        '<' :: ('p' :: '>' :: (t ++ "</p>".toList) ++ paragraphsHtml ts) := by
      simp [paragraph]
    rw [e]
    unfold split
    rw [e2]
    simp only []
    rw [← e2, splitGo_paragraph t (hts t (by simp)),
      splitGo_paragraphs ts (fun t ht => hts t (by simp [ht])) _ _ (by simp [paragraph])]
    simp

theorem jsMatch_eq_execAt (re b : Re) (h : re = .seq .bol b) (s : Str) :
    jsMatch re s = execAt re [] s := by
  subst h
  exact jsMatch_bol b s

theorem test_eq_execAt (re b : Re) (h : re = .seq .bol b) (s : Str) :
    test re s = (execAt re [] s).isSome := by
  subst h
  exact test_bol b s

theorem failsAt_reInlineSplit (c : Char) (hc : c ≠ '<') : FailsAt reInlineSplit c := by
  intro pre rest
  apply execAt_of_matchRe_none
  simp [reInlineSplit, alts, seqs, lit, chr, hc]

theorem split_reInlineSplit_plain (t : Str) (hne : t ≠ []) (ht : ∀ c ∈ t, c ≠ '<') :
    split reInlineSplit true t = [t] := by
  cases t with
  | nil => exact absurd rfl hne
  | cons c cs =>
    unfold split
    simp only []
    have := splitGo_pass reInlineSplit true (c :: cs)
      (fun d hd => failsAt_reInlineSplit d (ht d hd)) [] [] []
    rw [List.append_nil] at this
    rw [this]
    simp [splitGo]

theorem inlineStep_plain (k : Nat) (st : Inline) (c : Char) (cs : Str) (hc : c ≠ '<') :
    inlineStep k st (c :: cs) = { st with currentText := st.currentText ++ c :: cs } := by
  have h1 : test reOpenStrong (c :: cs) = false := by
    rw [test_eq_execAt reOpenStrong _ rfl, execAt_of_matchRe_none]; rfl
    simp [reOpenStrong, seqs, chr, hc]
  have h2 : test reCloseStrong (c :: cs) = false := by
    rw [test_eq_execAt reCloseStrong _ rfl, execAt_of_matchRe_none]; rfl
    simp [reCloseStrong, seqs, lit, chr, hc]
  have h3 : test reOpenEm (c :: cs) = false := by
    rw [test_eq_execAt reOpenEm _ rfl, execAt_of_matchRe_none]; rfl
    simp [reOpenEm, seqs, chr, hc]
  have h4 : test reCloseEm (c :: cs) = false := by
    rw [test_eq_execAt reCloseEm _ rfl, execAt_of_matchRe_none]; rfl
    simp [reCloseEm, seqs, lit, chr, hc]
  have h5 : test reOpenCode (c :: cs) = false := by
    rw [test_eq_execAt reOpenCode _ rfl, execAt_of_matchRe_none]; rfl
    simp [reOpenCode, seqs, chr, hc]
  have h6 : test reCloseCode (c :: cs) = false := by
    rw [test_eq_execAt reCloseCode _ rfl, execAt_of_matchRe_none]; rfl
    simp [reCloseCode, seqs, lit, chr, hc]
  have h7 : test reBr (c :: cs) = false := by
    rw [test_eq_execAt reBr _ rfl, execAt_of_matchRe_none]; rfl
    simp [reBr, seqs, chr, hc]
  have h8 : test reAnchor (c :: cs) = false := by
    rw [test_eq_execAt reAnchor _ rfl, execAt_of_matchRe_none]; rfl
    simp [reAnchor, seqs, chr, hc]
  have h9 : test reWholeTag (c :: cs) = false := by
    rw [test_eq_execAt reWholeTag _ rfl, execAt_of_matchRe_none]; rfl
    simp [reWholeTag, seqs, chr, hc]
  unfold inlineStep
  simp [h1, h2, h3, h4, h5, h6, h7, h8, h9]

theorem parseInlineElements_plain (t : Str) (k : Nat) (h : PlainText t) :
    parseInlineElements t k =
      [⟨"span".toList, "span-".toList ++ num k ++ "-".toList ++ num 1, t, []⟩] := by
  obtain ⟨hne, hhead, hlast, hchars⟩ := h
  have htrim : jsTrim t = t := jsTrim_id t hhead hlast
  unfold parseInlineElements
  simp only []
  rw [split_reInlineSplit_plain t hne (fun c hc => (hchars c hc).1)]
  cases t with
  | nil => exact absurd rfl hne
  | cons c cs =>
    rw [List.foldl_cons, List.foldl_nil, inlineStep_plain k _ c cs (hchars c (by simp)).1]
    simp [finishInline, orEmptySpan, htrim]

theorem execAt_reElement_p (t r : Str) (ht : ∀ c ∈ t, c ≠ '<') :
    execAt (reElement "p") [] (paragraph t ++ r) = some ⟨paragraph t, [(1, t)]⟩ := by
  apply execAt_of_matchRe _ _ _ _ (paragraph t).reverse
  simp [paragraph, reElement, lit, litI, seqs, chr, chrI, many, notGt, manyLazy, anyChar,
    matchRe_many_stop]
  rw [matchRe_lazy_until]
  · simp
  · simp
  · intro c hc pre1 rest1 caps1
    simp [ht c hc]
  · simp

/-- The block pushed for the paragraph `<p>t</p>` with counter value `k`. -/
theorem convertBlock_paragraph (t : Str) (k : Nat) (h : PlainText t) :
    convertBlock (paragraph t) k =
      [{ _type := "block".toList
         _key := "block-".toList ++ num k
         style := "normal".toList
         listItem := none
         level := none
         markDefs := []
         children := [⟨"span".toList, "span-".toList ++ num k ++ "-".toList ++ num 1, t, []⟩] }] := by
  have ht : ∀ c ∈ t, c ≠ '<' := fun c hc => (h.2.2.2 c hc).1
  have e : paragraph t = '<' :: 'p' :: '>' :: (t ++ "</p>".toList) := by simp [paragraph]
  have h1 : jsMatch reHeader (paragraph t) = none := by
    rw [jsMatch_eq_execAt reHeader _ rfl, e, execAt_of_matchRe_none]
    simp [reHeader, seqs, chr, chrI]
  have h2 : jsMatch (reElement "ul") (paragraph t) = none := by
    rw [jsMatch_eq_execAt (reElement "ul") _ rfl, e, execAt_of_matchRe_none]
    simp [reElement, seqs, chr, litI, chrI]
  have h3 : jsMatch (reElement "ol") (paragraph t) = none := by
    rw [jsMatch_eq_execAt (reElement "ol") _ rfl, e, execAt_of_matchRe_none]
    simp [reElement, seqs, chr, litI, chrI]
  have h4 : jsMatch (reElement "p") (paragraph t) = some ⟨paragraph t, [(1, t)]⟩ := by
    rw [jsMatch_eq_execAt (reElement "p") _ rfl]
    have := execAt_reElement_p t [] ht
    rwa [List.append_nil] at this
  have htrim : jsTrim t = t := jsTrim_id t h.2.1 h.2.2.1
  unfold convertBlock
  simp only [h1, h2, h3, h4, Option.orElse, Match.group, List.find?, beq_self_eq_true]
  rw [parseInlineElements_plain t k h]
  simp [htrim, h.1]

theorem jsTrim_tagged (s : Str) : jsTrim ('<' :: s ++ ['>']) = '<' :: s ++ ['>'] := by
  apply jsTrim_id
  · intro c hc
    simp at hc
    rw [← hc]; decide
  · intro c hc
    rw [List.getLast?_append] at hc
    simp at hc
    rw [← hc]; decide

theorem jsTrim_ne_nil (c : Char) (cs : Str) (hc : JsRe.isSpace c = false) :
    (jsTrim (c :: cs)).isEmpty = false := by
  unfold jsTrim
  simp only [List.dropWhile, hc]
  cases h : List.dropWhile isSpace (c :: cs).reverse with
  | nil =>
    rw [List.dropWhile_eq_nil_iff] at h
    have := h c (by simp)
    rw [hc] at this
    cases this
  | cons x xs => simp

theorem blockStep_paragraph (t : Str) (st : List Block × Nat) :
    blockStep st (paragraph t) =
      (st.1 ++ convertBlock (paragraph t) (st.2 + 1), st.2 + 1) := by
  have htrim : jsTrim (paragraph t) = paragraph t := by
    have := jsTrim_tagged ('p' :: '>' :: t ++ "</p".toList)
    simpa [paragraph] using this
  unfold blockStep
  simp only [htrim]
  rw [if_neg]
  simp [paragraph]

theorem foldl_blockStep_paragraphs (ts : List Str) (hts : ∀ t ∈ ts, PlainText t) :
    ∀ (st : List Block × Nat),
      ((ts.map paragraph).foldl blockStep st).1.map blockView =
        st.1.map blockView ++
          ts.map (fun t => ("normal".toList, none, none, [(t, [])])) := by
  induction ts with
  | nil => intro st; simp
  | cons t ts ih =>
    intro st
    rw [List.map_cons, List.foldl_cons, blockStep_paragraph t st,
      ih (fun t ht => hts t (by simp [ht])), convertBlock_paragraph t _ (hts t (by simp))]
    simp [blockView, spanView]

/-- C5: for every non-empty list of texts that are non-empty, have no white space at either
end and contain none of `<`, `>`, `&`, CR, `convertHtmlToPortableText` applied to
`<p>t1</p>...<p>tk</p>` returns exactly one block per text, in source order, each of style
`normal`, without `listItem`, with exactly one span of text `ti` and marks `[]`. -/
theorem convert_paragraphs (ts : List Str) (hne : ts ≠ []) (hts : ∀ t ∈ ts, PlainText t) :
    (convertHtmlToPortableText (paragraphsHtml ts)).map blockView =
      ts.map (fun t => ("normal".toList, none, none, [(t, [])])) := by
  have hlt : ∀ t ∈ ts, ∀ c ∈ t, c ≠ '<' := fun t ht c hc => ((hts t ht).2.2.2 c hc).1
  have hamp : ∀ c ∈ paragraphsHtml ts, c ≠ '&' ∧ c ≠ '\r' := by
    intro c hc
    simp only [paragraphsHtml, List.mem_flatten, List.mem_map] at hc
    obtain ⟨l, ⟨t, ht, rfl⟩, hcl⟩ := hc
    simp only [paragraph, List.mem_append] at hcl
    rcases hcl with (hcl | hcl) | hcl
    · simp at hcl; rcases hcl with hcl | hcl | hcl <;> (rw [hcl]; decide)
    · exact ⟨((hts t ht).2.2.2 c hcl).2.2.1, ((hts t ht).2.2.2 c hcl).2.2.2⟩
    · simp at hcl; rcases hcl with hcl | hcl | hcl | hcl <;> (rw [hcl]; decide)
  have hnob : noLtThen isBrStart (paragraphsHtml ts) = true := by
    clear hne hamp hts
    induction ts with
    | nil => rfl
    | cons t ts ih =>
      have e : paragraphsHtml (t :: ts) =
          '<' :: 'p' :: ('>' :: t) ++ ('<' :: '/' :: ['p', '>'] ++ paragraphsHtml ts) := by
        simp [paragraphsHtml, paragraph]
      rw [e, noLtThen_tag _ 'p' _ _ (by decide), noLtThen_tag _ '/' _ _ (by decide),
        ih (fun t ht => hlt t (by simp [ht]))]
      · intro c hc; simp at hc; rcases hc with hc | hc | hc <;> (rw [hc]; decide)
      · intro c hc
        simp at hc
        rcases hc with hc | hc | hc
        · rw [hc]; decide
        · rw [hc]; decide
        · exact hlt t (by simp) c hc
  have hclean : cleanHtml (paragraphsHtml ts) = paragraphsHtml ts :=
    cleanHtml_noop _ (fun c hc => (hamp c hc).1) (fun c hc => (hamp c hc).2) hnob
  obtain ⟨t0, ts0, rfl⟩ := List.exists_cons_of_ne_nil hne
  have hstart : paragraphsHtml (t0 :: ts0) =
      '<' :: ('p' :: '>' :: (t0 ++ "</p>".toList) ++ paragraphsHtml ts0) := by
    simp [paragraphsHtml, paragraph]
  have htrim : (jsTrim (paragraphsHtml (t0 :: ts0))).isEmpty = false := by
    rw [hstart]
    exact jsTrim_ne_nil _ _ (by decide)
  have hfilter : (t0 :: ts0).map paragraph =
      ((t0 :: ts0).map paragraph).filter (fun block => !(jsTrim block).isEmpty) := by
    symm
    rw [List.filter_eq_self]
    intro b hb
    rw [List.mem_map] at hb
    obtain ⟨t, _, rfl⟩ := hb
    have := jsTrim_ne_nil '<' ('p' :: '>' :: (t ++ "</p>".toList)) (by decide)
    simpa [paragraph] using this
  unfold convertHtmlToPortableText
  rw [if_neg (by rw [htrim]; rw [hstart]; simp)]
  simp only [hclean]
  rw [split_paragraphs _ hlt hne, ← hfilter]
  have hfold := foldl_blockStep_paragraphs (t0 :: ts0) hts ([], 0)
  have hlen : 0 < (((t0 :: ts0).map paragraph).foldl blockStep ([], 0)).1.length := by
    have := congrArg List.length hfold
    simp only [List.length_map, List.map_nil, List.nil_append, List.length_cons] at this
    omega
  rw [if_pos hlen, hfold]
  simp

/-- Witness of C5 on `<p>one</p><p>two words</p>`. -/
theorem convert_paragraphs_witness :
    paragraphsHtml ["one".toList, "two words".toList] = "<p>one</p><p>two words</p>".toList ∧
    ["one".toList, "two words".toList] ≠ [] ∧
    (∀ t ∈ ["one".toList, "two words".toList], PlainText t) ∧
    (convertHtmlToPortableText (paragraphsHtml ["one".toList, "two words".toList])).map
        blockView =
      ["one".toList, "two words".toList].map
        (fun t => ("normal".toList, none, none, [(t, [])])) :=
  ⟨by decide, by decide, by unfold PlainText; decide,
   convert_paragraphs ["one".toList, "two words".toList] (by decide)
     (by unfold PlainText; decide)⟩

theorem execAt_reBlockSplit_none (pre rest : Str) (c : Char)
    (h : c ≠ '<' ∨ ∀ d ∈ rest.head?, isBlockStart d = false) :
    execAt reBlockSplit pre (c :: rest) = none := by
  rcases h with h | h
  · exact failsAt_reBlockSplit c h pre rest
  · apply execAt_of_matchRe_none
    cases rest with
    | nil => simp [reBlockSplit, alts, seqs, lit, chr]
    | cons d ds =>
      have hd := h d (by simp)
      simp [isBlockStart] at hd
      simp [reBlockSplit, alts, seqs, lit, chr, hd]

theorem splitGo_reBlockSplit_none :
    ∀ (s cur pre : Str), noLtThen isBlockStart s = true →
      splitGo reBlockSplit false 0 cur pre s = [(s.reverse ++ cur).reverse] := by
  intro s
  induction s with
  | nil => intro cur pre _; simp [splitGo]
  | cons c rest ih =>
    intro cur pre h
    have hrest : noLtThen isBlockStart rest = true := by
      cases rest with
      | nil => rfl
      | cons d ds => simp [noLtThen] at h; exact h.2
    have hc : execAt reBlockSplit pre (c :: rest) = none := by
      apply execAt_reBlockSplit_none
      cases rest with
      | nil => right; simp
      | cons d ds =>
        simp [noLtThen] at h
        rcases h.1 with h1 | h1
        · left; exact h1
        · right; intro e he; simp at he; subst he; exact h1
    rw [splitGo, hc]
    simp only []
    rw [ih _ _ hrest]
    simp

theorem execAt_reBlockSplit_list (x : Char) (hx : x = 'u' ∨ x = 'o') (pre rest : Str) :
    execAt reBlockSplit pre ('<' :: x :: 'l' :: '>' :: rest) = some ⟨[], []⟩ := by
  apply execAt_of_matchRe _ _ [] _ pre
  rcases hx with rfl | rfl <;>
    simp [reBlockSplit, alts, seqs, lit, chr, many, notGt, matchRe_many_stop]

theorem noLtThen_items (bad : Char → Bool) (hl : bad 'l' = false) (hs : bad '/' = false)
    (ts : List Str) (hts : ∀ t ∈ ts, ∀ c ∈ t, c ≠ '<') (r : Str) :
    noLtThen bad (listItemsHtml ts ++ r) = noLtThen bad r := by
  induction ts with
  | nil => rfl
  | cons t ts ih =>
    have e : listItemsHtml (t :: ts) ++ r =
        '<' :: 'l' :: ('i' :: '>' :: t) ++ ('<' :: '/' :: ['l', 'i', '>'] ++
          (listItemsHtml ts ++ r)) := by
      simp [listItemsHtml, listItemHtml]
    rw [e, noLtThen_tag _ 'l' _ _ hl, noLtThen_tag _ '/' _ _ hs,
      ih (fun t ht => hts t (by simp [ht]))]
    · intro c hc; simp at hc; rcases hc with hc | hc | hc | hc <;> (rw [hc]; decide)
    · intro c hc
      simp at hc
      rcases hc with hc | hc | hc | hc
      · rw [hc]; decide
      · rw [hc]; decide
      · rw [hc]; decide
      · exact hts t (by simp) c hc

theorem noLtThen_listHtml (bad : Char → Bool) (hl : bad 'l' = false) (hs : bad '/' = false)
    (x : Char) (hx : x ≠ '<') (ts : List Str) (hts : ∀ t ∈ ts, ∀ c ∈ t, c ≠ '<') :
    noLtThen bad ('>' :: listItemsHtml ts ++ ['<', '/', x, 'l', '>']) = true := by
  have e : '>' :: listItemsHtml ts ++ ['<', '/', x, 'l', '>'] =
      ['>'] ++ (listItemsHtml ts ++ ('<' :: '/' :: [x, 'l', '>'] ++ [])) := by simp
  rw [e, noLtThen_pass _ _ (by simp), noLtThen_items bad hl hs ts hts,
    noLtThen_tag _ '/' _ _ hs]
  · rfl
  · intro c hc
    simp at hc
    rcases hc with hc | hc | hc | hc
    · rw [hc]; decide
    · rw [hc]; exact hx
    · rw [hc]; decide
    · rw [hc]; decide

theorem split_listHtml (x : Char) (hx : x = 'u' ∨ x = 'o') (ts : List Str)
    (hts : ∀ t ∈ ts, ∀ c ∈ t, c ≠ '<') :
    split reBlockSplit false (listHtml x ts) = [listHtml x ts] := by
  have hx2 : x ≠ '<' := by rcases hx with rfl | rfl <;> decide
  unfold split listHtml
  simp only [List.cons_append]
  rw [splitGo, execAt_reBlockSplit_list x hx]
  simp only [List.length_nil, List.isEmpty_nil, if_true]
  rw [splitGo_reBlockSplit_none]
  · simp
  · have := noLtThen_listHtml isBlockStart (by decide) (by decide) x hx2 ts hts
    have e : x :: 'l' :: '>' :: (listItemsHtml ts ++ ['<', '/', x, 'l', '>']) =
        [x, 'l'] ++ ('>' :: listItemsHtml ts ++ ['<', '/', x, 'l', '>']) := by simp
    rw [e, noLtThen_pass _ _ _ _, this]
    intro c hc
    simp at hc
    rcases hc with hc | hc
    · rw [hc]; exact hx2
    · rw [hc]; decide

/-- A lazy `.*?` passes over list items when the continuation fails at every text
character, at `<l` and at `</l`. -/
theorem matchRe_lazy_skip_items (K : Cont)
    (hK1 : ∀ c, c ≠ '<' → ∀ pre1 rest1 caps1, K ⟨pre1, c :: rest1, caps1⟩ = none)
    (hK2 : ∀ pre1 rest1 caps1, K ⟨pre1, '<' :: 'l' :: rest1, caps1⟩ = none)
    (hK3 : ∀ pre1 rest1 caps1, K ⟨pre1, '<' :: '/' :: 'l' :: rest1, caps1⟩ = none)
    (ts : List Str) (hts : ∀ t ∈ ts, ∀ c ∈ t, c ≠ '<') :
    ∀ (pre r : Str) (caps : List (Nat × Str)),
      matchRe (.rep 0 none false (.cls (fun _ => true))) K
          ⟨pre, listItemsHtml ts ++ r, caps⟩ =
        matchRe (.rep 0 none false (.cls (fun _ => true))) K
          ⟨(listItemsHtml ts).reverse ++ pre, r, caps⟩ := by
  induction ts with
  | nil => intro pre r caps; simp [listItemsHtml]
  | cons t ts ih =>
    intro pre r caps
    have e : listItemsHtml (t :: ts) ++ r =
        '<' :: 'l' :: 'i' :: '>' :: (t ++ '<' :: '/' :: 'l' :: 'i' :: '>' ::
          (listItemsHtml ts ++ r)) := by
      simp [listItemsHtml, listItemHtml]
    have e2 : (listItemsHtml (t :: ts)).reverse ++ pre =
        (listItemsHtml ts).reverse ++ (['l', 'i', '>'].reverse ++
          ('/' :: '<' :: (('l' :: 'i' :: '>' :: t).reverse ++ ('<' :: pre)))) := by
      simp [listItemsHtml, listItemHtml]
    have hp : ∀ (l : Str), ∀ c ∈ l, (fun _ : Char => true) c = true := fun _ _ _ => rfl
    have ht1 : ∀ c ∈ 'l' :: 'i' :: '>' :: t, c ≠ '<' := by
      intro c hc
      simp at hc
      rcases hc with hc | hc | hc | hc
      · rw [hc]; decide
      · rw [hc]; decide
      · rw [hc]; decide
      · exact hts t (by simp) c hc
    have ht2 : ∀ c ∈ ['l', 'i', '>'], c ≠ '<' := by
      intro c hc
      simp at hc
      rcases hc with hc | hc | hc <;> (rw [hc]; decide)
    rw [e, e2]
    calc matchRe (.rep 0 none false (.cls (fun _ => true))) K
          ⟨pre, '<' :: 'l' :: 'i' :: '>' :: (t ++ '<' :: '/' :: 'l' :: 'i' :: '>' ::
            (listItemsHtml ts ++ r)), caps⟩
        = matchRe (.rep 0 none false (.cls (fun _ => true))) K
          ⟨'<' :: pre, ('l' :: 'i' :: '>' :: t) ++ ('<' :: '/' :: 'l' :: 'i' :: '>' ::
            (listItemsHtml ts ++ r)), caps⟩ :=
          matchRe_lazy_step _ K _ _ _ _ (hK2 _ _ _) rfl
      _ = matchRe (.rep 0 none false (.cls (fun _ => true))) K
          ⟨('l' :: 'i' :: '>' :: t).reverse ++ ('<' :: pre),
            '<' :: '/' :: 'l' :: 'i' :: '>' :: (listItemsHtml ts ++ r), caps⟩ :=
          matchRe_lazy_skip _ K _ _ _ _ (hp _) (fun c hc => hK1 c (ht1 c hc))
      _ = matchRe (.rep 0 none false (.cls (fun _ => true))) K
          ⟨'<' :: (('l' :: 'i' :: '>' :: t).reverse ++ ('<' :: pre)),
            '/' :: 'l' :: 'i' :: '>' :: (listItemsHtml ts ++ r), caps⟩ :=
          matchRe_lazy_step _ K _ _ _ _ (hK3 _ _ _) rfl
      _ = matchRe (.rep 0 none false (.cls (fun _ => true))) K
          ⟨'/' :: '<' :: (('l' :: 'i' :: '>' :: t).reverse ++ ('<' :: pre)),
            ['l', 'i', '>'] ++ (listItemsHtml ts ++ r), caps⟩ :=
          matchRe_lazy_step _ K _ _ _ _ (hK1 '/' (by decide) _ _ _) rfl
      _ = matchRe (.rep 0 none false (.cls (fun _ => true))) K
          ⟨['l', 'i', '>'].reverse ++
            ('/' :: '<' :: (('l' :: 'i' :: '>' :: t).reverse ++ ('<' :: pre))),
            listItemsHtml ts ++ r, caps⟩ :=
          matchRe_lazy_skip _ K _ _ _ _ (hp _) (fun c hc => hK1 c (ht2 c hc))
      _ = _ := ih (fun t ht => hts t (by simp [ht])) _ _ _

theorem execAt_reElement_list (x : Char) (tag : String)
    (hx : (x = 'u' ∧ tag = "ul") ∨ (x = 'o' ∧ tag = "ol")) (ts : List Str)
    (hts : ∀ t ∈ ts, ∀ c ∈ t, c ≠ '<') :
    execAt (reElement tag) [] (listHtml x ts) = some ⟨listHtml x ts, [(1, listItemsHtml ts)]⟩ := by
  have key : matchRe (reElement tag) some ⟨[], listHtml x ts ++ [], []⟩ =
      some ⟨(listHtml x ts).reverse, [], [(1, listItemsHtml ts)]⟩ := by
    have hskip := fun K h1 h2 h3 => matchRe_lazy_skip_items K h1 h2 h3 ts hts
    rcases hx with ⟨rfl, rfl⟩ | ⟨rfl, rfl⟩
    · simp [listHtml, reElement, lit, litI, seqs, chr, chrI, many, notGt, manyLazy, anyChar,
        matchRe_many_stop]
      rw [hskip, matchRe_lazy_stop]
      · simp
      · simp
      · intro c hc pre1 rest1 caps1; simp [hc]
      · intro pre1 rest1 caps1; simp
      · intro pre1 rest1 caps1; simp
    · simp [listHtml, reElement, lit, litI, seqs, chr, chrI, many, notGt, manyLazy, anyChar,
        matchRe_many_stop]
      rw [hskip, matchRe_lazy_stop]
      · simp
      · simp
      · intro c hc pre1 rest1 caps1; simp [hc]
      · intro pre1 rest1 caps1; simp
      · intro pre1 rest1 caps1; simp
  have := execAt_of_matchRe _ _ _ _ _ _ key
  simpa using this

theorem execAt_reLi_item (t pre r : Str) (ht : ∀ c ∈ t, c ≠ '<') :
    execAt reLi pre (listItemHtml t ++ r) = some ⟨listItemHtml t, [(1, t)]⟩ := by
  apply execAt_of_matchRe _ _ _ _ ((listItemHtml t).reverse ++ pre)
  simp [listItemHtml, reLi, lit, litI, seqs, chr, chrI, many, notGt, manyLazy, anyChar,
    matchRe_many_stop]
  rw [matchRe_lazy_until]
  · simp
  · simp
  · intro c hc pre1 rest1 caps1
    simp [ht c hc]
  · simp

theorem matchAllGo_items (ts : List Str) (hts : ∀ t ∈ ts, ∀ c ∈ t, c ≠ '<') :
    ∀ (pre : Str), matchAllGo reLi 0 pre (listItemsHtml ts) = ts.map listItemHtml := by
  induction ts with
  | nil =>
    intro pre
    have : execAt reLi pre [] = none := by
      apply execAt_of_matchRe_none
      simp [reLi, seqs, chr]
    simp [listItemsHtml, matchAllGo, this]
  | cons t ts ih =>
    intro pre
    have e1 : listItemsHtml (t :: ts) = listItemHtml t ++ listItemsHtml ts := by
      simp [listItemsHtml]
    have e2 : listItemHtml t ++ listItemsHtml ts =
        '<' :: (('l' :: 'i' :: '>' :: t ++ "</li>".toList) ++ listItemsHtml ts) := by
      simp [listItemHtml]
    have hm := execAt_reLi_item t pre (listItemsHtml ts) (hts t (by simp))
    rw [e2] at hm
    rw [e1, e2, matchAllGo, hm]
    have e3 : (listItemHtml t).length = ('l' :: 'i' :: '>' :: t ++ "</li>".toList).length + 1 := by
      simp [listItemHtml]
    simp only [e3]
    rw [matchAllGo_skip, ih (fun t ht => hts t (by simp [ht]))]
    simp

theorem replaceAll_reLiTag_item (t : Str) (ht : ∀ c ∈ t, c ≠ '<') :
    replaceAll reLiTag [] (listItemHtml t) = t := by
  have hopen : ∀ pre r, execAt reLiTag pre ('<' :: (['l', 'i', '>'] ++ r)) =
      some ⟨'<' :: ['l', 'i', '>'], []⟩ := by
    intro pre r
    have := execAt_of_matchRe reLiTag pre ('<' :: ['l', 'i', '>']) r
      (['l', 'i', '>'].reverse ++ '<' :: pre) [] (by
        simp [reLiTag, litI, seqs, chr, chrI, many, notGt, maybe, matchRe_many_stop,
          matchRe_optional_skip])
    simpa using this
  have hclose : ∀ pre r, execAt reLiTag pre ('<' :: (['/', 'l', 'i', '>'] ++ r)) =
      some ⟨'<' :: ['/', 'l', 'i', '>'], []⟩ := by
    intro pre r
    have := execAt_of_matchRe reLiTag pre ('<' :: ['/', 'l', 'i', '>']) r
      (['/', 'l', 'i', '>'].reverse ++ '<' :: pre) [] (by
        simp [reLiTag, litI, seqs, chr, chrI, many, notGt, maybe, matchRe_many_stop,
          matchRe_optional_take])
    simpa using this
  have hfail : ∀ c ∈ t, FailsAt reLiTag c := by
    intro c hc pre rest
    apply execAt_of_matchRe_none
    simp [reLiTag, seqs, chr, ht c hc]
  have hnil : ∀ pre, execAt reLiTag pre [] = none := by
    intro pre
    apply execAt_of_matchRe_none
    simp [reLiTag, seqs, chr]
  have e : listItemHtml t = '<' :: (['l', 'i', '>'] ++ (t ++ '<' :: (['/', 'l', 'i', '>'] ++ []))) := by
    simp [listItemHtml]
  have s1 := replaceAllGo_skip reLiTag [] ['l', 'i', '>'] ['<']
    (t ++ '<' :: (['/', 'l', 'i', '>'] ++ []))
  have s2 := replaceAllGo_pass reLiTag [] t hfail (['l', 'i', '>'].reverse ++ ['<'])
    ('<' :: (['/', 'l', 'i', '>'] ++ []))
  have s3 := replaceAllGo_skip reLiTag [] ['/', 'l', 'i', '>']
    ('<' :: (t.reverse ++ (['l', 'i', '>'].reverse ++ ['<']))) []
  simp only [List.length_cons, List.length_nil] at s1 s3
  unfold replaceAll
  rw [e, replaceAllGo, hopen]
  simp only [List.length_cons, List.length_nil, List.nil_append]
  rw [s1, s2, replaceAllGo, hclose]
  simp only [List.length_cons, List.length_nil, List.nil_append]
  rw [s3, replaceAllGo, hnil]
  simp

theorem listBlocks_items (kind : Str) (bk : Nat) (ts : List Str) (hts : ∀ t ∈ ts, PlainText t) :
    ∀ (i : Nat), (listBlocks kind bk i (ts.map listItemHtml)).map blockView =
      ts.map (fun t => ("normal".toList, some kind, some 1, [(t, [])])) := by
  induction ts with
  | nil => intro i; simp [listBlocks]
  | cons t ts ih =>
    intro i
    have ht := hts t (by simp)
    rw [List.map_cons, listBlocks]
    simp only [List.map_cons]
    rw [ih (fun t ht => hts t (by simp [ht])),
      replaceAll_reLiTag_item t (fun c hc => (ht.2.2.2 c hc).1),
      parseInlineElements_plain t _ ht]
    simp [blockView, spanView]

theorem convertBlock_list (x : Char) (ts : List Str) (k : Nat) (hne : ts ≠ [])
    (hts : ∀ t ∈ ts, PlainText t) :
    (x = 'u' → (convertBlock (listHtml x ts) k).map blockView =
      ts.map (fun t => ("normal".toList, some "bullet".toList, some 1, [(t, [])]))) ∧
    (x = 'o' → (convertBlock (listHtml x ts) k).map blockView =
      ts.map (fun t => ("normal".toList, some "number".toList, some 1, [(t, [])]))) := by
  have hlt : ∀ t ∈ ts, ∀ c ∈ t, c ≠ '<' := fun t ht c hc => ((hts t ht).2.2.2 c hc).1
  have hall : matchAll reLi (listItemsHtml ts) = some (ts.map listItemHtml) := by
    unfold matchAll
    rw [matchAllGo_items ts hlt]
    obtain ⟨t0, ts0, rfl⟩ := List.exists_cons_of_ne_nil hne
    simp
  constructor
  · intro hx
    subst hx
    have h1 : jsMatch reHeader (listHtml 'u' ts) = none := by
      rw [jsMatch_eq_execAt reHeader _ rfl, execAt_of_matchRe_none]
      simp [listHtml, reHeader, seqs, chr, chrI]
    have h2 : jsMatch (reElement "ul") (listHtml 'u' ts) =
        some ⟨listHtml 'u' ts, [(1, listItemsHtml ts)]⟩ := by
      rw [jsMatch_eq_execAt (reElement "ul") _ rfl]
      exact execAt_reElement_list 'u' "ul" (Or.inl ⟨rfl, rfl⟩) ts hlt
    unfold convertBlock
    simp only [h1, h2, Match.group, List.find?, beq_self_eq_true, hall]
    exact listBlocks_items _ _ ts hts 0
  · intro hx
    subst hx
    have h1 : jsMatch reHeader (listHtml 'o' ts) = none := by
      rw [jsMatch_eq_execAt reHeader _ rfl, execAt_of_matchRe_none]
      simp [listHtml, reHeader, seqs, chr, chrI]
    have h2 : jsMatch (reElement "ul") (listHtml 'o' ts) = none := by
      rw [jsMatch_eq_execAt (reElement "ul") _ rfl, execAt_of_matchRe_none]
      simp [listHtml, reElement, seqs, chr, litI, chrI]
    have h3 : jsMatch (reElement "ol") (listHtml 'o' ts) =
        some ⟨listHtml 'o' ts, [(1, listItemsHtml ts)]⟩ := by
      rw [jsMatch_eq_execAt (reElement "ol") _ rfl]
      exact execAt_reElement_list 'o' "ol" (Or.inr ⟨rfl, rfl⟩) ts hlt
    unfold convertBlock
    simp only [h1, h2, h3, Match.group, List.find?, beq_self_eq_true, hall]
    exact listBlocks_items _ _ ts hts 0

theorem convert_list_aux (x : Char) (hx : x = 'u' ∨ x = 'o') (ts : List Str) (hne : ts ≠ [])
    (hts : ∀ t ∈ ts, PlainText t) :
    (convertHtmlToPortableText (listHtml x ts)).map blockView =
      (convertBlock (listHtml x ts) 1).map blockView := by
  have hlt : ∀ t ∈ ts, ∀ c ∈ t, c ≠ '<' := fun t ht c hc => ((hts t ht).2.2.2 c hc).1
  have hx2 : x ≠ '<' ∧ x ≠ '&' ∧ x ≠ '\r' ∧ isBrStart x = false := by
    rcases hx with rfl | rfl <;> decide
  have hamp : ∀ c ∈ listHtml x ts, c ≠ '&' ∧ c ≠ '\r' := by
    intro c hc
    simp only [listHtml, List.cons_append, List.mem_cons, List.mem_append, listItemsHtml,
      List.mem_flatten, List.mem_map] at hc
    rcases hc with hc | hc | hc | hc | hc | hc
    · rw [hc]; decide
    · rw [hc]; exact ⟨hx2.2.1, hx2.2.2.1⟩
    · rw [hc]; decide
    · rw [hc]; decide
    · obtain ⟨l, ⟨t, ht, rfl⟩, hcl⟩ := hc
      simp only [listItemHtml, List.mem_append] at hcl
      rcases hcl with (hcl | hcl) | hcl
      · simp at hcl; rcases hcl with hcl | hcl | hcl | hcl <;> (rw [hcl]; decide)
      · exact ⟨((hts t ht).2.2.2 c hcl).2.2.1, ((hts t ht).2.2.2 c hcl).2.2.2⟩
      · simp at hcl; rcases hcl with hcl | hcl | hcl | hcl | hcl <;> (rw [hcl]; decide)
    · simp at hc
      rcases hc with hc | hc | hc | hc | hc
      · rw [hc]; decide
      · rw [hc]; decide
      · rw [hc]; exact ⟨hx2.2.1, hx2.2.2.1⟩
      · rw [hc]; decide
      · rw [hc]; decide
  have hnob : noLtThen isBrStart (listHtml x ts) = true := by
    have := noLtThen_listHtml isBrStart (by decide) (by decide) x hx2.1 ts hlt
    have e : listHtml x ts = '<' :: x :: ['l'] ++
        ('>' :: listItemsHtml ts ++ ['<', '/', x, 'l', '>']) := by simp [listHtml]
    rw [e, noLtThen_tag _ x _ _ hx2.2.2.2 _, this]
    intro c hc
    simp at hc
    rcases hc with hc | hc
    · rw [hc]; exact hx2.1
    · rw [hc]; decide
  have hclean : cleanHtml (listHtml x ts) = listHtml x ts :=
    cleanHtml_noop _ (fun c hc => (hamp c hc).1) (fun c hc => (hamp c hc).2) hnob
  have htrim : jsTrim (listHtml x ts) = listHtml x ts := by
    have := jsTrim_tagged (x :: 'l' :: '>' :: listItemsHtml ts ++ ['<', '/', x, 'l'])
    simpa [listHtml] using this
  have hne2 : (listHtml x ts).isEmpty = false := by simp [listHtml]
  unfold convertHtmlToPortableText
  rw [htrim, hne2]
  simp only [Bool.false_eq_true, or_self, if_false, hclean]
  rw [split_listHtml x hx ts hlt]
  simp only [List.filter, htrim, hne2, Bool.not_false, List.foldl_cons, List.foldl_nil,
    blockStep, Bool.false_eq_true, if_false, List.nil_append, Nat.zero_add]
  split
  · rfl
  · rename_i hlen
    exfalso
    apply hlen
    have h := convertBlock_list x ts 1 hne hts
    have hl : ((convertBlock (listHtml x ts) 1).map blockView).length = ts.length := by
      rcases hx with rfl | rfl
      · rw [h.1 rfl]; simp
      · rw [h.2 rfl]; simp
    obtain ⟨t0, ts0, rfl⟩ := List.exists_cons_of_ne_nil hne
    simp at hl
    omega

/-- C4: for every non-empty list of item texts that are non-empty, have no white space at
either end and contain none of `<`, `>`, `&`, CR, `convertHtmlToPortableText` applied to
`<ul><li>t1</li>...<li>tn</li></ul>` returns exactly one block per item, in item order, each of
style `normal`, `listItem` `bullet`, level 1, with a single span whose text is the item text;
with `<ol>` the same holds with `listItem` `number`; and `<ul><li>x</li><li>y</li></ul>`
yields two bullet blocks with texts `x` and `y`. -/
theorem convert_list_items (ts : List Str) (hne : ts ≠ []) (hts : ∀ t ∈ ts, PlainText t) :
    (convertHtmlToPortableText (listHtml 'u' ts)).map blockView =
      ts.map (fun t => ("normal".toList, some "bullet".toList, some 1, [(t, [])])) ∧
    (convertHtmlToPortableText (listHtml 'o' ts)).map blockView =
      ts.map (fun t => ("normal".toList, some "number".toList, some 1, [(t, [])])) ∧
    (convertHtmlToPortableText "<ul><li>x</li><li>y</li></ul>".toList).map blockView =
      [("normal".toList, some "bullet".toList, some 1, [("x".toList, [])]),
       ("normal".toList, some "bullet".toList, some 1, [("y".toList, [])])] :=
  ⟨(convert_list_aux 'u' (Or.inl rfl) ts hne hts).trans ((convertBlock_list 'u' ts 1 hne hts).1 rfl),
   (convert_list_aux 'o' (Or.inr rfl) ts hne hts).trans ((convertBlock_list 'o' ts 1 hne hts).2 rfl),
   by rfl⟩

/-- Witness of C4 on the items `x`, `y`. -/
theorem convert_list_items_witness :
    listHtml 'u' ["x".toList, "y".toList] = "<ul><li>x</li><li>y</li></ul>".toList ∧
    listHtml 'o' ["x".toList, "y".toList] = "<ol><li>x</li><li>y</li></ol>".toList ∧
    ["x".toList, "y".toList] ≠ [] ∧ (∀ t ∈ ["x".toList, "y".toList], PlainText t) ∧
    (convertHtmlToPortableText (listHtml 'u' ["x".toList, "y".toList])).map blockView =
      ["x".toList, "y".toList].map
        (fun t => ("normal".toList, some "bullet".toList, some 1, [(t, [])])) :=
  ⟨by decide, by decide, by decide, by unfold PlainText; decide,
   (convert_list_items ["x".toList, "y".toList] (by decide) (by unfold PlainText; decide)).1⟩

theorem split_eq_splitGo (re : Re) (wc : Bool) (s : Str) (h : execAt re [] [] = none) :
    split re wc s = splitGo re wc 0 [] [] s := by
  cases s with
  | nil => simp [split, h, splitGo]
  | cons c cs => rfl

theorem inlineStep_text (k : Nat) (st : Inline) (t : Str) (ht : ∀ c ∈ t, c ≠ '<') :
    inlineStep k st t = { st with currentText := st.currentText ++ t } := by
  cases t with
  | nil => simp [inlineStep]
  | cons c cs => exact inlineStep_plain k st c cs (ht c (by simp))

theorem flush_view (k : Nat) (st : Inline) :
    (flush k st).children.map spanView =
        st.children.map spanView ++
          (if st.currentText.isEmpty then [] else [(st.currentText, st.currentMarks)]) ∧
      (flush k st).currentText = [] ∧ (flush k st).currentMarks = st.currentMarks := by
  unfold flush
  split
  · rename_i h
    exact ⟨by simp [h], by simpa using h, rfl⟩
  · rename_i h
    simp [h, spanView]

theorem openMark_view (k : Nat) (m : Str) (st : Inline) :
    (openMark k m st).children.map spanView =
        st.children.map spanView ++
          (if st.currentText.isEmpty then [] else [(st.currentText, st.currentMarks)]) ∧
      (openMark k m st).currentText = [] ∧
      (openMark k m st).currentMarks = addMark m st.currentMarks := by
  obtain ⟨h1, h2, h3⟩ := flush_view k st
  unfold openMark addMark
  simp only []
  split
  · rename_i h
    rw [h3] at h
    exact ⟨h1, h2, by rw [if_pos h, h3]⟩
  · rename_i h
    rw [h3] at h
    exact ⟨h1, h2, by rw [if_neg h, h3]⟩

theorem closeMark_view (k : Nat) (m : Str) (st : Inline) :
    (closeMark k m st).children.map spanView =
        st.children.map spanView ++
          (if st.currentText.isEmpty then [] else [(st.currentText, st.currentMarks)]) ∧
      (closeMark k m st).currentText = [] ∧
      (closeMark k m st).currentMarks = dropMark m st.currentMarks := by
  obtain ⟨h1, h2, h3⟩ := flush_view k st
  unfold closeMark dropMark
  simp only []
  exact ⟨h1, h2, by rw [h3]⟩

theorem finishInline_tokSteps (k : Nat) (toks : List Tok) :
    ∀ (st : Inline), (finishInline k (toks.foldl (tokStep k) st)).map spanView =
      st.children.map spanView ++ runsGo st.currentMarks st.currentText toks := by
  induction toks with
  | nil =>
    intro st
    simp only [List.foldl_nil, finishInline, runsGo]
    split <;> simp [spanView]
  | cons tok toks ih =>
    intro st
    rw [List.foldl_cons, ih]
    cases tok with
    | text s => simp [tokStep, runsGo]
    | opening m =>
      obtain ⟨h1, h2, h3⟩ := openMark_view k m.name st
      simp only [tokStep, runsGo, h1, h2, h3, List.append_assoc]
    | closing m =>
      obtain ⟨h1, h2, h3⟩ := closeMark_view k m.name st
      simp only [tokStep, runsGo, h1, h2, h3, List.append_assoc]

theorem lastTagSplitFrom_runs (toks : List Tok) :
    ∀ (marks : List Str) (a b : Str),
      a ++ ((runsGo marks b toks).map Prod.fst).flatten =
        (lastTagSplitFrom (a, b) toks).1 ++ jsTrim (lastTagSplitFrom (a, b) toks).2 := by
  induction toks with
  | nil =>
    intro marks a b
    simp only [runsGo, lastTagSplitFrom]
    split
    · rename_i h
      simp at h
      simp [h]
    · simp
  | cons tok toks ih =>
    intro marks a b
    cases tok with
    | text s => simp only [runsGo, lastTagSplitFrom]; exact ih marks a (b ++ s)
    | opening m =>
      simp only [runsGo, lastTagSplitFrom, List.map_append, List.flatten_append]
      rw [← ih (addMark m.name marks) (a ++ b) []]
      cases b <;> simp
    | closing m =>
      simp only [runsGo, lastTagSplitFrom, List.map_append, List.flatten_append]
      rw [← ih (dropMark m.name marks) (a ++ b) []]
      cases b <;> simp

theorem lastTagSplitFrom_stripped (toks : List Tok) :
    ∀ (a b : Str), (lastTagSplitFrom (a, b) toks).1 ++ (lastTagSplitFrom (a, b) toks).2 =
      a ++ b ++ strippedText toks := by
  induction toks with
  | nil => intro a b; simp [lastTagSplitFrom, strippedText]
  | cons tok toks ih =>
    intro a b
    cases tok with
    | text s => simp only [lastTagSplitFrom, strippedText]; rw [ih]; simp
    | opening m => simp only [lastTagSplitFrom, strippedText]; rw [ih]; simp
    | closing m => simp only [lastTagSplitFrom, strippedText]; rw [ih]; simp

/-- C18: a header element with empty content is emitted, not dropped:
`convertHtmlToPortableText` turns `<h2></h2>` and `<h2><span></span></h2>` into one `h2`
block whose only span has the empty text, while the empty paragraph of
`<p></p><h2></h2>` gives no block. -/
theorem convert_emits_empty_header :
    (convertHtmlToPortableText "<h2></h2>".toList).map blockView =
      [("h2".toList, none, none, [([], [])])] ∧
    (convertHtmlToPortableText "<h2><span></span></h2>".toList).map blockView =
      [("h2".toList, none, none, [([], [])])] ∧
    (convertHtmlToPortableText "<p></p><h2></h2>".toList).map blockView =
      [("h2".toList, none, none, [([], [])])] := by
  refine ⟨by rfl, by rfl, by rfl⟩

/-- C19: untagged text after a closing `</p>` is discarded: for `<p>a</p>tail<p>b</p>`
`convertHtmlToPortableText` returns the blocks `a` and `b` only, for `<p>a</p>tail` the
block `a` only, while the untagged text before the first block of `head<p>a</p>` is kept
as a normal block. -/
theorem convert_drops_text_after_paragraph :
    (convertHtmlToPortableText "<p>a</p>tail<p>b</p>".toList).map blockView =
      [("normal".toList, none, none, [("a".toList, [])]),
       ("normal".toList, none, none, [("b".toList, [])])] ∧
    (convertHtmlToPortableText "<p>a</p>tail".toList).map blockView =
      [("normal".toList, none, none, [("a".toList, [])])] ∧
    (convertHtmlToPortableText "head<p>a</p>".toList).map blockView =
      [("normal".toList, none, none, [("head".toList, [])]),
       ("normal".toList, none, none, [("a".toList, [])])] := by
  refine ⟨by rfl, by rfl, by rfl⟩

/-- C20: a tag other than strong/b/em/i/u/code/a/br inside a paragraph stays in the span
text: `convertHtmlToPortableText` turns `<p><span>x</span></p>` into one span with the text
`<span>x</span>`, because the inline split does not cut at `<span>` and the part is not a
single tag; inside a header the same tag is stripped. -/
theorem convert_keeps_unknown_tag_in_text :
    (convertHtmlToPortableText "<p><span>x</span></p>".toList).map blockView =
      [("normal".toList, none, none, [("<span>x</span>".toList, [])])] ∧
    split reInlineSplit true "<span>x</span>".toList = ["<span>x</span>".toList] ∧
    test reWholeTag "<span>x</span>".toList = false ∧
    (convertHtmlToPortableText "<h2><span>x</span></h2>".toList).map blockView =
      [("h2".toList, none, none, [("x".toList, [])])] := by
  refine ⟨by rfl, by decide, by decide, by rfl⟩

/-- C23: a list whose item holds a nested paragraph gives no list-item block:
`convertHtmlToPortableText` turns `<ul><li><p>x</p></li></ul>` and
`<ol><li><p>x</p></li></ol>` into one `normal` block with the text `x`, without
`listItem` and `level`, because the block split cuts the list at `<p`; the flat list
`<ul><li>x</li></ul>` gives the bullet item of level 1. -/
theorem convert_nested_list_paragraph :
    (convertHtmlToPortableText "<ul><li><p>x</p></li></ul>".toList).map blockView =
      [("normal".toList, none, none, [("x".toList, [])])] ∧
    (convertHtmlToPortableText "<ol><li><p>x</p></li></ol>".toList).map blockView =
      [("normal".toList, none, none, [("x".toList, [])])] ∧
    split reBlockSplit false "<ul><li><p>x</p></li></ul>".toList =
      ["<ul><li>".toList, "<p>x</p></li></ul>".toList] ∧
    (convertHtmlToPortableText "<ul><li>x</li></ul>".toList).map blockView =
      [("normal".toList, some "bullet".toList, some 1, [("x".toList, [])])] := by
  refine ⟨by rfl, by rfl, by decide, by rfl⟩

theorem flush_ok (k : Nat) (st : Inline) (h : InlineOk st) : InlineOk (flush k st) := by
  unfold flush
  split
  · exact h
  · refine ⟨?_, h.2⟩
    intro s hs
    simp only [List.mem_append, List.mem_singleton] at hs
    rcases hs with hs | hs
    · exact h.1 s hs
    · subst hs; exact h.2

theorem openMark_ok (k : Nat) (m : Str) (st : Inline) (h : InlineOk st)
    (hm : m = "strong".toList ∨ m = "em".toList ∨ m = "code".toList) :
    InlineOk (openMark k m st) := by
  have hf := flush_ok k st h
  unfold openMark
  simp only []
  split
  · exact hf
  · rename_i hc
    refine ⟨hf.1, ?_, ?_⟩
    · have hnot : m ∉ (flush k st).currentMarks := by simpa using hc
      exact List.Nodup.append hf.2.1 (List.nodup_singleton m) (by
        intro x hx hx2
        simp only [List.mem_singleton] at hx2
        subst hx2
        exact hnot hx)
    · intro x hx
      simp only [List.mem_append, List.mem_singleton] at hx
      rcases hx with hx | hx
      · exact hf.2.2 x hx
      · subst hx; exact hm

theorem closeMark_ok (k : Nat) (m : Str) (st : Inline) (h : InlineOk st) :
    InlineOk (closeMark k m st) := by
  have hf := flush_ok k st h
  unfold closeMark
  simp only []
  refine ⟨hf.1, hf.2.1.filter _, ?_⟩
  intro x hx
  exact hf.2.2 x (List.mem_filter.mp hx).1

theorem inlineStep_ok (k : Nat) (st : Inline) (part : Str) (h : InlineOk st) :
    InlineOk (inlineStep k st part) := by
  have o1 := openMark_ok k "strong".toList st h (Or.inl rfl)
  have o2 := openMark_ok k "em".toList st h (by right; left; rfl)
  have o3 := openMark_ok k "code".toList st h (by right; right; rfl)
  have c1 := closeMark_ok k "strong".toList st h
  have c2 := closeMark_ok k "em".toList st h
  have c3 := closeMark_ok k "code".toList st h
  unfold inlineStep
  by_cases g0 : part.isEmpty = true
  · rw [if_pos g0]; exact h
  rw [if_neg g0]
  by_cases g1 : test reOpenStrong part = true
  · rw [if_pos g1]; exact o1
  rw [if_neg g1]
  by_cases g2 : test reCloseStrong part = true
  · rw [if_pos g2]; exact c1
  rw [if_neg g2]
  by_cases g3 : test reOpenEm part = true
  · rw [if_pos g3]; exact o2
  rw [if_neg g3]
  by_cases g4 : test reCloseEm part = true
  · rw [if_pos g4]; exact c2
  rw [if_neg g4]
  by_cases g5 : test reOpenCode part = true
  · rw [if_pos g5]; exact o3
  rw [if_neg g5]
  by_cases g6 : test reCloseCode part = true
  · rw [if_pos g6]; exact c3
  rw [if_neg g6]
  by_cases g7 : test reBr part = true
  · rw [if_pos g7]; exact h
  rw [if_neg g7]
  by_cases g8 : test reAnchor part = true
  · rw [if_pos g8]; exact h
  rw [if_neg g8]
  by_cases g9 : (!test reWholeTag part) = true
  · rw [if_pos g9]; exact h
  rw [if_neg g9]
  exact h

theorem foldl_inlineStep_ok (k : Nat) (parts : List Str) :
    ∀ st : Inline, InlineOk st → InlineOk (parts.foldl (inlineStep k) st) := by
  induction parts with
  | nil => intro st h; exact h
  | cons p ps ih => intro st h; exact ih _ (inlineStep_ok k st p h)

theorem finishInline_ok (k : Nat) (st : Inline) (h : InlineOk st) :
    ∀ s ∈ finishInline k st, MarksOk s.marks := by
  unfold finishInline
  split
  · exact h.1
  · intro s hs
    simp only [List.mem_append, List.mem_singleton] at hs
    rcases hs with hs | hs
    · exact h.1 s hs
    · subst hs; exact h.2

theorem parseInlineElements_marksOk (html : Str) (k : Nat) :
    ∀ s ∈ parseInlineElements html k, MarksOk s.marks := by
  unfold parseInlineElements
  simp only []
  have h0 : InlineOk ⟨[], 0, [], []⟩ :=
    ⟨(by intro s hs; cases hs), List.nodup_nil, (by intro m hm; cases hm)⟩
  have h1 := finishInline_ok k _
    (foldl_inlineStep_ok k (split reInlineSplit true html) _ h0)
  unfold orEmptySpan
  split
  · intro s hs
    simp only [List.mem_singleton] at hs
    subst hs
    exact ⟨List.nodup_nil, (by intro m hm; cases hm)⟩
  · exact h1

/-- C24: for every inner HTML string, every span returned by `parseInlineElements` has a
marks list without duplicates whose elements are among `strong`, `em`, `code`; opening a
style that is already open changes nothing: `<strong><b>x</b>y` gives `x` with marks
`[strong]` and `y` with marks `[]`. -/
theorem parseInlineElements_marks_are_a_set :
    (∀ (html : Str) (k : Nat), ∀ s ∈ parseInlineElements html k,
      s.marks.Nodup ∧
      ∀ m ∈ s.marks, m = "strong".toList ∨ m = "em".toList ∨ m = "code".toList) ∧
    (parseInlineElements "<strong><b>x</b>y".toList 1).map spanView =
      [("x".toList, ["strong".toList]), ("y".toList, [])] :=
  ⟨fun html k s hs => parseInlineElements_marksOk html k s hs, by decide⟩

/-- The split pattern of `parseInlineElements` matches `<b...>` and `<a...>` as a whole. -/
theorem execAt_reInlineSplit_ba (c : Char) (hc : c = 'b' ∨ c = 'a') (ls pre r : Str)
    (hls : ∀ x ∈ ls, x ≠ '>') :
    execAt reInlineSplit pre ('<' :: c :: (ls ++ '>' :: r)) =
      some ⟨'<' :: c :: (ls ++ ['>']), [(1, '<' :: c :: (ls ++ ['>']))]⟩ := by
  have e : '<' :: c :: (ls ++ '>' :: r) = ('<' :: c :: (ls ++ ['>'])) ++ r := by simp
  have hp : ∀ x ∈ ls, (fun c : Char => c != '>') x = true := by
    intro x hx; simpa using hls x hx
  have hlen : ls.length + (r.length + 1) + 1 + 1 - r.length = ls.length + 3 := by omega
  have htake : List.take (ls.length + 3) ('<' :: c :: (ls ++ '>' :: r)) =
      '<' :: c :: (ls ++ ['>']) := by
    rw [e]
    exact List.take_left' (by simp)
  rw [e]
  apply execAt_of_matchRe _ _ _ _ (('<' :: c :: (ls ++ ['>'])).reverse ++ pre)
  rw [← e]
  rcases hc with rfl | rfl
  · simp [reInlineSplit, alts, litI, seqs, chr, chrI, maybe, matchRe_optional_skip]
    rw [show many notGt = Re.rep 0 none true (.cls (fun c => c != '>')) from rfl,
      matchRe_greedy_run (fun c => c != '>') _ 0 _ ls ('>' :: r) [] (by simp) (by simp) hp
        (by simp)]
    simp [hlen, htake]
  · simp [reInlineSplit, alts, litI, seqs, chr, chrI, maybe, matchRe_optional_skip]
    rw [show many notGt = Re.rep 0 none true (.cls (fun c => c != '>')) from rfl,
      matchRe_greedy_run (fun c => c != '>') _ 0 _ ls ('>' :: r) [] (by simp) (by simp) hp
        (by simp)]
    simp [hlen, htake]

theorem execAt_reInlineSplit_closeA (pre r : Str) :
    execAt reInlineSplit pre ("</a>".toList ++ r) = some ⟨"</a>".toList, [(1, "</a>".toList)]⟩ := by
  apply execAt_of_matchRe _ _ _ _ ("</a>".toList.reverse ++ pre)
  simp [reInlineSplit, alts, litI, seqs, chr, chrI, many, notGt, maybe, matchRe_many_stop,
    matchRe_optional_take]
  simp only [Nat.add_assoc, Nat.add_sub_cancel_left]
  rfl

/-- `split` cuts a tag matched as a whole out of the text. -/
theorem splitGo_reInlineSplit_tag (tag cur pre r : Str) (c : Char) (body : Str)
    (htag : tag = c :: body)
    (hx : execAt reInlineSplit pre (tag ++ r) = some ⟨tag, [(1, tag)]⟩) :
    splitGo reInlineSplit true 0 cur pre (tag ++ r) =
      cur.reverse :: tag :: splitGo reInlineSplit true 0 [] (tag.reverse ++ pre) r := by
  subst htag
  rw [List.cons_append] at hx ⊢
  rw [splitGo, hx]
  simp only [List.length_cons, if_true, Match.group, List.find?, beq_self_eq_true,
    List.singleton_append]
  rw [splitGo_skip]
  simp

theorem orElse_none_right (a : Option St) : orElse a none = a := by
  cases a <;> rfl

theorem matchRe_alt_skip (a b : Re) (K : Cont) (s : St) (h : matchRe a K s = none) :
    matchRe (.alt a b) K s = matchRe b K s := by
  rw [matchRe_alt, h, orElse_none]

theorem matchRe_alt_keep (a b : Re) (K : Cont) (s : St) (h : matchRe b K s = none) :
    matchRe (.alt a b) K s = matchRe a K s := by
  rw [matchRe_alt, h, orElse_none_right]

theorem matchRe_letters (l : Str) (K : Cont) :
    ∀ (sp pre r : Str) (caps : List (Nat × Str)), spells sp l = true →
      matchRe (seqs (l.map chrI)) K ⟨pre, sp ++ r, caps⟩ = K ⟨sp.reverse ++ pre, r, caps⟩ := by
  induction l with
  | nil =>
    intro sp pre r caps h
    cases sp with
    | nil => rfl
    | cons x xs => simp [spells] at h
  | cons c l ih =>
    intro sp pre r caps h
    cases sp with
    | nil => simp [spells] at h
    | cons x xs =>
      simp only [spells, Bool.and_eq_true] at h
      rw [List.map_cons, matchRe_seqs_cons, List.cons_append]
      unfold chrI
      have h1 : (x == c.toLower || x == c.toUpper) = true := h.1
      rw [matchRe_cls_cons, if_pos h1]
      have := ih xs (x :: pre) r caps h.2
      unfold chrI at this
      rw [this]
      simp

theorem matchRe_letters_fail (c : Char) (l : Str) (K : Cont) (x : Char) (pre r : Str)
    (caps : List (Nat × Str)) (h : isLetterOf x c = false) :
    matchRe (seqs ((c :: l).map chrI)) K ⟨pre, x :: r, caps⟩ = none := by
  rw [List.map_cons, matchRe_seqs_cons]
  unfold chrI
  rw [matchRe_cls_cons]
  unfold isLetterOf at h
  rw [h]
  rfl

theorem matchRe_litI_fail (m : String) (c : Char) (l : Str) (hm : m.toList = c :: l)
    (K : Cont) (x : Char) (pre r : Str) (caps : List (Nat × Str))
    (h : isLetterOf x c = false) :
    matchRe (litI m) K ⟨pre, x :: r, caps⟩ = none := by
  unfold litI
  rw [hm]
  exact matchRe_letters_fail c l K x pre r caps h

/-- The first character of a spelled tag name is one of its two spellings; it is no `/`
and starts no other tag name of the split pattern. -/
theorem spells_head (n : TagName) (sp : Str) (h : spells sp n.letters = true) :
    ∃ x sp', sp = x :: sp' ∧ x ≠ '/' ∧
      ∀ c ∈ "sbeiuca".toList, n.letters.head? ≠ some c → isLetterOf x c = false := by
  cases sp with
  | nil => cases n <;> simp [spells, TagName.letters] at h
  | cons x xs =>
    refine ⟨x, xs, rfl, ?_⟩
    have hx : ∃ c l, n.letters = c :: l ∧ (x = c.toLower ∨ x = c.toUpper) := by
      cases n <;>
        (simp only [TagName.letters, String.toList, spells, Bool.and_eq_true, isLetterOf,
          Bool.or_eq_true, beq_iff_eq] at h
         exact ⟨_, _, rfl, h.1⟩)
    obtain ⟨c, l, hcl, hxc⟩ := hx
    cases n <;>
      (simp only [TagName.letters] at hcl
       have hc := (List.cons.inj hcl).1
       subst hc
       rcases hxc with rfl | rfl <;> decide)



/-- An optional pattern in front of a non-empty input: the body is tried first, and an
iteration that consumes nothing is rejected. -/
theorem matchRe_maybe_cons (a : Re) (k : Cont) (pre cs : Str) (c : Char)
    (caps : List (Nat × Str)) :
    matchRe (.rep 0 (some 1) true a) k ⟨pre, c :: cs, caps⟩ =
      orElse (matchRe a (fun y => if y.rest.length = (c :: cs).length then none else k y)
        ⟨pre, c :: cs, caps⟩) (k ⟨pre, c :: cs, caps⟩) := by
  rw [matchRe_rep]
  simp only [List.length_cons, Nat.zero_add]
  rw [repLoop]
  simp only [Option.some.injEq, OfNat.ofNat_ne_zero, ↓reduceIte, Nat.lt_irrefl, true_and,
    Option.map_some', Nat.sub_self, Nat.zero_sub]
  rw [if_neg (by decide)]
  rfl

/-- The attribute part `(\s[^>]*)?` of an opening tag, followed by `>` and the end. -/
theorem matchRe_attrs_end (attrs pre : Str) (caps : List (Nat × Str))
    (ha : attrsOk attrs = true) :
    (matchRe (seqs [maybe (.seq space (many notGt)), chr '>', .eol]) some
      ⟨pre, attrs ++ ['>'], caps⟩).isSome = true := by
  rw [matchRe_seqs_cons]
  cases attrs with
  | nil =>
    unfold maybe
    rw [List.nil_append, matchRe_maybe_cons]
    simp [space, seqs, chr, isSpace]
  | cons w as =>
    simp only [attrsOk, Bool.and_eq_true, List.all_eq_true] at ha
    unfold maybe
    rw [List.cons_append, matchRe_maybe_cons, matchRe_seq]
    unfold space
    rw [matchRe_cls_cons, if_pos ha.1]
    unfold many notGt
    rw [matchRe_greedy_run _ _ 0 _ as ['>'] caps (by simp) (by simp) ha.2 (by simp [seqs, chr])]
    simp [seqs, chr]


/-- The name alternation of the split pattern takes a spelled style-tag name. -/
theorem matchRe_names7 (n : TagName) (sp : Str) (h : spells sp n.letters = true)
    (K : Cont) (pre r : Str) (caps : List (Nat × Str)) :
    matchRe (alts [litI "strong", litI "b", litI "em", litI "i", litI "u", litI "code",
        litI "a"]) K ⟨pre, sp ++ r, caps⟩ = K ⟨sp.reverse ++ pre, r, caps⟩ := by
  have hm := matchRe_letters n.letters K sp pre r caps h
  obtain ⟨x, sp', rfl, _, hf⟩ := spells_head n sp h
  have f := fun (m : String) (c : Char) (l : Str) (e : m.toList = c :: l)
      (hc : c ∈ "sbeiuca".toList) (hne : n.letters.head? ≠ some c) =>
    matchRe_litI_fail m c l e K x pre (sp' ++ r) caps (hf c hc hne)
  rw [List.cons_append] at hm ⊢
  cases n
  · have e : matchRe (litI "strong") K ⟨pre, x :: (sp' ++ r), caps⟩ = _ := hm
    simp only [alts, matchRe_alt, e,
      f "b" 'b' _ rfl (by decide) (by decide), f "em" 'e' _ rfl (by decide) (by decide),
      f "i" 'i' _ rfl (by decide) (by decide), f "u" 'u' _ rfl (by decide) (by decide),
      f "code" 'c' _ rfl (by decide) (by decide), f "a" 'a' _ rfl (by decide) (by decide),
      orElse_none, orElse_none_right]
  · have e : matchRe (litI "b") K ⟨pre, x :: (sp' ++ r), caps⟩ = _ := hm
    simp only [alts, matchRe_alt, e,
      f "strong" 's' _ rfl (by decide) (by decide), f "em" 'e' _ rfl (by decide) (by decide),
      f "i" 'i' _ rfl (by decide) (by decide), f "u" 'u' _ rfl (by decide) (by decide),
      f "code" 'c' _ rfl (by decide) (by decide), f "a" 'a' _ rfl (by decide) (by decide),
      orElse_none, orElse_none_right]
  · have e : matchRe (litI "em") K ⟨pre, x :: (sp' ++ r), caps⟩ = _ := hm
    simp only [alts, matchRe_alt, e,
      f "strong" 's' _ rfl (by decide) (by decide), f "b" 'b' _ rfl (by decide) (by decide),
      f "i" 'i' _ rfl (by decide) (by decide), f "u" 'u' _ rfl (by decide) (by decide),
      f "code" 'c' _ rfl (by decide) (by decide), f "a" 'a' _ rfl (by decide) (by decide),
      orElse_none, orElse_none_right]
  · have e : matchRe (litI "i") K ⟨pre, x :: (sp' ++ r), caps⟩ = _ := hm
    simp only [alts, matchRe_alt, e,
      f "strong" 's' _ rfl (by decide) (by decide), f "b" 'b' _ rfl (by decide) (by decide),
      f "em" 'e' _ rfl (by decide) (by decide), f "u" 'u' _ rfl (by decide) (by decide),
      f "code" 'c' _ rfl (by decide) (by decide), f "a" 'a' _ rfl (by decide) (by decide),
      orElse_none, orElse_none_right]
  · have e : matchRe (litI "code") K ⟨pre, x :: (sp' ++ r), caps⟩ = _ := hm
    simp only [alts, matchRe_alt, e,
      f "strong" 's' _ rfl (by decide) (by decide), f "b" 'b' _ rfl (by decide) (by decide),
      f "em" 'e' _ rfl (by decide) (by decide), f "i" 'i' _ rfl (by decide) (by decide),
      f "u" 'u' _ rfl (by decide) (by decide), f "a" 'a' _ rfl (by decide) (by decide),
      orElse_none, orElse_none_right]


theorem take_len (t r : Str) (n : Nat) (hn : n = t.length) : List.take n (t ++ r) = t := by
  subst hn
  simp

theorem attrs_notGt (attrs : Str) (ha : attrsOk attrs = true) :
    ∀ c ∈ attrs, (c != '>') = true := by
  cases attrs with
  | nil => simp
  | cons w as =>
    simp only [attrsOk, Bool.and_eq_true, List.all_eq_true] at ha
    intro c hc
    rcases List.mem_cons.mp hc with rfl | hc
    · have : c ≠ '>' := by
        intro e
        subst e
        exact absurd ha.1 (by decide)
      simpa using this
    · exact ha.2 c hc

/-- The tag alternative of the split pattern on an opening style tag. -/
theorem matchRe_tag_opening (n : TagName) (sp attrs : Str) (h : spells sp n.letters = true)
    (ha : attrsOk attrs = true) (K : Cont) (pre r : Str) (caps : List (Nat × Str))
    (hK : (K ⟨'>' :: (attrs.reverse ++ (sp.reverse ++ '<' :: pre)), r, caps⟩).isSome = true) :
    matchRe (seqs [chr '<', maybe (chr '/'),
        alts [litI "strong", litI "b", litI "em", litI "i", litI "u", litI "code", litI "a"],
        many notGt, chr '>']) K ⟨pre, '<' :: (sp ++ (attrs ++ '>' :: r)), caps⟩ =
      K ⟨'>' :: (attrs.reverse ++ (sp.reverse ++ '<' :: pre)), r, caps⟩ := by
  obtain ⟨x, sp', hx, hne, _⟩ := spells_head n sp h
  have e0 : matchRe (maybe (chr '/')) = matchRe (.rep 0 (some 1) true (.cls (fun y => y == '/'))) :=
    rfl
  have e1 : ∀ k s, matchRe (seqs [many notGt, chr '>']) k s =
      matchRe (.rep 0 none true (.cls (fun c => c != '>')))
        (matchRe (.cls (fun y => y == '>')) k) s :=
    fun _ _ => rfl
  rw [matchRe_seqs_cons, show chr '<' = .cls (fun y => y == '<') from rfl, matchRe_cls_cons,
    if_pos (by decide), matchRe_seqs_cons, e0]
  subst hx
  rw [List.cons_append, matchRe_optional_skip _ _ _ _ x _ (by simpa using hne),
    ← List.cons_append, matchRe_seqs_cons, matchRe_names7 n (x :: sp') h, e1,
    matchRe_greedy_run _ _ 0 _ attrs ('>' :: r) caps (by simp) (by simp) (attrs_notGt attrs ha)
      (by rw [matchRe_cls_cons, if_pos (by decide)]; exact hK),
    matchRe_cls_cons, if_pos (by decide)]

/-- The tag alternative of the split pattern on a closing style tag. -/
theorem matchRe_tag_closing (n : TagName) (sp : Str) (h : spells sp n.letters = true)
    (K : Cont) (pre r : Str) (caps : List (Nat × Str))
    (hK : (K ⟨'>' :: (sp.reverse ++ '/' :: '<' :: pre), r, caps⟩).isSome = true) :
    matchRe (seqs [chr '<', maybe (chr '/'),
        alts [litI "strong", litI "b", litI "em", litI "i", litI "u", litI "code", litI "a"],
        many notGt, chr '>']) K ⟨pre, '<' :: '/' :: (sp ++ '>' :: r), caps⟩ =
      K ⟨'>' :: (sp.reverse ++ '/' :: '<' :: pre), r, caps⟩ := by
  have e0 : matchRe (maybe (chr '/')) = matchRe (.rep 0 (some 1) true (.cls (fun y => y == '/'))) :=
    rfl
  have e1 : ∀ k s, matchRe (seqs [many notGt, chr '>']) k s =
      matchRe (.rep 0 none true (.cls (fun c => c != '>')))
        (matchRe (.cls (fun y => y == '>')) k) s :=
    fun _ _ => rfl
  have e2 : matchRe (seqs [alts [litI "strong", litI "b", litI "em", litI "i", litI "u",
      litI "code", litI "a"], many notGt, chr '>']) K
        ⟨'/' :: '<' :: pre, sp ++ '>' :: r, caps⟩ =
      K ⟨'>' :: (sp.reverse ++ '/' :: '<' :: pre), r, caps⟩ := by
    rw [matchRe_seqs_cons, matchRe_names7 n sp h, e1,
      matchRe_many_stop _ _ _ _ '>' _ (by decide), matchRe_cls_cons, if_pos (by decide)]
  rw [matchRe_seqs_cons, show chr '<' = .cls (fun y => y == '<') from rfl, matchRe_cls_cons,
    if_pos (by decide), matchRe_seqs_cons, e0,
    matchRe_optional_take _ _ _ _ '/' _ (by decide), e2]
  obtain ⟨res, hres⟩ := Option.isSome_iff_exists.mp hK
  rw [hres]
  rfl

/-- The split pattern of `parseInlineElements` matches a style tag as a whole, however
its name is spelled and whatever attributes it has. -/
theorem execAt_reInlineSplit_piece (p : Piece) (hp : p.wellFormed = true)
    (hm : ∀ s, p ≠ Piece.text s) (pre r : Str) :
    execAt reInlineSplit pre (p.render ++ r) = some ⟨p.render, [(1, p.render)]⟩ := by
  apply execAt_of_matchRe _ _ _ _ (p.render.reverse ++ pre)
  have eg : ∀ (A B : Re) (s : St), matchRe (.grp 1 (.alt A B)) some s =
      orElse (matchRe A (fun y =>
        some { y with caps := (1, s.rest.take (s.rest.length - y.rest.length)) :: y.caps }) s)
        (matchRe B (fun y =>
        some { y with caps := (1, s.rest.take (s.rest.length - y.rest.length)) :: y.caps }) s) :=
    fun _ _ _ => rfl
  cases p with
  | text s => exact absurd rfl (hm s)
  | opening n sp attrs =>
    simp only [Piece.wellFormed, Bool.and_eq_true] at hp
    have e1 : Piece.render (.opening n sp attrs) ++ r = '<' :: (sp ++ (attrs ++ '>' :: r)) := by
      simp [Piece.render]
    rw [e1]
    unfold reInlineSplit
    rw [eg, matchRe_tag_opening n sp attrs hp.1 hp.2 _ _ _ _ (by rfl), orElse_some]
    simp only [Piece.render, List.reverse_cons, List.reverse_append, List.reverse_nil,
      List.nil_append, List.append_assoc, List.cons_append, List.singleton_append, St.mk.injEq,
      List.cons.injEq, Prod.mk.injEq, true_and, and_true]
    have e3 : '<' :: (sp ++ (attrs ++ '>' :: r)) = ('<' :: (sp ++ (attrs ++ ['>']))) ++ r := by
      simp
    rw [e3, take_len _ r _ (by simp; omega)]
  | closing n sp =>
    simp only [Piece.wellFormed] at hp
    have e1 : Piece.render (.closing n sp) ++ r = '<' :: '/' :: (sp ++ '>' :: r) := by
      simp [Piece.render]
    rw [e1]
    unfold reInlineSplit
    rw [eg, matchRe_tag_closing n sp hp _ _ _ _ (by rfl), orElse_some]
    simp only [Piece.render, List.reverse_cons, List.reverse_append, List.reverse_nil,
      List.nil_append, List.append_assoc, List.cons_append, List.singleton_append, St.mk.injEq,
      List.cons.injEq, Prod.mk.injEq, true_and, and_true]
    have e3 : '<' :: '/' :: (sp ++ '>' :: r) = ('<' :: '/' :: (sp ++ ['>'])) ++ r := by
      simp
    rw [e3, take_len _ r _ (by simp; omega)]


theorem test_open_take (N : Re) (sp attrs : Str)
    (hN : ∀ (K : Cont) (pre r : Str) (caps : List (Nat × Str)),
      matchRe N K ⟨pre, sp ++ r, caps⟩ = K ⟨sp.reverse ++ pre, r, caps⟩)
    (ha : attrsOk attrs = true) :
    test (seqs [.bol, chr '<', N, maybe (.seq space (many notGt)), chr '>', .eol])
      ('<' :: (sp ++ attrs ++ ['>'])) = true := by
  rw [test_eq_execAt (seqs [.bol, chr '<', N, maybe (.seq space (many notGt)), chr '>', .eol])
      (seqs [chr '<', N, maybe (.seq space (many notGt)), chr '>', .eol]) rfl,
    execAt_isSome, matchRe_seqs_cons, matchRe_bol, if_pos (by rfl), matchRe_seqs_cons,
    show chr '<' = .cls (fun y => y == '<') from rfl, matchRe_cls_cons, if_pos (by decide),
    matchRe_seqs_cons, List.append_assoc, hN]
  exact matchRe_attrs_end attrs _ _ ha

theorem test_open_fail (N : Re) (x : Char) (body : Str)
    (hN : ∀ (K : Cont) (pre r : Str) (caps : List (Nat × Str)),
      matchRe N K ⟨pre, x :: r, caps⟩ = none) :
    test (seqs [.bol, chr '<', N, maybe (.seq space (many notGt)), chr '>', .eol])
      ('<' :: x :: body) = false := by
  rw [test_eq_execAt (seqs [.bol, chr '<', N, maybe (.seq space (many notGt)), chr '>', .eol])
      (seqs [chr '<', N, maybe (.seq space (many notGt)), chr '>', .eol]) rfl,
    execAt_isSome, matchRe_seqs_cons, matchRe_bol, if_pos (by rfl), matchRe_seqs_cons,
    show chr '<' = .cls (fun y => y == '<') from rfl, matchRe_cls_cons, if_pos (by decide),
    matchRe_seqs_cons, hN]
  rfl

theorem test_close_take (N : Re) (sp : Str)
    (hN : ∀ (K : Cont) (pre r : Str) (caps : List (Nat × Str)),
      matchRe N K ⟨pre, sp ++ r, caps⟩ = K ⟨sp.reverse ++ pre, r, caps⟩) :
    test (seqs [.bol, lit "</", N, chr '>', .eol]) ('<' :: '/' :: (sp ++ ['>'])) = true := by
  rw [test_eq_execAt (seqs [.bol, lit "</", N, chr '>', .eol])
      (seqs [lit "</", N, chr '>', .eol]) rfl,
    execAt_isSome, matchRe_seqs_cons, matchRe_bol, if_pos (by rfl), matchRe_seqs_cons,
    show lit "</" = .seq (.cls (fun y => y == '<')) (.cls (fun y => y == '/')) from rfl,
    matchRe_seq, matchRe_cls_cons, if_pos (by decide), matchRe_cls_cons, if_pos (by decide),
    matchRe_seqs_cons, hN]
  simp [seqs, chr]

theorem test_close_fail_name (N : Re) (x : Char) (body : Str)
    (hN : ∀ (K : Cont) (pre r : Str) (caps : List (Nat × Str)),
      matchRe N K ⟨pre, x :: r, caps⟩ = none) :
    test (seqs [.bol, lit "</", N, chr '>', .eol]) ('<' :: '/' :: x :: body) = false := by
  rw [test_eq_execAt (seqs [.bol, lit "</", N, chr '>', .eol])
      (seqs [lit "</", N, chr '>', .eol]) rfl,
    execAt_isSome, matchRe_seqs_cons, matchRe_bol, if_pos (by rfl), matchRe_seqs_cons,
    show lit "</" = .seq (.cls (fun y => y == '<')) (.cls (fun y => y == '/')) from rfl,
    matchRe_seq, matchRe_cls_cons, if_pos (by decide), matchRe_cls_cons, if_pos (by decide),
    matchRe_seqs_cons, hN]
  rfl

theorem test_close_fail_slash (N : Re) (x : Char) (body : Str) (hx : x ≠ '/') :
    test (seqs [.bol, lit "</", N, chr '>', .eol]) ('<' :: x :: body) = false := by
  rw [test_eq_execAt (seqs [.bol, lit "</", N, chr '>', .eol])
      (seqs [lit "</", N, chr '>', .eol]) rfl,
    execAt_isSome, matchRe_seqs_cons, matchRe_bol, if_pos (by rfl), matchRe_seqs_cons,
    show lit "</" = .seq (.cls (fun y => y == '<')) (.cls (fun y => y == '/')) from rfl,
    matchRe_seq, matchRe_cls_cons, if_pos (by decide), matchRe_cls_cons,
    if_neg (by simpa using hx)]
  rfl

/-- How the three name patterns of the tag tests behave on a spelled style-tag name: the
pattern of its own style takes the name, the two others fail at its first character; all
three fail at a `/`. -/
theorem family_facts (n : TagName) (sp : Str) (h : spells sp n.letters = true) :
    ∃ x sp', sp = x :: sp' ∧ x ≠ '/' ∧
      (n.style = .strong → ∀ (K : Cont) (pre r : Str) (caps : List (Nat × Str)),
        matchRe (.alt (litI "strong") (litI "b")) K ⟨pre, sp ++ r, caps⟩ =
          K ⟨sp.reverse ++ pre, r, caps⟩) ∧
      (n.style ≠ .strong → ∀ (K : Cont) (pre r : Str) (caps : List (Nat × Str)),
        matchRe (.alt (litI "strong") (litI "b")) K ⟨pre, x :: r, caps⟩ = none) ∧
      (n.style = .em → ∀ (K : Cont) (pre r : Str) (caps : List (Nat × Str)),
        matchRe (.alt (litI "em") (litI "i")) K ⟨pre, sp ++ r, caps⟩ =
          K ⟨sp.reverse ++ pre, r, caps⟩) ∧
      (n.style ≠ .em → ∀ (K : Cont) (pre r : Str) (caps : List (Nat × Str)),
        matchRe (.alt (litI "em") (litI "i")) K ⟨pre, x :: r, caps⟩ = none) ∧
      (n.style = .code → ∀ (K : Cont) (pre r : Str) (caps : List (Nat × Str)),
        matchRe (litI "code") K ⟨pre, sp ++ r, caps⟩ = K ⟨sp.reverse ++ pre, r, caps⟩) ∧
      (n.style ≠ .code → ∀ (K : Cont) (pre r : Str) (caps : List (Nat × Str)),
        matchRe (litI "code") K ⟨pre, x :: r, caps⟩ = none) := by
  obtain ⟨x, sp', hx, hne, hf⟩ := spells_head n sp h
  subst hx
  have f := fun (m : String) (c : Char) (l : Str) (e : m.toList = c :: l)
      (hc : c ∈ "sbeiuca".toList) (hne : n.letters.head? ≠ some c)
      (K : Cont) (pre r : Str) (caps : List (Nat × Str)) =>
    matchRe_litI_fail m c l e K x pre r caps (hf c hc hne)
  have hm := fun (K : Cont) (pre r : Str) (caps : List (Nat × Str)) =>
    matchRe_letters n.letters K (x :: sp') pre r caps h
  refine ⟨x, sp', rfl, hne, ?_⟩
  cases n
  · refine ⟨fun _ K pre r caps => ?_, fun e => absurd rfl e,
      fun e => StyleTag.noConfusion e, fun _ K pre r caps => ?_,
      fun e => StyleTag.noConfusion e, fun _ K pre r caps => ?_⟩
    · rw [List.cons_append,
        matchRe_alt_keep _ _ _ _ (f "b" 'b' _ rfl (by decide) (by decide) K pre _ caps)]
      exact hm K pre r caps
    · rw [matchRe_alt, f "em" 'e' _ rfl (by decide) (by decide),
        f "i" 'i' _ rfl (by decide) (by decide)]
      rfl
    · exact f "code" 'c' _ rfl (by decide) (by decide) K pre r caps
  · refine ⟨fun _ K pre r caps => ?_, fun e => absurd rfl e,
      fun e => StyleTag.noConfusion e, fun _ K pre r caps => ?_,
      fun e => StyleTag.noConfusion e, fun _ K pre r caps => ?_⟩
    · rw [List.cons_append,
        matchRe_alt_skip _ _ _ _ (f "strong" 's' _ rfl (by decide) (by decide) K pre _ caps)]
      exact hm K pre r caps
    · rw [matchRe_alt, f "em" 'e' _ rfl (by decide) (by decide),
        f "i" 'i' _ rfl (by decide) (by decide)]
      rfl
    · exact f "code" 'c' _ rfl (by decide) (by decide) K pre r caps
  · refine ⟨fun e => StyleTag.noConfusion e, fun _ K pre r caps => ?_,
      fun _ K pre r caps => ?_, fun e => absurd rfl e,
      fun e => StyleTag.noConfusion e, fun _ K pre r caps => ?_⟩
    · rw [matchRe_alt, f "strong" 's' _ rfl (by decide) (by decide),
        f "b" 'b' _ rfl (by decide) (by decide)]
      rfl
    · rw [List.cons_append,
        matchRe_alt_keep _ _ _ _ (f "i" 'i' _ rfl (by decide) (by decide) K pre _ caps)]
      exact hm K pre r caps
    · exact f "code" 'c' _ rfl (by decide) (by decide) K pre r caps
  · refine ⟨fun e => StyleTag.noConfusion e, fun _ K pre r caps => ?_,
      fun _ K pre r caps => ?_, fun e => absurd rfl e,
      fun e => StyleTag.noConfusion e, fun _ K pre r caps => ?_⟩
    · rw [matchRe_alt, f "strong" 's' _ rfl (by decide) (by decide),
        f "b" 'b' _ rfl (by decide) (by decide)]
      rfl
    · rw [List.cons_append,
        matchRe_alt_skip _ _ _ _ (f "em" 'e' _ rfl (by decide) (by decide) K pre _ caps)]
      exact hm K pre r caps
    · exact f "code" 'c' _ rfl (by decide) (by decide) K pre r caps
  · refine ⟨fun e => StyleTag.noConfusion e, fun _ K pre r caps => ?_,
      fun e => StyleTag.noConfusion e, fun _ K pre r caps => ?_,
      fun _ K pre r caps => ?_, fun e => absurd rfl e⟩
    · rw [matchRe_alt, f "strong" 's' _ rfl (by decide) (by decide),
        f "b" 'b' _ rfl (by decide) (by decide)]
      rfl
    · rw [matchRe_alt, f "em" 'e' _ rfl (by decide) (by decide),
        f "i" 'i' _ rfl (by decide) (by decide)]
      rfl
    · exact hm K pre r caps

/-- The three name patterns of the tag tests fail at a `/`. -/
theorem family_slash (K : Cont) (pre r : Str) (caps : List (Nat × Str)) :
    matchRe (.alt (litI "strong") (litI "b")) K ⟨pre, '/' :: r, caps⟩ = none ∧
    matchRe (.alt (litI "em") (litI "i")) K ⟨pre, '/' :: r, caps⟩ = none ∧
    matchRe (litI "code") K ⟨pre, '/' :: r, caps⟩ = none := by
  have f := fun (m : String) (c : Char) (l : Str) (e : m.toList = c :: l)
      (hc : isLetterOf '/' c = false) =>
    matchRe_litI_fail m c l e K '/' pre r caps hc
  refine ⟨?_, ?_, ?_⟩
  · rw [matchRe_alt, f "strong" 's' _ rfl (by decide), f "b" 'b' _ rfl (by decide)]
    rfl
  · rw [matchRe_alt, f "em" 'e' _ rfl (by decide), f "i" 'i' _ rfl (by decide)]
    rfl
  · exact f "code" 'c' _ rfl (by decide)


/-- The loop step of `parseInlineElements` on a style tag, however its name is spelled
and whatever attributes it has, is the step of its style event. -/
theorem inlineStep_piece (k : Nat) (st : Inline) (p : Piece) (hp : p.wellFormed = true)
    (hm : ∀ s, p ≠ Piece.text s) :
    inlineStep k st p.render = tokStep k st p.tok := by
  cases p with
  | text s => exact absurd rfl (hm s)
  | opening n sp attrs =>
    simp only [Piece.wellFormed, Bool.and_eq_true] at hp
    obtain ⟨x, sp', hx, hne, fS, nS, fE, nE, fC, nC⟩ := family_facts n sp hp.1
    subst hx
    have e0 : ∀ m, (Piece.render (.opening m (x :: sp') attrs)).isEmpty = false := fun _ => rfl
    cases n
    · have t0 : test reOpenStrong (Piece.render (.opening .strong (x :: sp') attrs)) = true :=
        test_open_take _ (x :: sp') attrs (fS rfl) hp.2
      unfold inlineStep
      rw [if_neg (by rw [e0]; decide), if_pos t0]
      rfl
    · have t0 : test reOpenStrong (Piece.render (.opening .b (x :: sp') attrs)) = true :=
        test_open_take _ (x :: sp') attrs (fS rfl) hp.2
      unfold inlineStep
      rw [if_neg (by rw [e0]; decide), if_pos t0]
      rfl
    · have t0 : test reOpenStrong (Piece.render (.opening .em (x :: sp') attrs)) = false :=
        test_open_fail _ x _ (nS (by decide))
      have t1 : test reCloseStrong (Piece.render (.opening .em (x :: sp') attrs)) = false :=
        test_close_fail_slash _ x _ hne
      have t2 : test reOpenEm (Piece.render (.opening .em (x :: sp') attrs)) = true :=
        test_open_take _ (x :: sp') attrs (fE rfl) hp.2
      unfold inlineStep
      rw [if_neg (by rw [e0]; decide), if_neg (by rw [t0]; decide), if_neg (by rw [t1]; decide),
        if_pos t2]
      rfl
    · have t0 : test reOpenStrong (Piece.render (.opening .i (x :: sp') attrs)) = false :=
        test_open_fail _ x _ (nS (by decide))
      have t1 : test reCloseStrong (Piece.render (.opening .i (x :: sp') attrs)) = false :=
        test_close_fail_slash _ x _ hne
      have t2 : test reOpenEm (Piece.render (.opening .i (x :: sp') attrs)) = true :=
        test_open_take _ (x :: sp') attrs (fE rfl) hp.2
      unfold inlineStep
      rw [if_neg (by rw [e0]; decide), if_neg (by rw [t0]; decide), if_neg (by rw [t1]; decide),
        if_pos t2]
      rfl
    · have t0 : test reOpenStrong (Piece.render (.opening .code (x :: sp') attrs)) = false :=
        test_open_fail _ x _ (nS (by decide))
      have t1 : test reCloseStrong (Piece.render (.opening .code (x :: sp') attrs)) = false :=
        test_close_fail_slash _ x _ hne
      have t2 : test reOpenEm (Piece.render (.opening .code (x :: sp') attrs)) = false :=
        test_open_fail _ x _ (nE (by decide))
      have t3 : test reCloseEm (Piece.render (.opening .code (x :: sp') attrs)) = false :=
        test_close_fail_slash _ x _ hne
      have t4 : test reOpenCode (Piece.render (.opening .code (x :: sp') attrs)) = true :=
        test_open_take _ (x :: sp') attrs (fC rfl) hp.2
      unfold inlineStep
      rw [if_neg (by rw [e0]; decide), if_neg (by rw [t0]; decide), if_neg (by rw [t1]; decide),
        if_neg (by rw [t2]; decide), if_neg (by rw [t3]; decide), if_pos t4]
      rfl
  | closing n sp =>
    simp only [Piece.wellFormed] at hp
    obtain ⟨x, sp', hx, hne, fS, nS, fE, nE, fC, nC⟩ := family_facts n sp hp
    subst hx
    have e0 : ∀ m, (Piece.render (.closing m (x :: sp'))).isEmpty = false := fun _ => rfl
    cases n
    · have t0 : test reOpenStrong (Piece.render (.closing .strong (x :: sp'))) = false :=
        test_open_fail _ '/' _ (fun K pre r caps => (family_slash K pre r caps).1)
      have t1 : test reCloseStrong (Piece.render (.closing .strong (x :: sp'))) = true :=
        test_close_take _ (x :: sp') (fS rfl)
      unfold inlineStep
      rw [if_neg (by rw [e0]; decide), if_neg (by rw [t0]; decide), if_pos t1]
      rfl
    · have t0 : test reOpenStrong (Piece.render (.closing .b (x :: sp'))) = false :=
        test_open_fail _ '/' _ (fun K pre r caps => (family_slash K pre r caps).1)
      have t1 : test reCloseStrong (Piece.render (.closing .b (x :: sp'))) = true :=
        test_close_take _ (x :: sp') (fS rfl)
      unfold inlineStep
      rw [if_neg (by rw [e0]; decide), if_neg (by rw [t0]; decide), if_pos t1]
      rfl
    · have t0 : test reOpenStrong (Piece.render (.closing .em (x :: sp'))) = false :=
        test_open_fail _ '/' _ (fun K pre r caps => (family_slash K pre r caps).1)
      have t1 : test reCloseStrong (Piece.render (.closing .em (x :: sp'))) = false :=
        test_close_fail_name _ x _ (nS (by decide))
      have t2 : test reOpenEm (Piece.render (.closing .em (x :: sp'))) = false :=
        test_open_fail _ '/' _ (fun K pre r caps => (family_slash K pre r caps).2.1)
      have t3 : test reCloseEm (Piece.render (.closing .em (x :: sp'))) = true :=
        test_close_take _ (x :: sp') (fE rfl)
      unfold inlineStep
      rw [if_neg (by rw [e0]; decide), if_neg (by rw [t0]; decide), if_neg (by rw [t1]; decide),
        if_neg (by rw [t2]; decide), if_pos t3]
      rfl
    · have t0 : test reOpenStrong (Piece.render (.closing .i (x :: sp'))) = false :=
        test_open_fail _ '/' _ (fun K pre r caps => (family_slash K pre r caps).1)
      have t1 : test reCloseStrong (Piece.render (.closing .i (x :: sp'))) = false :=
        test_close_fail_name _ x _ (nS (by decide))
      have t2 : test reOpenEm (Piece.render (.closing .i (x :: sp'))) = false :=
        test_open_fail _ '/' _ (fun K pre r caps => (family_slash K pre r caps).2.1)
      have t3 : test reCloseEm (Piece.render (.closing .i (x :: sp'))) = true :=
        test_close_take _ (x :: sp') (fE rfl)
      unfold inlineStep
      rw [if_neg (by rw [e0]; decide), if_neg (by rw [t0]; decide), if_neg (by rw [t1]; decide),
        if_neg (by rw [t2]; decide), if_pos t3]
      rfl
    · have t0 : test reOpenStrong (Piece.render (.closing .code (x :: sp'))) = false :=
        test_open_fail _ '/' _ (fun K pre r caps => (family_slash K pre r caps).1)
      have t1 : test reCloseStrong (Piece.render (.closing .code (x :: sp'))) = false :=
        test_close_fail_name _ x _ (nS (by decide))
      have t2 : test reOpenEm (Piece.render (.closing .code (x :: sp'))) = false :=
        test_open_fail _ '/' _ (fun K pre r caps => (family_slash K pre r caps).2.1)
      have t3 : test reCloseEm (Piece.render (.closing .code (x :: sp'))) = false :=
        test_close_fail_name _ x _ (nE (by decide))
      have t4 : test reOpenCode (Piece.render (.closing .code (x :: sp'))) = false :=
        test_open_fail _ '/' _ (fun K pre r caps => (family_slash K pre r caps).2.2)
      have t5 : test reCloseCode (Piece.render (.closing .code (x :: sp'))) = true :=
        test_close_take _ (x :: sp') (fC rfl)
      unfold inlineStep
      rw [if_neg (by rw [e0]; decide), if_neg (by rw [t0]; decide), if_neg (by rw [t1]; decide),
        if_neg (by rw [t2]; decide), if_neg (by rw [t3]; decide), if_neg (by rw [t4]; decide),
        if_pos t5]
      rfl


theorem piece_render_cons (p : Piece) (hm : ∀ s, p ≠ Piece.text s) :
    ∃ body, p.render = '<' :: body := by
  cases p with
  | text s => exact absurd rfl (hm s)
  | opening n sp attrs => exact ⟨_, rfl⟩
  | closing n sp => exact ⟨_, rfl⟩

/-- The loop of `parseInlineElements` over the parts of the split is the loop over the
style events of the pieces. -/
theorem foldl_inlineStep_pieces (k : Nat) (ps : List Piece)
    (hps : ∀ p ∈ ps, p.wellFormed = true) :
    ∀ (st : Inline) (cur pre : Str), (∀ c ∈ cur, c ≠ '<') →
      (splitGo reInlineSplit true 0 cur pre (renderPieces ps)).foldl (inlineStep k) st =
        (ps.map Piece.tok).foldl (tokStep k)
          { st with currentText := st.currentText ++ cur.reverse } := by
  induction ps with
  | nil =>
    intro st cur pre hcur
    simp only [renderPieces, List.map_nil, List.flatten_nil, splitGo, List.foldl_cons,
      List.foldl_nil]
    exact inlineStep_text k st cur.reverse (fun c hc => hcur c (by simpa using hc))
  | cons p ps ih =>
    intro st cur pre hcur
    have htail : ∀ q ∈ ps, q.wellFormed = true := fun q hq => hps q (by simp [hq])
    have hp : p.wellFormed = true := hps p (by simp)
    have e : renderPieces (p :: ps) = p.render ++ renderPieces ps := by
      simp [renderPieces]
    rw [e, List.map_cons, List.foldl_cons]
    by_cases hm : ∀ s, p ≠ Piece.text s
    · obtain ⟨body, hbody⟩ := piece_render_cons p hm
      rw [splitGo_reInlineSplit_tag p.render cur pre (renderPieces ps) '<' body hbody
        (execAt_reInlineSplit_piece p hp hm pre (renderPieces ps))]
      simp only [List.foldl_cons]
      rw [ih htail _ _ _ (by simp),
        inlineStep_text k st cur.reverse (fun c hc => hcur c (by simpa using hc)),
        inlineStep_piece k _ p hp hm]
      simp
    · have hs : ∃ s, p = Piece.text s := by
        by_contra hcon
        exact hm (fun s hs => hcon ⟨s, hs⟩)
      obtain ⟨s, rfl⟩ := hs
      have hplain : ∀ c ∈ s, c ≠ '<' := by
        simp only [Piece.wellFormed, List.all_eq_true] at hp
        intro c hc
        simpa using hp c hc
      simp only [Piece.render, Piece.tok, tokStep]
      rw [splitGo_pass reInlineSplit true s (fun c hc => failsAt_reInlineSplit c (hplain c hc)),
        ih htail _ _ _ (by
          intro c hc
          simp only [List.mem_append, List.mem_reverse] at hc
          rcases hc with hc | hc
          · exact hplain c hc
          · exact hcur c hc)]
      simp

/-- For inner HTML made of plain text and style tags, spelled in any case and with
attributes, the spans of `parseInlineElements` are the runs of its style events. -/
theorem parseInlineElements_pieces (ps : List Piece) (k : Nat)
    (hps : ∀ p ∈ ps, p.wellFormed = true) :
    (parseInlineElements (renderPieces ps) k).map spanView = spanRuns (ps.map Piece.tok) := by
  have hnil : execAt reInlineSplit [] [] = none := by rfl
  have hfin := finishInline_tokSteps k (ps.map Piece.tok) ⟨[], 0, [], []⟩
  simp only [List.map_nil, List.nil_append] at hfin
  unfold parseInlineElements spanRuns
  simp only []
  rw [split_eq_splitGo _ _ _ hnil, foldl_inlineStep_pieces k ps hps _ [] [] (by simp)]
  simp only [List.reverse_nil, List.append_nil]
  rw [← hfin]
  unfold orEmptySpan
  split
  · rename_i he
    rw [List.isEmpty_iff] at he
    simp [he, spanView]
  · rename_i he
    rw [List.isEmpty_iff] at he
    simp [he]

theorem chain_after (prev : Option (List Str)) (marks : List Str) (l : List (List Str)) :
    List.Chain' (fun a b : List Str => sameMarks a b = false) (prev.toList ++ marks :: l) ↔
      differsFrom prev marks = true ∧
        List.Chain' (fun a b : List Str => sameMarks a b = false)
          ((some marks).toList ++ l) := by
  cases prev with
  | none => simp [differsFrom]
  | some p => simp [differsFrom, List.chain'_cons]

/-- The boundary condition on the style events says that consecutive runs differ in their
set of marks. -/
theorem boundariesChange_iff (toks : List Tok) :
    ∀ (prev : Option (List Str)) (marks : List Str) (buf : Str),
      boundariesChange prev marks buf toks = true ↔
        List.Chain' (fun a b : List Str => sameMarks a b = false)
          (prev.toList ++ (runsGo marks buf toks).map Prod.snd) := by
  induction toks with
  | nil =>
    intro prev marks buf
    simp only [boundariesChange, runsGo]
    by_cases hb : (jsTrim buf).isEmpty = true
    · rw [if_pos hb, hb]
      cases prev <;> simp
    · rw [if_neg hb, List.map_singleton, chain_after]
      have hb2 : (jsTrim buf).isEmpty = false := by simpa using hb
      rw [hb2]
      simp
  | cons tok toks ih =>
    intro prev marks buf
    cases tok with
    | text s =>
      simp only [boundariesChange, runsGo]
      exact ih prev marks (buf ++ s)
    | opening m =>
      simp only [boundariesChange, runsGo]
      by_cases hb : buf.isEmpty = true
      · rw [if_pos hb, if_pos hb, List.nil_append]
        exact ih prev _ []
      · rw [if_neg hb, if_neg hb, Bool.and_eq_true, List.singleton_append, List.map_cons,
          chain_after, ih]
    | closing m =>
      simp only [boundariesChange, runsGo]
      by_cases hb : buf.isEmpty = true
      · rw [if_pos hb, if_pos hb, List.nil_append]
        exact ih prev _ []
      · rw [if_neg hb, if_neg hb, Bool.and_eq_true, List.singleton_append, List.map_cons,
          chain_after, ih]

theorem adjacent_iff_runs (spans : List Span) :
    AdjacentMarkSetsDiffer spans ↔
      List.Chain' (fun a b : List Str => sameMarks a b = false)
        ((spans.map spanView).map Prod.snd) := by
  unfold AdjacentMarkSetsDiffer
  rw [List.map_map, List.chain'_map]
  rfl

theorem wellFormed_forall (ps : List Piece) (h : ps.all Piece.wellFormed = true) :
    ∀ p ∈ ps, p.wellFormed = true :=
  List.all_eq_true.mp h

/-- C3: for inner HTML made of plain text and style tags (`strong`, `b`, `em`, `i`, `code`
in any letter case, opening tags with attributes) the spans of `parseInlineElements` are the
runs of text between tags with the marks open at that point, but the text after the last tag
is trimmed by the final flush: the span texts concatenate to the tag-stripped text up to the
last tag followed by the trimmed rest, not to the tag-stripped text. For
`<p>a <strong>b <em>c</em> d</strong> e</p>` the last span is `"e"`, not `" e"`, and the texts
concatenate to `"a b c de"`, not to `"a b c d e"`; `<strong>Hello</strong> world` gives
`"Hello"` and `"world"`; the pushes at a tag keep leading and trailing blanks (`" lead "`,
`"x "`). -/
theorem parseInlineElements_final_flush_trims (ps : List Piece) (k : Nat)
    (hps : ps.all Piece.wellFormed = true) :
    (parseInlineElements (renderPieces ps) k).map spanView = spanRuns (ps.map Piece.tok) ∧
    ((parseInlineElements (renderPieces ps) k).map Span.text).flatten =
      (lastTagSplit (ps.map Piece.tok)).1 ++ jsTrim (lastTagSplit (ps.map Piece.tok)).2 ∧
    strippedText (ps.map Piece.tok) =
      (lastTagSplit (ps.map Piece.tok)).1 ++ (lastTagSplit (ps.map Piece.tok)).2 ∧
    (convertHtmlToPortableText "<p>a <strong>b <em>c</em> d</strong> e</p>".toList).map blockView =
      [("normal".toList, none, none,
        [("a ".toList, []), ("b ".toList, ["strong".toList]),
         ("c".toList, ["strong".toList, "em".toList]), (" d".toList, ["strong".toList]),
         ("e".toList, [])])] ∧
    ((parseInlineElements "a <strong>b <em>c</em> d</strong> e".toList 1).map Span.text).flatten
      = "a b c de".toList ∧
    (parseInlineElements "<strong>Hello</strong> world".toList 1).map spanView =
      [("Hello".toList, ["strong".toList]), ("world".toList, [])] ∧
    (parseInlineElements " lead <strong>x </strong>".toList 1).map spanView =
      [(" lead ".toList, []), ("x ".toList, ["strong".toList])] ∧
    (convertHtmlToPortableText "<p>a <strong>b <em>c</em> d</strong> e</p>".toList).map
        (fun b => b.children.map Span.text) ≠
      [["a ".toList, "b ".toList, "c".toList, " d".toList, " e".toList]] ∧
    ((parseInlineElements "a <strong>b <em>c</em> d</strong> e".toList 1).map Span.text).flatten ≠
      "a b c d e".toList := by
  have h1 := parseInlineElements_pieces ps k (wellFormed_forall ps hps)
  refine ⟨h1, ?_, ?_, by rfl, by decide, by decide, by decide, by decide, by decide⟩
  · have e : (parseInlineElements (renderPieces ps) k).map Span.text =
        ((parseInlineElements (renderPieces ps) k).map spanView).map Prod.fst := by
      simp [spanView, Function.comp_def]
    rw [e, h1]
    unfold spanRuns lastTagSplit
    have := lastTagSplitFrom_runs (ps.map Piece.tok) [] [] []
    simp only [List.nil_append] at this
    split
    · rename_i he
      simp only [List.isEmpty_iff] at he
      rw [← this, he]
      simp
    · exact this
  · have := lastTagSplitFrom_stripped (ps.map Piece.tok) [] []
    simp only [List.nil_append] at this
    exact this.symm

/-- Witness of C3 on `a <STRONG class="x">b</b> c `: the blank after `c` and the blank
before it are gone from the last span. -/
theorem parseInlineElements_final_flush_trims_witness :
    renderPieces [.text "a ".toList, .opening .strong "STRONG".toList " class=\"x\"".toList,
      .text "b".toList, .closing .b "b".toList, .text " c ".toList] =
        "a <STRONG class=\"x\">b</b> c ".toList ∧
    (parseInlineElements "a <STRONG class=\"x\">b</b> c ".toList 1).map spanView =
      [("a ".toList, []), ("b".toList, ["strong".toList]), ("c".toList, [])] ∧
    ((parseInlineElements "a <STRONG class=\"x\">b</b> c ".toList 1).map Span.text).flatten =
      "a bc".toList :=
  ⟨by decide,
   (parseInlineElements_final_flush_trims
      [.text "a ".toList, .opening .strong "STRONG".toList " class=\"x\"".toList,
        .text "b".toList, .closing .b "b".toList, .text " c ".toList] 1 (by decide)).1,
   (parseInlineElements_final_flush_trims
      [.text "a ".toList, .opening .strong "STRONG".toList " class=\"x\"".toList,
        .text "b".toList, .closing .b "b".toList, .text " c ".toList] 1 (by decide)).2.1⟩

/-- C21 (amended): for inner HTML made of plain text and style tags (`strong`, `b`, `em`,
`i`, `code` in any letter case, opening tags with attributes), the spans returned by
`parseInlineElements` are the runs of text between tags: a tag ends the current span when
text is pending, whether or not it changes the marks, and nothing merges spans. So
consecutive spans differ in their set of marks exactly when at every span boundary the set
of open marks differs from the marks of the previous span. A closing style tag between a
non-empty text `a` and a non-blank text `b` always gives the two spans `a` and `b` without
marks, and a second opening tag of an open style gives two spans with the same mark. -/
theorem parseInlineElements_adjacent_mark_sets (ps : List Piece) (k : Nat)
    (hps : ps.all Piece.wellFormed = true) :
    (parseInlineElements (renderPieces ps) k).map spanView = spanRuns (ps.map Piece.tok) ∧
    (AdjacentMarkSetsDiffer (parseInlineElements (renderPieces ps) k) ↔
      boundariesChange none [] [] (ps.map Piece.tok) = true) ∧
    (∀ (n : TagName) (sp a b : Str), spells sp n.letters = true → a ≠ [] →
      (∀ c ∈ a, c ≠ '<') → (∀ c ∈ b, c ≠ '<') → jsTrim b ≠ [] →
      (parseInlineElements (a ++ Piece.render (.closing n sp) ++ b) k).map spanView =
        [(a, []), (jsTrim b, [])]) ∧
    (∀ (n m : TagName) (sp sq attrs attrs2 a b : Str), n.style = m.style →
      spells sp n.letters = true → spells sq m.letters = true →
      attrsOk attrs = true → attrsOk attrs2 = true → a ≠ [] →
      (∀ c ∈ a, c ≠ '<') → (∀ c ∈ b, c ≠ '<') → jsTrim b ≠ [] →
      (parseInlineElements (Piece.render (.opening n sp attrs) ++ a ++
          Piece.render (.opening m sq attrs2) ++ b) k).map spanView =
        [(a, [n.style.name]), (jsTrim b, [n.style.name])]) := by
  refine ⟨parseInlineElements_pieces ps k (wellFormed_forall ps hps), ?_, ?_, ?_⟩
  · rw [adjacent_iff_runs, parseInlineElements_pieces ps k (wellFormed_forall ps hps),
      boundariesChange_iff]
    unfold spanRuns
    split
    · rename_i he
      simp only [List.isEmpty_iff] at he
      rw [he]
      simp
    · rfl
  · intro n sp a b hsp ha hpa hpb hb
    have := parseInlineElements_pieces [.text a, .closing n sp, .text b] k (by
      intro p hp
      simp only [List.mem_cons, List.mem_singleton, List.not_mem_nil, or_false] at hp
      rcases hp with rfl | rfl | rfl
      · simpa [Piece.wellFormed] using hpa
      · exact hsp
      · simpa [Piece.wellFormed] using hpb)
    simp only [renderPieces, List.map_cons, List.map_nil, List.flatten_cons, List.flatten_nil,
      List.append_nil, Piece.tok] at this
    rw [← List.append_assoc] at this
    refine this.trans ?_
    have hb2 : (jsTrim b).isEmpty = false := by
      cases h : jsTrim b with
      | nil => exact absurd h hb
      | cons _ _ => rfl
    have ha2 : a.isEmpty = false := by
      cases a with
      | nil => exact absurd rfl ha
      | cons _ _ => rfl
    simp [spanRuns, runsGo, dropMark, ha2, hb2]
  · intro n m sp sq attrs attrs2 a b hnm hsp hsq hat hat2 ha hpa hpb hb
    have := parseInlineElements_pieces
      [.opening n sp attrs, .text a, .opening m sq attrs2, .text b] k (by
      intro p hp
      simp only [List.mem_cons, List.mem_singleton, List.not_mem_nil, or_false] at hp
      rcases hp with rfl | rfl | rfl | rfl
      · simp [Piece.wellFormed, hsp, hat]
      · simpa [Piece.wellFormed] using hpa
      · simp [Piece.wellFormed, hsq, hat2]
      · simpa [Piece.wellFormed] using hpb)
    simp only [renderPieces, List.map_cons, List.map_nil, List.flatten_cons, List.flatten_nil,
      List.append_nil, Piece.tok] at this
    simp only [← List.append_assoc] at this
    refine this.trans ?_
    rw [← hnm]
    have hb2 : (jsTrim b).isEmpty = false := by
      cases h : jsTrim b with
      | nil => exact absurd h hb
      | cons _ _ => rfl
    have ha2 : a.isEmpty = false := by
      cases a with
      | nil => exact absurd rfl ha
      | cons _ _ => rfl
    simp [spanRuns, runsGo, addMark, ha2, hb2]

/-- Counterexample to C21 as stated: a stray closing tag and a repeated opening tag end the
current span without changing the marks, so `a</strong>b` gives the spans `a` and `b`
both with marks `[]`, and `<strong>a<strong>b</strong>` gives `a` and `b` both with marks
`[strong]`; an empty element between two texts, `a<strong></strong>b`, does the same, and
in `<strong><em>a</strong><strong>b` the two spans carry the same two marks. -/
theorem parseInlineElements_equal_adjacent_marks :
    (parseInlineElements "a</strong>b".toList 1).map spanView =
      [("a".toList, []), ("b".toList, [])] ∧
    (parseInlineElements "<strong>a<strong>b</strong>".toList 1).map spanView =
      [("a".toList, ["strong".toList]), ("b".toList, ["strong".toList])] ∧
    (parseInlineElements "a<strong></strong>b".toList 1).map spanView =
      [("a".toList, []), ("b".toList, [])] ∧
    (parseInlineElements "<strong><em>a</strong><strong>b".toList 1).map spanView =
      [("a".toList, ["strong".toList, "em".toList]),
       ("b".toList, ["em".toList, "strong".toList])] ∧
    ¬ AdjacentMarkSetsDiffer (parseInlineElements "a</strong>b".toList 1) ∧
    ¬ AdjacentMarkSetsDiffer (parseInlineElements "<strong>a<strong>b</strong>".toList 1) ∧
    ¬ AdjacentMarkSetsDiffer (parseInlineElements "a<strong></strong>b".toList 1) ∧
    ¬ AdjacentMarkSetsDiffer
      (parseInlineElements "<strong><em>a</strong><strong>b".toList 1) := by
  refine ⟨by decide, by decide, by decide, by decide, ?_, ?_, ?_, ?_⟩
  · rw [adjacent_iff_runs,
      show (parseInlineElements "a</strong>b".toList 1).map spanView =
        [("a".toList, []), ("b".toList, [])] by decide]
    simp [sameMarks]
  · rw [adjacent_iff_runs,
      show (parseInlineElements "<strong>a<strong>b</strong>".toList 1).map spanView =
        [("a".toList, ["strong".toList]), ("b".toList, ["strong".toList])] by decide]
    simp [sameMarks]
  · rw [adjacent_iff_runs,
      show (parseInlineElements "a<strong></strong>b".toList 1).map spanView =
        [("a".toList, []), ("b".toList, [])] by decide]
    simp [sameMarks]
  · rw [adjacent_iff_runs,
      show (parseInlineElements "<strong><em>a</strong><strong>b".toList 1).map spanView =
        [("a".toList, ["strong".toList, "em".toList]),
         ("b".toList, ["em".toList, "strong".toList])] by decide]
    simp only [List.map_cons, List.map_nil, List.chain'_cons, List.chain'_singleton, and_true]
    decide

/-- Witness of C21 (amended): in `a<strong><em>b</em></strong>c`, in
`a<strong>b</strong><em>c</em>` and in `a<B class="x">b</STRONG>c` consecutive spans differ
in their set of marks. -/
theorem parseInlineElements_adjacent_mark_sets_witness :
    renderPieces [.text "a".toList, .opening .strong "strong".toList [],
      .opening .em "em".toList [], .text "b".toList, .closing .em "em".toList,
      .closing .strong "strong".toList, .text "c".toList] =
        "a<strong><em>b</em></strong>c".toList ∧
    AdjacentMarkSetsDiffer (parseInlineElements (renderPieces [.text "a".toList,
      .opening .strong "strong".toList [], .opening .em "em".toList [], .text "b".toList,
      .closing .em "em".toList, .closing .strong "strong".toList, .text "c".toList]) 1) ∧
    renderPieces [.text "a".toList, .opening .strong "strong".toList [], .text "b".toList,
      .closing .strong "strong".toList, .opening .em "em".toList [], .text "c".toList,
      .closing .em "em".toList] = "a<strong>b</strong><em>c</em>".toList ∧
    AdjacentMarkSetsDiffer (parseInlineElements (renderPieces [.text "a".toList,
      .opening .strong "strong".toList [], .text "b".toList, .closing .strong "strong".toList,
      .opening .em "em".toList [], .text "c".toList, .closing .em "em".toList]) 1) ∧
    renderPieces [.text "a".toList, .opening .b "B".toList " class=\"x\"".toList,
      .text "b".toList, .closing .strong "STRONG".toList, .text "c".toList] =
        "a<B class=\"x\">b</STRONG>c".toList ∧
    AdjacentMarkSetsDiffer (parseInlineElements (renderPieces [.text "a".toList,
      .opening .b "B".toList " class=\"x\"".toList, .text "b".toList,
      .closing .strong "STRONG".toList, .text "c".toList]) 1) ∧
    (parseInlineElements "a<B class=\"x\">b</STRONG>c".toList 1).map spanView =
      [("a".toList, []), ("b".toList, ["strong".toList]), ("c".toList, [])] :=
  ⟨by decide,
   (parseInlineElements_adjacent_mark_sets _ 1 (by decide)).2.1.mpr (by decide),
   by decide,
   (parseInlineElements_adjacent_mark_sets _ 1 (by decide)).2.1.mpr (by decide),
   by decide,
   (parseInlineElements_adjacent_mark_sets _ 1 (by decide)).2.1.mpr (by decide),
   (parseInlineElements_adjacent_mark_sets
      [.text "a".toList, .opening .b "B".toList " class=\"x\"".toList, .text "b".toList,
        .closing .strong "STRONG".toList, .text "c".toList] 1 (by decide)).1⟩

theorem inlineStep_br (k : Nat) (st : Inline) (tag : Str) (htag : tag ∈ brTags) :
    inlineStep k st tag = { st with currentText := st.currentText ++ ['\n'] } := by
  have h0 : ∀ t ∈ brTags, t.isEmpty = false ∧ test reOpenStrong t = false ∧
      test reCloseStrong t = false ∧ test reOpenEm t = false ∧ test reCloseEm t = false ∧
      test reOpenCode t = false ∧ test reCloseCode t = false ∧ test reBr t = true := by
    decide
  obtain ⟨g0, g1, g2, g3, g4, g5, g6, g7⟩ := h0 tag htag
  unfold inlineStep
  rw [if_neg (by rw [g0]; decide), if_neg (by rw [g1]; decide), if_neg (by rw [g2]; decide),
    if_neg (by rw [g3]; decide), if_neg (by rw [g4]; decide), if_neg (by rw [g5]; decide),
    if_neg (by rw [g6]; decide), if_pos g7]

theorem brTags_shape (tag : Str) (htag : tag ∈ brTags) :
    ∃ ls, tag = '<' :: 'b' :: (ls ++ ['>']) ∧ ∀ x ∈ ls, x ≠ '>' := by
  simp only [brTags, List.mem_cons, List.mem_singleton, List.not_mem_nil, or_false] at htag
  rcases htag with rfl | rfl | rfl
  · exact ⟨"r".toList, rfl, by decide⟩
  · exact ⟨"r/".toList, rfl, by decide⟩
  · exact ⟨"r /".toList, rfl, by decide⟩

/-- C25: a line-break tag adds a newline to the current text and starts no span: for
texts `a` and `b` without `<` that are not empty and have no white space at either end,
`parseInlineElements` of `a`, one of `<br>`, `<br/>`, `<br />`, and `b` is exactly one
span, with the text `a`, newline, `b` and the marks `[]`. -/
theorem parseInlineElements_br (a b tag : Str) (k : Nat) (htag : tag ∈ brTags)
    (ha : TightText a) (hb : TightText b) :
    parseInlineElements (a ++ tag ++ b) k =
      [⟨"span".toList, "span-".toList ++ num k ++ "-".toList ++ num 1, a ++ '\n' :: b, []⟩] := by
  obtain ⟨ha0, ha1, -, ha3⟩ := ha
  obtain ⟨hb0, -, hb2, hb3⟩ := hb
  obtain ⟨ls, hshape, hls⟩ := brTags_shape tag htag
  have hnil : execAt reInlineSplit [] [] = none := by rfl
  have hx : ∀ pre r, execAt reInlineSplit pre (tag ++ r) = some ⟨tag, [(1, tag)]⟩ := by
    intro pre r
    have := execAt_reInlineSplit_ba 'b' (Or.inl rfl) ls pre r hls
    rw [hshape]
    simpa using this
  have hsplit : split reInlineSplit true (a ++ tag ++ b) = [a, tag, b] := by
    rw [split_eq_splitGo _ _ _ hnil, List.append_assoc,
      splitGo_pass reInlineSplit true a (fun c hc => failsAt_reInlineSplit c (ha3 c hc)),
      splitGo_reInlineSplit_tag tag _ _ b '<' ('b' :: (ls ++ ['>'])) hshape (hx _ b)]
    have := splitGo_pass reInlineSplit true b
      (fun c hc => failsAt_reInlineSplit c (hb3 c hc)) [] (tag.reverse ++ (a.reverse ++ [])) []
    simp only [List.append_nil] at this ⊢
    rw [this]
    simp [splitGo]
  have htrim : jsTrim (a ++ '\n' :: b) = a ++ '\n' :: b := by
    apply jsTrim_id
    · intro c hc
      cases a with
      | nil => exact absurd rfl ha0
      | cons x xs => exact ha1 c (by simpa using hc)
    · intro c hc
      apply hb2 c
      cases b with
      | nil => exact absurd rfl hb0
      | cons y ys =>
        rw [List.getLast?_append, List.getLast?_cons_cons] at hc
        cases hl : (y :: ys).getLast? with
        | none => simp at hl
        | some d => rw [hl] at hc; simpa using hc
  unfold parseInlineElements
  simp only []
  rw [hsplit]
  simp only [List.foldl_cons, List.foldl_nil]
  rw [inlineStep_text k _ a ha3, inlineStep_br k _ tag htag, inlineStep_text k _ b hb3]
  simp [finishInline, orEmptySpan, htrim]

/-- Witness of C25 on `x<br>y`. -/
theorem parseInlineElements_br_witness :
    "<br>".toList ∈ brTags ∧ TightText "x".toList ∧ TightText "y".toList ∧
    parseInlineElements ("x".toList ++ "<br>".toList ++ "y".toList) 1 =
      [⟨"span".toList, "span-".toList ++ num 1 ++ "-".toList ++ num 1,
        "x".toList ++ '\n' :: "y".toList, []⟩] :=
  ⟨by decide, by unfold TightText; decide, by unfold TightText; decide,
   parseInlineElements_br "x".toList "y".toList "<br>".toList 1 (by decide)
     (by unfold TightText; decide) (by unfold TightText; decide)⟩

theorem inlineStep_openA (k : Nat) (st : Inline) (ls : Str) (hls : ∀ x ∈ ls, x ≠ '>') :
    inlineStep k st ('<' :: 'a' :: (ls ++ ['>'])) = st := by
  have h1 : test reOpenStrong ('<' :: 'a' :: (ls ++ ['>'])) = false := by
    rw [test_eq_execAt reOpenStrong _ rfl, execAt_of_matchRe_none]; rfl
    simp [reOpenStrong, seqs, chr, chrI, litI]
  have h2 : test reCloseStrong ('<' :: 'a' :: (ls ++ ['>'])) = false := by
    rw [test_eq_execAt reCloseStrong _ rfl, execAt_of_matchRe_none]; rfl
    simp [reCloseStrong, seqs, lit, chr]
  have h3 : test reOpenEm ('<' :: 'a' :: (ls ++ ['>'])) = false := by
    rw [test_eq_execAt reOpenEm _ rfl, execAt_of_matchRe_none]; rfl
    simp [reOpenEm, seqs, chr, chrI, litI]
  have h4 : test reCloseEm ('<' :: 'a' :: (ls ++ ['>'])) = false := by
    rw [test_eq_execAt reCloseEm _ rfl, execAt_of_matchRe_none]; rfl
    simp [reCloseEm, seqs, lit, chr]
  have h5 : test reOpenCode ('<' :: 'a' :: (ls ++ ['>'])) = false := by
    rw [test_eq_execAt reOpenCode _ rfl, execAt_of_matchRe_none]; rfl
    simp [reOpenCode, seqs, chr, chrI, litI]
  have h6 : test reCloseCode ('<' :: 'a' :: (ls ++ ['>'])) = false := by
    rw [test_eq_execAt reCloseCode _ rfl, execAt_of_matchRe_none]; rfl
    simp [reCloseCode, seqs, lit, chr]
  have h7 : test reBr ('<' :: 'a' :: (ls ++ ['>'])) = false := by
    rw [test_eq_execAt reBr _ rfl, execAt_of_matchRe_none]; rfl
    simp [reBr, seqs, chr, chrI, litI]
  have h8 : test reAnchor ('<' :: 'a' :: (ls ++ ['>'])) = true := by
    rw [test_eq_execAt reAnchor _ rfl, execAt_isSome]
    have hp : ∀ x ∈ ls, (fun c : Char => c != '>') x = true := by
      intro x hx; simpa using hls x hx
    simp [reAnchor, seqs, chr, chrI, maybe, matchRe_optional_skip]
    rw [show many notGt = Re.rep 0 none true (.cls (fun c => c != '>')) from rfl,
      matchRe_greedy_run (fun c => c != '>') _ 0 _ ls ['>'] [] (by simp) (by simp) hp
        (by simp)]
    simp
  unfold inlineStep
  rw [if_neg (by simp), if_neg (by rw [h1]; decide), if_neg (by rw [h2]; decide),
    if_neg (by rw [h3]; decide), if_neg (by rw [h4]; decide), if_neg (by rw [h5]; decide),
    if_neg (by rw [h6]; decide), if_neg (by rw [h7]; decide), if_pos h8]

theorem inlineStep_closeA (k : Nat) (st : Inline) : inlineStep k st "</a>".toList = st := by
  have h1 : test reOpenStrong "</a>".toList = false := by decide
  have h2 : test reCloseStrong "</a>".toList = false := by decide
  have h3 : test reOpenEm "</a>".toList = false := by decide
  have h4 : test reCloseEm "</a>".toList = false := by decide
  have h5 : test reOpenCode "</a>".toList = false := by decide
  have h6 : test reCloseCode "</a>".toList = false := by decide
  have h7 : test reBr "</a>".toList = false := by decide
  have h8 : test reAnchor "</a>".toList = true := by decide
  unfold inlineStep
  rw [if_neg (by decide), if_neg (by rw [h1]; decide), if_neg (by rw [h2]; decide),
    if_neg (by rw [h3]; decide), if_neg (by rw [h4]; decide), if_neg (by rw [h5]; decide),
    if_neg (by rw [h6]; decide), if_neg (by rw [h7]; decide), if_pos h8]

/-- The loop of `parseInlineElements` over a text without `<` only collects the text. -/
theorem parseInlineElements_text (t : Str) (k : Nat) (ht : ∀ c ∈ t, c ≠ '<') :
    parseInlineElements t k = orEmptySpan k (finishInline k ⟨[], 0, t, []⟩) := by
  unfold parseInlineElements
  simp only []
  cases t with
  | nil =>
    have : split reInlineSplit true [] = [[]] := by rfl
    rw [this]
    rfl
  | cons c cs =>
    rw [split_reInlineSplit_plain (c :: cs) (by simp) ht]
    rw [List.foldl_cons, List.foldl_nil, inlineStep_text k _ (c :: cs) ht]
    rfl

theorem text_spans_unmarked (t : Str) (k : Nat) :
    ∀ s ∈ orEmptySpan k (finishInline k ⟨[], 0, t, []⟩), s.marks = [] := by
  intro s hs
  unfold finishInline at hs
  by_cases h : (jsTrim t).isEmpty = true
  · rw [if_pos h] at hs
    simp [orEmptySpan] at hs
    subst hs; rfl
  · rw [if_neg h] at hs
    simp [orEmptySpan] at hs
    subst hs; rfl

theorem parseInlineElements_text_value (t : Str) (k : Nat) (ht : ∀ c ∈ t, c ≠ '<') :
    parseInlineElements t k =
      if (jsTrim t).isEmpty then
        [⟨"span".toList, "empty-span-".toList ++ num k, [], []⟩]
      else [⟨"span".toList, "span-".toList ++ num k ++ "-".toList ++ num 1, jsTrim t, []⟩] := by
  rw [parseInlineElements_text t k ht]
  unfold finishInline
  by_cases h : (jsTrim t).isEmpty = true
  · rw [if_pos h, if_pos h]; rfl
  · rw [if_neg h, if_neg h]; rfl

/-- C26: anchor tags contribute no mark and no span boundary while their text survives:
for texts `x`, `y`, `z` without `<` and attributes without `>`, `parseInlineElements` of
`x<a attrs>y</a>z` returns the spans of `xyz`, all with the marks `[]`; that result is the
single span `span-k-1` whose text is `xyz` trimmed and whose marks are `[]`, or the empty
placeholder span `empty-span-k` when `xyz` is blank. -/
theorem parseInlineElements_anchor (x y z attrs : Str) (k : Nat)
    (hx : ∀ c ∈ x, c ≠ '<') (hy : ∀ c ∈ y, c ≠ '<') (hz : ∀ c ∈ z, c ≠ '<')
    (hattrs : ∀ c ∈ attrs, c ≠ '>') :
    parseInlineElements
        (x ++ "<a ".toList ++ attrs ++ ">".toList ++ y ++ "</a>".toList ++ z) k =
      parseInlineElements (x ++ y ++ z) k ∧
    (∀ s ∈ parseInlineElements (x ++ y ++ z) k, s.marks = []) ∧
    parseInlineElements
        (x ++ "<a ".toList ++ attrs ++ ">".toList ++ y ++ "</a>".toList ++ z) k =
      (if (jsTrim (x ++ y ++ z)).isEmpty then
        [⟨"span".toList, "empty-span-".toList ++ num k, [], []⟩]
      else
        [⟨"span".toList, "span-".toList ++ num k ++ "-".toList ++ num 1,
          jsTrim (x ++ y ++ z), []⟩]) := by
  have hxyz : ∀ c ∈ x ++ y ++ z, c ≠ '<' := by
    intro c hc
    simp only [List.mem_append] at hc
    rcases hc with (hc | hc) | hc
    · exact hx c hc
    · exact hy c hc
    · exact hz c hc
  have hls : ∀ c ∈ ' ' :: attrs, c ≠ '>' := by
    intro c hc
    simp only [List.mem_cons] at hc
    rcases hc with rfl | hc
    · decide
    · exact hattrs c hc
  have hnil : execAt reInlineSplit [] [] = none := by rfl
  have e : x ++ "<a ".toList ++ attrs ++ ">".toList ++ y ++ "</a>".toList ++ z =
      x ++ (('<' :: 'a' :: ((' ' :: attrs) ++ ['>'])) ++ (y ++ ("</a>".toList ++ (z ++ [])))) := by
    simp
  have hsplit : split reInlineSplit true
      (x ++ "<a ".toList ++ attrs ++ ">".toList ++ y ++ "</a>".toList ++ z) =
      [x, '<' :: 'a' :: ((' ' :: attrs) ++ ['>']), y, "</a>".toList, z] := by
    rw [split_eq_splitGo _ _ _ hnil, e,
      splitGo_pass reInlineSplit true x (fun c hc => failsAt_reInlineSplit c (hx c hc)),
      splitGo_reInlineSplit_tag ('<' :: 'a' :: ((' ' :: attrs) ++ ['>'])) _ _ _ '<' _ rfl
        (by
          have := execAt_reInlineSplit_ba 'a' (Or.inr rfl) (' ' :: attrs)
            (x.reverse ++ []) (y ++ ("</a>".toList ++ (z ++ []))) hls
          simpa using this),
      splitGo_pass reInlineSplit true y (fun c hc => failsAt_reInlineSplit c (hy c hc)),
      splitGo_reInlineSplit_tag "</a>".toList _ _ _ '<' _ rfl
        (execAt_reInlineSplit_closeA _ _),
      splitGo_pass reInlineSplit true z (fun c hc => failsAt_reInlineSplit c (hz c hc))]
    simp [splitGo]
  have hsame : parseInlineElements
      (x ++ "<a ".toList ++ attrs ++ ">".toList ++ y ++ "</a>".toList ++ z) k =
      parseInlineElements (x ++ y ++ z) k := by
    rw [parseInlineElements_text (x ++ y ++ z) k hxyz]
    unfold parseInlineElements
    simp only []
    rw [hsplit]
    simp only [List.foldl_cons, List.foldl_nil]
    rw [inlineStep_text k _ x hx, inlineStep_openA k _ (' ' :: attrs) hls,
      inlineStep_text k _ y hy, inlineStep_closeA, inlineStep_text k _ z hz]
    simp
  refine ⟨hsame, ?_, ?_⟩
  · rw [parseInlineElements_text (x ++ y ++ z) k hxyz]
    exact text_spans_unmarked (x ++ y ++ z) k
  · rw [hsame]
    exact parseInlineElements_text_value (x ++ y ++ z) k hxyz

/-- Witness of C26 on `see <a href="u">this</a>!`: the result is the one span `see this!`. -/
theorem parseInlineElements_anchor_witness :
    "see ".toList ++ "<a ".toList ++ "href=\"u\"".toList ++ ">".toList ++ "this".toList ++
      "</a>".toList ++ "!".toList = "see <a href=\"u\">this</a>!".toList ∧
    parseInlineElements "see <a href=\"u\">this</a>!".toList 1 =
      [⟨"span".toList, "span-1-1".toList, "see this!".toList, []⟩] ∧
    parseInlineElements "see this!".toList 1 =
      [⟨"span".toList, "span-1-1".toList, "see this!".toList, []⟩] ∧
    ∀ s ∈ parseInlineElements ("see ".toList ++ "this".toList ++ "!".toList) 1, s.marks = [] :=
  ⟨by decide,
   (parseInlineElements_anchor "see ".toList "this".toList "!".toList "href=\"u\"".toList 1
     (by decide) (by decide) (by decide) (by decide)).2.2,
   (parseInlineElements_anchor "see ".toList "this".toList "!".toList "href=\"u\"".toList 1
     (by decide) (by decide) (by decide) (by decide)).1.symm.trans
     (parseInlineElements_anchor "see ".toList "this".toList "!".toList "href=\"u\"".toList 1
       (by decide) (by decide) (by decide) (by decide)).2.2,
   (parseInlineElements_anchor "see ".toList "this".toList "!".toList "href=\"u\"".toList 1
     (by decide) (by decide) (by decide) (by decide)).2.1⟩

theorem reDoubleBr_eq (pre s : Str) (caps : List (Nat × Str)) :
    matchRe reDoubleBr some ⟨pre, s, caps⟩ =
      matchRe reBrTag (matchRe (many space) (matchRe reBrTag some)) ⟨pre, s, caps⟩ := rfl

/-- A line-break tag is matched as a whole when the continuation succeeds after it. -/
theorem matchRe_reBrTag (t : Str) (ht : t ∈ brTags) (K : Cont) (pre r : Str)
    (caps : List (Nat × Str)) (hK : (K ⟨t.reverse ++ pre, r, caps⟩).isSome = true) :
    matchRe reBrTag K ⟨pre, t ++ r, caps⟩ = K ⟨t.reverse ++ pre, r, caps⟩ := by
  obtain ⟨res, hres⟩ := Option.isSome_iff_exists.mp hK
  simp only [brTags, List.mem_cons, List.mem_singleton, List.not_mem_nil, or_false] at ht
  rcases ht with rfl | rfl | rfl
  · simp [reBrTag, seqs, chr, chrI, litI, many, maybe, space, matchRe_many_stop,
      matchRe_optional_skip, isSpace]
  · simp [reBrTag, seqs, chr, chrI, litI, many, maybe, space, matchRe_many_stop,
      matchRe_optional_take, isSpace]
    cases K ⟨'>' :: '/' :: 'r' :: 'b' :: '<' :: pre, r, caps⟩ <;> rfl
  · have hres2 : K ⟨'>' :: '/' :: ' ' :: 'r' :: 'b' :: '<' :: pre, r, caps⟩ = some res := hres
    have hk : matchRe ((Re.rep 0 (some 1) true (Re.cls fun x => x == '/')).seq
        (Re.cls fun x => x == '>')) K ⟨[' '].reverse ++ ('r' :: 'b' :: '<' :: pre),
          '/' :: '>' :: r, caps⟩ = some res := by
      simp [matchRe_optional_take, hres2]
    simp [reBrTag, seqs, chr, chrI, litI, maybe, space]
    have hrun := matchRe_greedy_run isSpace
      (matchRe ((Re.rep 0 (some 1) true (Re.cls fun x => x == '/')).seq
        (Re.cls fun x => x == '>')) K) 0 ('r' :: 'b' :: '<' :: pre) [' '] ('/' :: '>' :: r) caps
      (by simp [isSpace]) (by simp) (by simp [isSpace]) (by rw [hk]; rfl)
    rw [show many (Re.cls isSpace) = Re.rep 0 none true (Re.cls isSpace) from rfl]
    simp only [List.singleton_append] at hrun
    rw [hrun, hk, hres2]

/-- The pattern of the double line break matches two line-break tags separated by white
space as a whole. -/
theorem execAt_reDoubleBr (t1 w t2 pre r : Str) (h1 : t1 ∈ brTags) (h2 : t2 ∈ brTags)
    (hw : ∀ c ∈ w, isSpace c = true) :
    execAt reDoubleBr pre (t1 ++ w ++ t2 ++ r) = some ⟨t1 ++ w ++ t2, []⟩ := by
  apply execAt_of_matchRe _ _ _ _ ((t1 ++ w ++ t2).reverse ++ pre)
  have hK2 : matchRe reBrTag some ⟨w.reverse ++ (t1.reverse ++ pre), t2 ++ r, []⟩ =
      some ⟨t2.reverse ++ (w.reverse ++ (t1.reverse ++ pre)), r, []⟩ :=
    matchRe_reBrTag t2 h2 some _ r [] rfl
  have hhead : ∀ c ∈ (t2 ++ r).head?, isSpace c = false := by
    obtain ⟨ls, hshape, -⟩ := brTags_shape t2 h2
    rw [hshape]
    intro c hc
    simp at hc
    subst hc
    decide
  have hK1 : matchRe (many space) (matchRe reBrTag some) ⟨t1.reverse ++ pre, w ++ (t2 ++ r), []⟩ =
      some ⟨t2.reverse ++ (w.reverse ++ (t1.reverse ++ pre)), r, []⟩ := by
    rw [show many space = Re.rep 0 none true (Re.cls isSpace) from rfl,
      matchRe_greedy_run isSpace _ 0 _ w (t2 ++ r) [] hhead (by simp) hw (by rw [hK2]; rfl), hK2]
  rw [reDoubleBr_eq]
  have e : t1 ++ w ++ t2 ++ r = t1 ++ (w ++ (t2 ++ r)) := by simp
  rw [e, matchRe_reBrTag t1 h1 _ pre _ [] (by rw [hK1]; rfl), hK1]
  simp

theorem execAt_crlf (pre rest : Str) (c : Char) :
    execAt (lit "\r\n") pre (c :: rest) =
      if c = '\r' ∧ rest.head? = some '\n' then some ⟨['\r', '\n'], []⟩ else none := by
  by_cases h : c = '\r' ∧ rest.head? = some '\n'
  · rw [if_pos h]
    obtain ⟨rfl, h2⟩ := h
    cases rest with
    | nil => simp at h2
    | cons d ds =>
      simp at h2
      subst h2
      apply execAt_of_matchRe _ _ ['\r', '\n'] ds ('\n' :: '\r' :: pre)
      simp [lit, seqs, chr]
  · rw [if_neg h]
    apply execAt_of_matchRe_none
    cases rest with
    | nil => simp [lit, seqs, chr]
    | cons d ds =>
      simp [lit, seqs, chr]
      intro hc hd
      exact h ⟨hc, by simp [hd]⟩

theorem execAt_cr (pre rest : Str) (c : Char) :
    execAt (lit "\r") pre (c :: rest) = if c = '\r' then some ⟨['\r'], []⟩ else none := by
  by_cases h : c = '\r'
  · rw [if_pos h]
    subst h
    apply execAt_of_matchRe _ _ ['\r'] rest ('\r' :: pre)
    simp [lit, seqs, chr]
  · rw [if_neg h]
    apply execAt_of_matchRe_none
    simp [lit, seqs, chr, h]

/-- Replacing CR LF by LF turns white space in front of a text that does not start with LF
into white space. -/
theorem replaceAllGo_crlf_ws (v : Str) (hv : ∀ c ∈ v.head?, c ≠ '\n') (w : Str) :
    ∀ (skip : Nat) (pre : Str), (∀ c ∈ w, isSpace c = true) →
      (skip = 0 ∨ (skip = 1 ∧ w ≠ [])) →
      ∃ w' pre', (∀ c ∈ w', isSpace c = true) ∧
        replaceAllGo (lit "\r\n") "\n".toList skip pre (w ++ v) =
          w' ++ replaceAllGo (lit "\r\n") "\n".toList 0 pre' v := by
  induction w with
  | nil =>
    intro skip pre _ hs
    rcases hs with rfl | ⟨-, h⟩
    · exact ⟨[], pre, by simp, by simp⟩
    · exact absurd rfl h
  | cons c t ih =>
    intro skip pre hw hs
    have hwt : ∀ c ∈ t, isSpace c = true := fun d hd => hw d (by simp [hd])
    rcases hs with rfl | ⟨rfl, -⟩
    · rw [List.cons_append, replaceAllGo, execAt_crlf]
      by_cases h : c = '\r' ∧ (t ++ v).head? = some '\n'
      · rw [if_pos h]
        have htne : t ≠ [] := by
          intro ht
          subst ht
          exact hv '\n' (by simpa using h.2) rfl
        obtain ⟨w', pre', h1, h2⟩ := ih 1 (c :: pre) hwt (Or.inr ⟨rfl, htne⟩)
        refine ⟨'\n' :: w', pre', ?_, ?_⟩
        · intro d hd
          simp only [List.mem_cons] at hd
          rcases hd with rfl | hd
          · decide
          · exact h1 d hd
        · simp only [List.length_cons, List.length_nil]
          rw [h2]
          rfl
      · rw [if_neg h]
        obtain ⟨w', pre', h1, h2⟩ := ih 0 (c :: pre) hwt (Or.inl rfl)
        refine ⟨c :: w', pre', ?_, ?_⟩
        · intro d hd
          simp only [List.mem_cons] at hd
          rcases hd with rfl | hd
          · exact hw d (by simp)
          · exact h1 d hd
        · simp only []
          rw [h2]
          rfl
    · rw [List.cons_append, replaceAllGo]
      exact ih 0 (c :: pre) hwt (Or.inl rfl)

/-- Replacing CR by LF turns white space into white space. -/
theorem replaceAllGo_cr_ws (v : Str) (w : Str) :
    ∀ (pre : Str), (∀ c ∈ w, isSpace c = true) →
      ∃ w' pre', (∀ c ∈ w', isSpace c = true) ∧
        replaceAllGo (lit "\r") "\n".toList 0 pre (w ++ v) =
          w' ++ replaceAllGo (lit "\r") "\n".toList 0 pre' v := by
  induction w with
  | nil => intro pre _; exact ⟨[], pre, by simp, by simp⟩
  | cons c t ih =>
    intro pre hw
    have hwt : ∀ c ∈ t, isSpace c = true := fun d hd => hw d (by simp [hd])
    obtain ⟨w', pre', h1, h2⟩ := ih (c :: pre) hwt
    rw [List.cons_append, replaceAllGo, execAt_cr]
    by_cases h : c = '\r'
    · rw [if_pos h]
      refine ⟨'\n' :: w', pre', ?_, ?_⟩
      · intro d hd
        simp only [List.mem_cons] at hd
        rcases hd with rfl | hd
        · decide
        · exact h1 d hd
      · simp only [List.length_cons, List.length_nil]
        rw [h2]
        rfl
    · rw [if_neg h]
      refine ⟨c :: w', pre', ?_, ?_⟩
      · intro d hd
        simp only [List.mem_cons] at hd
        rcases hd with rfl | hd
        · exact hw d (by simp)
        · exact h1 d hd
      · simp only []
        rw [h2]
        rfl

theorem replaceAllGo_lit_noop (s : String) (d : Char) (ds : Str) (hs : s.toList = d :: ds)
    (rep t pre : Str) (ht : ∀ c ∈ t, c ≠ d) : replaceAllGo (lit s) rep 0 pre t = t := by
  have := replaceAllGo_pass (lit s) rep t (fun c hc => execAt_lit_ne s d ds hs c (ht c hc)) pre []
  rw [List.append_nil] at this
  rw [this, replaceAllGo, execAt_lit_nil s d ds hs]
  simp

/-- The two line-break replacements of `cleanHtml` only touch a white-space segment: the
text before it and the text after it, which have no CR, stay as they are. -/
theorem lineBreaks_ws (u w v : Str) (hu : ∀ c ∈ u, c ≠ '\r') (hv : ∀ c ∈ v, c ≠ '\r')
    (hv1 : ∀ c ∈ v.head?, c ≠ '\n') (hw : ∀ c ∈ w, isSpace c = true) :
    ∃ w', (∀ c ∈ w', isSpace c = true) ∧
      replaceAll (lit "\r") "\n".toList (replaceAll (lit "\r\n") "\n".toList (u ++ w ++ v)) =
        u ++ w' ++ v := by
  have hfu1 : ∀ c ∈ u, FailsAt (lit "\r\n") c :=
    fun c hc => execAt_lit_ne "\r\n" '\r' _ rfl c (hu c hc)
  have hfu2 : ∀ c ∈ u, FailsAt (lit "\r") c :=
    fun c hc => execAt_lit_ne "\r" '\r' _ rfl c (hu c hc)
  obtain ⟨w1, pre1, h1, h2⟩ := replaceAllGo_crlf_ws v hv1 w 0 (u.reverse ++ []) hw (Or.inl rfl)
  obtain ⟨w2, pre2, h3, h4⟩ := replaceAllGo_cr_ws v w1 (u.reverse ++ []) h1
  refine ⟨w2, h3, ?_⟩
  unfold replaceAll
  rw [List.append_assoc, replaceAllGo_pass _ _ u hfu1, h2,
    replaceAllGo_lit_noop "\r\n" '\r' _ rfl _ v _ hv,
    replaceAllGo_pass _ _ u hfu2, h4, replaceAllGo_lit_noop "\r" '\r' _ rfl _ v _ hv]
  simp

/-- `replace` with `g` puts the replacement in the place of a match. -/
theorem replaceAllGo_match (re : Re) (rep : Str) (c : Char) (body pre r : Str)
    (caps : List (Nat × Str))
    (hx : execAt re pre (c :: body ++ r) = some ⟨c :: body, caps⟩) :
    replaceAllGo re rep 0 pre (c :: body ++ r) =
      rep ++ replaceAllGo re rep 0 ((c :: body).reverse ++ pre) r := by
  rw [List.cons_append] at hx ⊢
  rw [replaceAllGo, hx]
  simp only [List.length_cons]
  rw [replaceAllGo_skip]
  simp

theorem convert_cleaned_paragraphs (h : Str) (ts : List Str) (hne : ts ≠ [])
    (hts : ∀ t ∈ ts, PlainText t) (htrim : (jsTrim h).isEmpty = false)
    (hclean : cleanHtml h = paragraphsHtml ts) :
    (convertHtmlToPortableText h).map blockView =
      ts.map (fun t => ("normal".toList, none, none, [(t, [])])) := by
  have hlt : ∀ t ∈ ts, ∀ c ∈ t, c ≠ '<' := fun t ht c hc => ((hts t ht).2.2.2 c hc).1
  obtain ⟨t0, ts0, rfl⟩ := List.exists_cons_of_ne_nil hne
  have hfilter : (t0 :: ts0).map paragraph =
      ((t0 :: ts0).map paragraph).filter (fun block => !(jsTrim block).isEmpty) := by
    symm
    rw [List.filter_eq_self]
    intro b hb
    rw [List.mem_map] at hb
    obtain ⟨t, _, rfl⟩ := hb
    have := jsTrim_ne_nil '<' ('p' :: '>' :: (t ++ "</p>".toList)) (by decide)
    simpa [paragraph] using this
  have hh : h.isEmpty = false := by
    cases h with
    | nil => simp [jsTrim] at htrim
    | cons c cs => rfl
  unfold convertHtmlToPortableText
  rw [if_neg (by rw [htrim, hh]; simp)]
  simp only [hclean]
  rw [split_paragraphs _ hlt hne, ← hfilter]
  have hfold := foldl_blockStep_paragraphs (t0 :: ts0) hts ([], 0)
  have hlen : 0 < (((t0 :: ts0).map paragraph).foldl blockStep ([], 0)).1.length := by
    have := congrArg List.length hfold
    simp only [List.length_map, List.map_nil, List.nil_append, List.length_cons] at this
    omega
  rw [if_pos hlen, hfold]
  simp

theorem brTags_chars (t : Str) (ht : t ∈ brTags) : ∀ c ∈ t, c ≠ '&' ∧ c ≠ '\r' := by
  have h0 : ∀ t ∈ brTags, ∀ c ∈ t, c ≠ '&' ∧ c ≠ '\r' := by decide
  exact h0 t ht

theorem cleanHtml_double_br (a b t1 w t2 : Str) (ha : PlainText a) (hb : PlainText b)
    (h1 : t1 ∈ brTags) (h2 : t2 ∈ brTags) (hw : ∀ c ∈ w, isSpace c = true) :
    cleanHtml ("<p>".toList ++ a ++ t1 ++ w ++ t2 ++ b ++ "</p>".toList) =
      paragraphsHtml [a, b] := by
  have hws : ∀ c ∈ w, c ≠ '&' := by
    intro c hc e; subst e
    exact absurd (hw _ hc) (by decide)
  have hamp : ∀ c ∈ "<p>".toList ++ a ++ t1 ++ w ++ t2 ++ b ++ "</p>".toList, c ≠ '&' := by
    intro c hc
    simp only [List.mem_append] at hc
    rcases hc with (((((hc | hc) | hc) | hc) | hc) | hc) | hc
    · simp at hc; rcases hc with hc | hc | hc <;> (rw [hc]; decide)
    · exact (ha.2.2.2 c hc).2.2.1
    · exact (brTags_chars t1 h1 c hc).1
    · exact hws c hc
    · exact (brTags_chars t2 h2 c hc).1
    · exact (hb.2.2.2 c hc).2.2.1
    · simp at hc; rcases hc with hc | hc | hc | hc <;> (rw [hc]; decide)
  have hu : ∀ c ∈ "<p>".toList ++ a ++ t1, c ≠ '\r' := by
    intro c hc
    simp only [List.mem_append] at hc
    rcases hc with (hc | hc) | hc
    · simp at hc; rcases hc with hc | hc | hc <;> (rw [hc]; decide)
    · exact (ha.2.2.2 c hc).2.2.2
    · exact (brTags_chars t1 h1 c hc).2
  have hv : ∀ c ∈ t2 ++ b ++ "</p>".toList, c ≠ '\r' := by
    intro c hc
    simp only [List.mem_append] at hc
    rcases hc with (hc | hc) | hc
    · exact (brTags_chars t2 h2 c hc).2
    · exact (hb.2.2.2 c hc).2.2.2
    · simp at hc; rcases hc with hc | hc | hc | hc <;> (rw [hc]; decide)
  obtain ⟨ls1, hshape1, -⟩ := brTags_shape t1 h1
  obtain ⟨ls2, hshape2, -⟩ := brTags_shape t2 h2
  have hv1 : ∀ c ∈ (t2 ++ b ++ "</p>".toList).head?, c ≠ '\n' := by
    rw [hshape2]
    intro c hc
    simp at hc
    subst hc
    decide
  obtain ⟨w', hw', hlb⟩ := lineBreaks_ws ("<p>".toList ++ a ++ t1) w
    (t2 ++ b ++ "</p>".toList) hu hv hv1 hw
  have e0 : "<p>".toList ++ a ++ t1 ++ w ++ t2 ++ b ++ "</p>".toList =
      "<p>".toList ++ a ++ t1 ++ w ++ (t2 ++ b ++ "</p>".toList) := by simp
  have hlt_b : noLtThen isBrStart (b ++ "</p>".toList) = true := by
    rw [noLtThen_pass _ b (fun c hc => (hb.2.2.2 c hc).1)]
    decide
  have hdbl : replaceAll reDoubleBr "</p><p>".toList
      ("<p>".toList ++ a ++ t1 ++ w' ++ (t2 ++ b ++ "</p>".toList)) = paragraphsHtml [a, b] := by
    have e1 : "<p>".toList ++ a ++ t1 ++ w' ++ (t2 ++ b ++ "</p>".toList) =
        '<' :: (('p' :: '>' :: a) ++
          ('<' :: ('b' :: (ls1 ++ ['>']) ++ w' ++ t2) ++ (b ++ "</p>".toList))) := by
      rw [hshape1]; simp
    have hx := execAt_reDoubleBr t1 w' t2
      (('p' :: '>' :: a).reverse ++ ['<']) (b ++ "</p>".toList) h1 h2 hw'
    have e2 : t1 ++ w' ++ t2 ++ (b ++ "</p>".toList) =
        '<' :: ('b' :: (ls1 ++ ['>']) ++ w' ++ t2) ++ (b ++ "</p>".toList) := by
      rw [hshape1]; simp
    have e3 : t1 ++ w' ++ t2 = '<' :: ('b' :: (ls1 ++ ['>']) ++ w' ++ t2) := by
      rw [hshape1]; simp
    rw [e2, e3] at hx
    unfold replaceAll
    rw [e1, replaceAllGo, execAt_reDoubleBr_none _ _ _ (Or.inr (by simp))]
    simp only []
    rw [replaceAllGo_pass reDoubleBr _ ('p' :: '>' :: a)
        (fun c hc pre rest => execAt_reDoubleBr_none pre rest c (Or.inl (by
          simp only [List.mem_cons] at hc
          rcases hc with rfl | rfl | hc
          · decide
          · decide
          · exact (ha.2.2.2 c hc).1))),
      replaceAllGo_match reDoubleBr _ '<' _ _ _ [] hx,
      replaceAllGo_reDoubleBr_noop _ _ _ hlt_b]
    simp [paragraphsHtml, paragraph]
  unfold cleanHtml
  rw [replaceAll_lit_noop "&#8211;" '&' _ rfl _ _ hamp]
  rw [replaceAll_lit_noop "&#8212;" '&' _ rfl _ _ hamp]
  rw [replaceAll_lit_noop "&#8220;" '&' _ rfl _ _ hamp]
  rw [replaceAll_lit_noop "&#8221;" '&' _ rfl _ _ hamp]
  rw [replaceAll_lit_noop "&#8216;" '&' _ rfl _ _ hamp]
  rw [replaceAll_lit_noop "&#8217;" '&' _ rfl _ _ hamp]
  rw [replaceAll_lit_noop "&nbsp;" '&' _ rfl _ _ hamp]
  rw [replaceAll_lit_noop "&hellip;" '&' _ rfl _ _ hamp]
  rw [replaceAll_lit_noop "&quot;" '&' _ rfl _ _ hamp]
  rw [replaceAll_lit_noop "&lt;" '&' _ rfl _ _ hamp]
  rw [replaceAll_lit_noop "&gt;" '&' _ rfl _ _ hamp]
  rw [replaceAll_lit_noop "&amp;" '&' _ rfl _ _ hamp]
  rw [e0, hlb]
  exact hdbl

/-- C27: two consecutive line-break tags act as a paragraph boundary: for texts `a` and
`b` that are not empty, have no white space at either end and contain none of `<`, `>`,
`&`, CR, `convertHtmlToPortableText` of `<p>`, `a`, two line-break tags (each one of
`<br>`, `<br/>`, `<br />`) with any white space between them, `b`, `</p>` returns exactly
two `normal` blocks, with the texts `a` and `b`, in that order. -/
theorem convert_double_br (a b t1 w t2 : Str) (ha : PlainText a) (hb : PlainText b)
    (h1 : t1 ∈ brTags) (h2 : t2 ∈ brTags) (hw : ∀ c ∈ w, isSpace c = true) :
    (convertHtmlToPortableText
        ("<p>".toList ++ a ++ t1 ++ w ++ t2 ++ b ++ "</p>".toList)).map blockView =
      [("normal".toList, none, none, [(a, [])]), ("normal".toList, none, none, [(b, [])])] := by
  have htrim : (jsTrim ("<p>".toList ++ a ++ t1 ++ w ++ t2 ++ b ++ "</p>".toList)).isEmpty =
      false := by
    have e : "<p>".toList ++ a ++ t1 ++ w ++ t2 ++ b ++ "</p>".toList =
        '<' :: ('p' :: '>' :: (a ++ t1 ++ w ++ t2 ++ b ++ "</p>".toList)) := by simp
    rw [e]
    exact jsTrim_ne_nil _ _ (by decide)
  have := convert_cleaned_paragraphs _ [a, b] (by simp)
    (by intro t ht; simp at ht; rcases ht with rfl | rfl <;> assumption) htrim
    (cleanHtml_double_br a b t1 w t2 ha hb h1 h2 hw)
  simpa using this

/-- Witness of C27 on `<p>one<br> <br/>two</p>`. -/
theorem convert_double_br_witness :
    "<p>".toList ++ "one".toList ++ "<br>".toList ++ " ".toList ++ "<br/>".toList ++
      "two".toList ++ "</p>".toList = "<p>one<br> <br/>two</p>".toList ∧
    PlainText "one".toList ∧ PlainText "two".toList ∧
    (convertHtmlToPortableText
        ("<p>".toList ++ "one".toList ++ "<br>".toList ++ " ".toList ++ "<br/>".toList ++
          "two".toList ++ "</p>".toList)).map blockView =
      [("normal".toList, none, none, [("one".toList, [])]),
       ("normal".toList, none, none, [("two".toList, [])])] :=
  ⟨by decide, by unfold PlainText; decide, by unfold PlainText; decide,
   convert_double_br _ _ _ _ _ (by unfold PlainText; decide) (by unfold PlainText; decide)
     (by decide) (by decide) (by decide)⟩

theorem digitChar_value (m : Nat) (h : m < 10) :
    (Nat.digitChar m).toNat - '0'.toNat = m ∧ Nat.digitChar m ≠ '-' := by
  interval_cases m <;> exact ⟨rfl, by decide⟩

theorem toDigitsCore_spec (fuel : Nat) :
    ∀ (n : Nat) (ds : Str), n < fuel →
      ∃ l, Nat.toDigitsCore 10 fuel n ds = l ++ ds ∧ digitsValue l = n ∧ ∀ c ∈ l, c ≠ '-' := by
  induction fuel with
  | zero => intro n ds h; omega
  | succ fuel ih =>
    intro n ds h
    obtain ⟨hv, hd⟩ := digitChar_value (n % 10) (Nat.mod_lt _ (by decide))
    unfold Nat.toDigitsCore
    simp only []
    by_cases h0 : n / 10 = 0
    · rw [if_pos h0]
      refine ⟨[Nat.digitChar (n % 10)], rfl, ?_, ?_⟩
      · simp only [digitsValue, List.foldl_cons, List.foldl_nil]
        rw [hv]
        omega
      · intro c hc
        simp only [List.mem_singleton] at hc
        subst hc; exact hd
    · rw [if_neg h0]
      obtain ⟨l, h1, h2, h3⟩ := ih (n / 10) (Nat.digitChar (n % 10) :: ds) (by omega)
      refine ⟨l ++ [Nat.digitChar (n % 10)], by rw [h1]; simp, ?_, ?_⟩
      · unfold digitsValue at h2 ⊢
        rw [List.foldl_append, h2]
        simp only [List.foldl_cons, List.foldl_nil]
        rw [hv]
        omega
      · intro c hc
        simp only [List.mem_append, List.mem_singleton] at hc
        rcases hc with hc | hc
        · exact h3 c hc
        · subst hc; exact hd

theorem num_spec (n : Nat) : digitsValue (num n) = n ∧ ∀ c ∈ num n, c ≠ '-' := by
  obtain ⟨l, h1, h2, h3⟩ := toDigitsCore_spec (n + 1) n [] (by omega)
  unfold num Nat.toDigits
  rw [h1, List.append_nil]
  exact ⟨h2, h3⟩

theorem num_injective (a b : Nat) (h : num a = num b) : a = b := by
  rw [← (num_spec a).1, ← (num_spec b).1, h]

theorem append_dash_inj (l1 : Str) :
    ∀ (l2 r1 r2 : Str), (∀ c ∈ l1, c ≠ '-') → (∀ c ∈ l2, c ≠ '-') →
      l1 ++ '-' :: r1 = l2 ++ '-' :: r2 → l1 = l2 ∧ r1 = r2 := by
  induction l1 with
  | nil =>
    intro l2 r1 r2 _ h2 h
    cases l2 with
    | nil => simp at h; exact ⟨rfl, h⟩
    | cons c l2 =>
      simp at h
      exact absurd h.1.symm (h2 c (by simp))
  | cons c l1 ih =>
    intro l2 r1 r2 h1 h2 h
    cases l2 with
    | nil =>
      simp at h
      exact absurd h.1 (h1 c (by simp))
    | cons d l2 =>
      simp only [List.cons_append, List.cons.injEq] at h
      obtain ⟨e1, e2⟩ := ih l2 r1 r2 (fun x hx => h1 x (by simp [hx]))
        (fun x hx => h2 x (by simp [hx])) h.2
      exact ⟨by rw [h.1, e1], e2⟩

theorem num_pair_inj (a b c d : Nat)
    (h : num a ++ "-".toList ++ num b = num c ++ "-".toList ++ num d) : a = c ∧ b = d := by
  have h' : num a ++ '-' :: num b = num c ++ '-' :: num d := by simpa using h
  obtain ⟨e1, e2⟩ := append_dash_inj _ _ _ _ (num_spec a).2 (num_spec c).2 h'
  exact ⟨num_injective _ _ e1, num_injective _ _ e2⟩

theorem keyedBy_inj (j k : Nat) (key : Str) (h1 : KeyedBy j key) (h2 : KeyedBy k key) :
    j = k := by
  rcases h1 with h1 | h1 | ⟨i1, h1⟩ <;> rcases h2 with h2 | h2 | ⟨i2, h2⟩
  · rw [h1] at h2
    exact num_injective _ _ (List.append_cancel_left h2)
  · rw [h1] at h2; simp at h2
  · rw [h1] at h2; simp at h2
  · rw [h1] at h2; simp at h2
  · rw [h1] at h2
    exact num_injective _ _ (List.append_cancel_left h2)
  · rw [h1] at h2; simp at h2
  · rw [h1] at h2; simp at h2
  · rw [h1] at h2; simp at h2
  · rw [h1] at h2
    simp only [List.append_assoc] at h2
    have := List.append_cancel_left h2
    exact (num_pair_inj _ _ _ _ (by simpa using this)).1

theorem span_key_inj (k a b : Nat)
    (h : "span-".toList ++ num k ++ "-".toList ++ num a =
      "span-".toList ++ num k ++ "-".toList ++ num b) : a = b := by
  simp only [List.append_assoc] at h
  exact num_injective _ _ (List.append_cancel_left (List.append_cancel_left
    (List.append_cancel_left h)))

theorem flush_keyed (k : Nat) (st : Inline) (h : SpansKeyed k st) : SpansKeyed k (flush k st) := by
  unfold flush
  by_cases he : st.currentText.isEmpty = true
  · rw [if_pos he]; exact h
  · rw [if_neg he]
    refine ⟨?_, ?_⟩
    · simp only [List.map_append, List.map_cons, List.map_nil]
      refine List.Nodup.append h.1 (List.nodup_singleton _) ?_
      intro key hk hk2
      simp only [List.mem_singleton] at hk2
      rw [List.mem_map] at hk
      obtain ⟨s, hs, hsk⟩ := hk
      obtain ⟨j, -, hj2, hj3⟩ := h.2 s hs
      rw [hk2, hj3] at hsk
      have := span_key_inj k _ _ hsk
      omega
    · intro s hs
      simp only [List.mem_append, List.mem_singleton] at hs
      rcases hs with hs | hs
      · obtain ⟨j, hj1, hj2, hj3⟩ := h.2 s hs
        exact ⟨j, hj1, by simp only []; omega, hj3⟩
      · subst hs
        exact ⟨st.spanKey + 1, by omega, Nat.le_refl _, rfl⟩

theorem openMark_keyed (k : Nat) (m : Str) (st : Inline) (h : SpansKeyed k st) :
    SpansKeyed k (openMark k m st) := by
  have hf := flush_keyed k st h
  unfold openMark
  simp only []
  split
  · exact hf
  · exact hf

theorem closeMark_keyed (k : Nat) (m : Str) (st : Inline) (h : SpansKeyed k st) :
    SpansKeyed k (closeMark k m st) := by
  have hf := flush_keyed k st h
  unfold closeMark
  exact hf

theorem inlineStep_keyed (k : Nat) (st : Inline) (part : Str) (h : SpansKeyed k st) :
    SpansKeyed k (inlineStep k st part) := by
  have o1 := openMark_keyed k "strong".toList st h
  have o2 := openMark_keyed k "em".toList st h
  have o3 := openMark_keyed k "code".toList st h
  have c1 := closeMark_keyed k "strong".toList st h
  have c2 := closeMark_keyed k "em".toList st h
  have c3 := closeMark_keyed k "code".toList st h
  unfold inlineStep
  by_cases g0 : part.isEmpty = true
  · rw [if_pos g0]; exact h
  rw [if_neg g0]
  by_cases g1 : test reOpenStrong part = true
  · rw [if_pos g1]; exact o1
  rw [if_neg g1]
  by_cases g2 : test reCloseStrong part = true
  · rw [if_pos g2]; exact c1
  rw [if_neg g2]
  by_cases g3 : test reOpenEm part = true
  · rw [if_pos g3]; exact o2
  rw [if_neg g3]
  by_cases g4 : test reCloseEm part = true
  · rw [if_pos g4]; exact c2
  rw [if_neg g4]
  by_cases g5 : test reOpenCode part = true
  · rw [if_pos g5]; exact o3
  rw [if_neg g5]
  by_cases g6 : test reCloseCode part = true
  · rw [if_pos g6]; exact c3
  rw [if_neg g6]
  by_cases g7 : test reBr part = true
  · rw [if_pos g7]; exact h
  rw [if_neg g7]
  by_cases g8 : test reAnchor part = true
  · rw [if_pos g8]; exact h
  rw [if_neg g8]
  by_cases g9 : (!test reWholeTag part) = true
  · rw [if_pos g9]; exact h
  rw [if_neg g9]
  exact h

theorem foldl_inlineStep_keyed (k : Nat) (parts : List Str) :
    ∀ st : Inline, SpansKeyed k st → SpansKeyed k (parts.foldl (inlineStep k) st) := by
  induction parts with
  | nil => intro st h; exact h
  | cons p ps ih => intro st h; exact ih _ (inlineStep_keyed k st p h)

theorem finishInline_keys (k : Nat) (st : Inline) (h : SpansKeyed k st) :
    ((finishInline k st).map Span._key).Nodup := by
  unfold finishInline
  by_cases he : (jsTrim st.currentText).isEmpty = true
  · rw [if_pos he]; exact h.1
  · rw [if_neg he]
    simp only [List.map_append, List.map_cons, List.map_nil]
    refine List.Nodup.append h.1 (List.nodup_singleton _) ?_
    intro key hk hk2
    simp only [List.mem_singleton] at hk2
    rw [List.mem_map] at hk
    obtain ⟨s, hs, hsk⟩ := hk
    obtain ⟨j, -, hj2, hj3⟩ := h.2 s hs
    rw [hk2, hj3] at hsk
    have := span_key_inj k _ _ hsk
    omega

theorem parseInlineElements_keys (html : Str) (k : Nat) :
    ((parseInlineElements html k).map Span._key).Nodup := by
  unfold parseInlineElements
  simp only []
  have h0 : SpansKeyed k ⟨[], 0, [], []⟩ :=
    ⟨List.nodup_nil, (by intro s hs; cases hs)⟩
  have h1 := finishInline_keys k _
    (foldl_inlineStep_keyed k (split reInlineSplit true html) _ h0)
  unfold orEmptySpan
  split
  · exact List.nodup_singleton _
  · exact h1

theorem listBlocks_keys (kind : Str) (k : Nat) (items : List Str) :
    ∀ index : Nat,
      ((listBlocks kind k index items).map Block._key).Nodup ∧
      (∀ b ∈ listBlocks kind k index items, ∃ i, index ≤ i ∧
        b._key = "list-".toList ++ num k ++ "-".toList ++ num i) ∧
      ∀ b ∈ listBlocks kind k index items, (b.children.map Span._key).Nodup := by
  induction items with
  | nil =>
    intro index
    exact ⟨List.nodup_nil, (by intro b hb; cases hb), (by intro b hb; cases hb)⟩
  | cons item items ih =>
    intro index
    obtain ⟨h1, h2, h3⟩ := ih (index + 1)
    unfold listBlocks
    simp only []
    refine ⟨?_, ?_, ?_⟩
    · rw [List.map_cons, List.nodup_cons]
      refine ⟨?_, h1⟩
      intro hmem
      rw [List.mem_map] at hmem
      obtain ⟨b, hb, hbk⟩ := hmem
      obtain ⟨i, hi, hik⟩ := h2 b hb
      rw [hik] at hbk
      simp only [List.append_assoc] at hbk
      have := num_injective _ _ (List.append_cancel_left (List.append_cancel_left
        (List.append_cancel_left hbk)))
      omega
    · intro b hb
      simp only [List.mem_cons] at hb
      rcases hb with rfl | hb
      · exact ⟨index, Nat.le_refl _, rfl⟩
      · obtain ⟨i, hi, hik⟩ := h2 b hb
        exact ⟨i, by omega, hik⟩
    · intro b hb
      simp only [List.mem_cons] at hb
      rcases hb with rfl | hb
      · exact parseInlineElements_keys _ _
      · exact h3 b hb

theorem convertBlock_keys (t : Str) (k : Nat) :
    ((convertBlock t k).map Block._key).Nodup ∧
    (∀ b ∈ convertBlock t k, KeyedBy k b._key) ∧
    ∀ b ∈ convertBlock t k, (b.children.map Span._key).Nodup := by
  have hnil : (([] : List Block).map Block._key).Nodup ∧
      (∀ b ∈ ([] : List Block), KeyedBy k b._key) ∧
      ∀ b ∈ ([] : List Block), (b.children.map Span._key).Nodup :=
    ⟨List.nodup_nil, (by intro b hb; cases hb), (by intro b hb; cases hb)⟩
  have hlist : ∀ kind items,
      ((listBlocks kind k 0 items).map Block._key).Nodup ∧
      (∀ b ∈ listBlocks kind k 0 items, KeyedBy k b._key) ∧
      ∀ b ∈ listBlocks kind k 0 items, (b.children.map Span._key).Nodup := by
    intro kind items
    obtain ⟨h1, h2, h3⟩ := listBlocks_keys kind k items 0
    refine ⟨h1, ?_, h3⟩
    intro b hb
    obtain ⟨i, -, hik⟩ := h2 b hb
    exact Or.inr (Or.inr ⟨i, hik⟩)
  unfold convertBlock
  split
  · refine ⟨List.nodup_singleton _, ?_, ?_⟩
    · intro b hb
      simp only [List.mem_singleton] at hb
      subst hb
      exact Or.inl rfl
    · intro b hb
      simp only [List.mem_singleton] at hb
      subst hb
      exact List.nodup_singleton _
  · split
    · split
      · exact hlist _ _
      · exact hnil
    · split
      · split
        · exact hlist _ _
        · exact hnil
      · split
        · simp only []
          split
          · refine ⟨List.nodup_singleton _, ?_, ?_⟩
            · intro b hb
              simp only [List.mem_singleton] at hb
              subst hb
              exact Or.inr (Or.inl rfl)
            · intro b hb
              simp only [List.mem_singleton] at hb
              subst hb
              exact parseInlineElements_keys _ _
          · exact hnil
        · simp only []
          split
          · refine ⟨List.nodup_singleton _, ?_, ?_⟩
            · intro b hb
              simp only [List.mem_singleton] at hb
              subst hb
              exact Or.inr (Or.inl rfl)
            · intro b hb
              simp only [List.mem_singleton] at hb
              subst hb
              exact List.nodup_singleton _
          · exact hnil

theorem blockStep_keyed (st : List Block × Nat) (htmlBlock : Str)
    (h : BlocksKeyed st ∧ ∀ b ∈ st.1, (b.children.map Span._key).Nodup) :
    BlocksKeyed (blockStep st htmlBlock) ∧
      ∀ b ∈ (blockStep st htmlBlock).1, (b.children.map Span._key).Nodup := by
  unfold blockStep
  simp only []
  split
  · exact h
  · obtain ⟨⟨h1, h2⟩, h3⟩ := h
    obtain ⟨g1, g2, g3⟩ := convertBlock_keys (jsTrim htmlBlock) (st.2 + 1)
    refine ⟨⟨?_, ?_⟩, ?_⟩
    · simp only [List.map_append]
      refine List.Nodup.append h1 g1 ?_
      intro key hk hk2
      rw [List.mem_map] at hk hk2
      obtain ⟨b, hb, hbk⟩ := hk
      obtain ⟨b2, hb2, hbk2⟩ := hk2
      obtain ⟨j, -, hj2, hj3⟩ := h2 b hb
      have hk3 := g2 b2 hb2
      rw [hbk2, ← hbk] at hk3
      have := keyedBy_inj _ _ _ hj3 hk3
      omega
    · intro b hb
      simp only [List.mem_append] at hb
      rcases hb with hb | hb
      · obtain ⟨j, hj1, hj2, hj3⟩ := h2 b hb
        exact ⟨j, hj1, by simp only []; omega, hj3⟩
      · exact ⟨st.2 + 1, by omega, Nat.le_refl _, g2 b hb⟩
    · intro b hb
      simp only [List.mem_append] at hb
      rcases hb with hb | hb
      · exact h3 b hb
      · exact g3 b hb

theorem foldl_blockStep_keyed (htmlBlocks : List Str) :
    ∀ st : List Block × Nat,
      (BlocksKeyed st ∧ ∀ b ∈ st.1, (b.children.map Span._key).Nodup) →
      BlocksKeyed (htmlBlocks.foldl blockStep st) ∧
        ∀ b ∈ (htmlBlocks.foldl blockStep st).1, (b.children.map Span._key).Nodup := by
  induction htmlBlocks with
  | nil => intro st h; exact h
  | cons p ps ih => intro st h; exact ih _ (blockStep_keyed st p h)

/-- C28: for every input string, the blocks returned by `convertHtmlToPortableText` have
pairwise distinct `_key` values, and within each returned block the children have pairwise
distinct `_key` values. -/
theorem convert_keys_distinct (html : Str) :
    ((convertHtmlToPortableText html).map Block._key).Nodup ∧
    ∀ b ∈ convertHtmlToPortableText html, (b.children.map Span._key).Nodup := by
  have hempty : (([createEmptyBlock] : List Block).map Block._key).Nodup ∧
      ∀ b ∈ ([createEmptyBlock] : List Block), (b.children.map Span._key).Nodup := by
    refine ⟨List.nodup_singleton _, ?_⟩
    intro b hb
    simp only [List.mem_singleton] at hb
    subst hb
    exact List.nodup_singleton _
  unfold convertHtmlToPortableText
  split
  · exact hempty
  · simp only []
    split
    · have h0 : BlocksKeyed ([], 0) ∧
          ∀ b ∈ (([], 0) : List Block × Nat).1, (b.children.map Span._key).Nodup :=
        ⟨⟨List.nodup_nil, (by intro b hb; cases hb)⟩, (by intro b hb; cases hb)⟩
      obtain ⟨⟨g1, -⟩, g2⟩ := foldl_blockStep_keyed _ _ h0
      exact ⟨g1, g2⟩
    · exact hempty

end FixFormatting

namespace FormatLinks

open JsRe

/-! ### `format-links-in-posts.js` -/

theorem findUrls_repeated : findUrls repeatedUrlText = [exampleCom] := by decide

theorem findUrls_andExample : findUrls andExampleCom = [exampleCom] := by decide

theorem findUrls_see : findUrls seeExampleCom = [exampleCom] := by decide

theorem findUrls_visit : findUrls visitExampleComNow = [exampleCom] := by decide

theorem split_repeated :
    splitTextWithUrls repeatedUrlText = [⟨.url, exampleCom⟩, ⟨.text, andExampleCom⟩] := by
  decide

theorem split_andExample :
    splitTextWithUrls andExampleCom = [⟨.text, andText⟩, ⟨.url, exampleCom⟩] := by
  decide

theorem split_see :
    splitTextWithUrls seeExampleCom = [⟨.text, "see ".toList⟩, ⟨.url, exampleCom⟩] := by
  decide

theorem split_visit :
    splitTextWithUrls visitExampleComNow =
      [⟨.text, "visit ".toList⟩, ⟨.url, exampleCom⟩, ⟨.text, " now".toList⟩] := by
  decide

theorem normalize_exampleCom : normalizeUrl exampleCom = httpsExampleCom := by decide

theorem sample_texts_nonempty :
    repeatedUrlText.isEmpty = false ∧ andExampleCom.isEmpty = false ∧
    exampleCom.isEmpty = false ∧ seeExampleCom.isEmpty = false ∧
    visitExampleComNow.isEmpty = false := by
  decide

/-- C7 (fails on the code): on a body whose single span mentions `example.com` twice, the
first pass of `processPostBody` links only the first mention, and a second pass over the
result is modified again and splits the remaining text, whatever the random keys are. -/
theorem processPostBody_second_pass_modifies (rnd : Nat → Str) (d1 d2 : Nat) :
    (processPostBody rnd d2
      (processPostBody rnd d1 [plainBlock [repeatedUrlText]]).body).modified = true ∧
    spanTexts (processPostBody rnd d1 [plainBlock [repeatedUrlText]]).body =
      [[some exampleCom, some andExampleCom]] ∧
    spanTexts (processPostBody rnd d2
      (processPostBody rnd d1 [plainBlock [repeatedUrlText]]).body).body =
      [[some exampleCom, some andText, some exampleCom]] := by
  simp [processPostBody, processBlock, plainBlock, childStep, hasLinkMark, findUrls_repeated,
    findUrls_andExample, split_repeated, split_andExample, normalize_exampleCom,
    convertSpanWithUrls, partStep, registerLink, sample_texts_nonempty, spanTexts]

/-- C8 (fails on the code): for the text `"xfoo.com foo.com"` the URLs found are `xfoo.com`
and `foo.com`, the first occurrence of `foo.com` lies inside `xfoo.com`, and the contents of
the parts of `splitTextWithUrls` concatenate to `"xfoo.comfoo.com foo.com"`, not to the text. -/
theorem splitTextWithUrls_duplicates_text :
    findUrls nestedUrlText = ["xfoo.com".toList, "foo.com".toList] ∧
    splitTextWithUrls nestedUrlText =
      [⟨.url, "xfoo.com".toList⟩, ⟨.url, "foo.com".toList⟩, ⟨.text, " foo.com".toList⟩] ∧
    ((splitTextWithUrls nestedUrlText).map Part.content).flatten =
      "xfoo.comfoo.com foo.com".toList ∧
    ((splitTextWithUrls nestedUrlText).map Part.content).flatten ≠ nestedUrlText := by
  decide

theorem registerLink_distinct (mds : List MarkDef) (key url : Str)
    (h : HrefsDistinct mds) : HrefsDistinct (registerLink mds key url).1 := by
  unfold registerLink
  split
  · rename_i hnone
    rw [List.find?_eq_none] at hnone
    unfold HrefsDistinct linkDefs at *
    rw [List.filter_append, List.pairwise_append]
    refine ⟨h, by simp [List.filter_cons], ?_⟩
    intro a ha b hb
    rw [List.mem_filter] at ha
    simp [List.filter_cons] at hb
    subst hb
    intro heq
    exact hnone a ha.1 (by rw [Bool.and_eq_true]; exact ⟨ha.2, by simp [heq]⟩)
  · exact h

theorem partStep_distinct (rnd : Nat → Str) (span : Span) (acc : List Span × Ctx) (part : Part)
    (h : HrefsDistinct (acc.2.block.markDefs.getD [])) :
    HrefsDistinct ((partStep rnd span acc part).2.block.markDefs.getD []) := by
  unfold partStep
  cases part.type with
  | url => simp only [Option.getD_some]; exact registerLink_distinct _ _ _ h
  | text => exact h

theorem foldl_partStep_distinct (rnd : Nat → Str) (span : Span) (parts : List Part) :
    ∀ (acc : List Span × Ctx), HrefsDistinct (acc.2.block.markDefs.getD []) →
    HrefsDistinct ((parts.foldl (partStep rnd span) acc).2.block.markDefs.getD []) := by
  induction parts with
  | nil => intro acc h; exact h
  | cons p ps ih => intro acc h; exact ih _ (partStep_distinct rnd span acc p h)

theorem convertSpanWithUrls_distinct (rnd : Nat → Str) (span : Span) (ctx : Ctx)
    (h : HrefsDistinct (ctx.block.markDefs.getD [])) :
    HrefsDistinct ((convertSpanWithUrls rnd span ctx).2.block.markDefs.getD []) := by
  unfold convertSpanWithUrls
  simp only []
  split
  · exact h
  · exact foldl_partStep_distinct rnd span _ _ h

theorem childStep_distinct (rnd : Nat → Str) (st : BlockLoop) (child : Span)
    (h : HrefsDistinct (st.ctx.block.markDefs.getD [])) :
    HrefsDistinct ((childStep rnd st child).ctx.block.markDefs.getD []) := by
  unfold childStep
  split
  · simp only []
    split
    · exact convertSpanWithUrls_distinct rnd child st.ctx h
    · exact h
  · exact h

theorem foldl_childStep_distinct (rnd : Nat → Str) (children : List Span) :
    ∀ (st : BlockLoop), HrefsDistinct (st.ctx.block.markDefs.getD []) →
    HrefsDistinct ((children.foldl (childStep rnd) st).ctx.block.markDefs.getD []) := by
  induction children with
  | nil => intro st h; exact h
  | cons c cs ih => intro st h; exact ih _ (childStep_distinct rnd st c h)

theorem processBlock_distinct (rnd : Nat → Str) (drawn : Nat) (block : Block)
    (h : HrefsDistinct (block.markDefs.getD [])) :
    HrefsDistinct ((processBlock rnd drawn block).block.markDefs.getD []) := by
  unfold processBlock
  split
  · exact h
  · split
    · exact h
    · simp only []
      split
      · exact foldl_childStep_distinct rnd _ _ h
      · exact foldl_childStep_distinct rnd _ _ h

/-- C9: when no two link definitions of a block have the same `href`, the same holds for the
block returned by `processBlock`; and a block with empty markDefs whose two spans both
mention `example.com` ends with exactly one link definition, with `href`
`https://example.com`, whose key both URL sub-spans carry. -/
theorem processBlock_keeps_hrefs_distinct :
    (∀ (rnd : Nat → Str) (drawn : Nat) (block : Block),
      HrefsDistinct (block.markDefs.getD []) →
      HrefsDistinct ((processBlock rnd drawn block).block.markDefs.getD [])) ∧
    (∀ (rnd : Nat → Str) (drawn : Nat),
      (processBlock rnd drawn (plainBlock [seeExampleCom, visitExampleComNow])).block.markDefs =
        some [⟨some ("link-".toList ++ rnd (drawn + 1)), "link".toList, some httpsExampleCom⟩] ∧
      childViews (processBlock rnd drawn
          (plainBlock [seeExampleCom, visitExampleComNow])).block =
        [(some "see ".toList, some []),
         (some exampleCom, some [some ("link-".toList ++ rnd (drawn + 1))]),
         (some "visit ".toList, some []),
         (some exampleCom, some [some ("link-".toList ++ rnd (drawn + 1))]),
         (some " now".toList, some [])]) := by
  refine ⟨processBlock_distinct, ?_⟩
  intro rnd drawn
  simp [processBlock, plainBlock, childStep, hasLinkMark, findUrls_see, findUrls_visit,
    split_see, split_visit, normalize_exampleCom, convertSpanWithUrls, partStep, registerLink,
    sample_texts_nonempty, childViews]

/-- Witness of C9 on the block whose registry already holds the sample link. -/
theorem processBlock_keeps_hrefs_distinct_witness :
    HrefsDistinct (keyedBlock.markDefs.getD []) ∧
    HrefsDistinct ((processBlock sampleRnd 0 keyedBlock).block.markDefs.getD []) :=
  ⟨by simp [HrefsDistinct, linkDefs, keyedBlock],
   processBlock_keeps_hrefs_distinct.1 sampleRnd 0 keyedBlock
     (by simp [HrefsDistinct, linkDefs, keyedBlock])⟩

theorem resolves_mono {m1 m2 : List MarkDef} (h : ∀ md ∈ m1, md ∈ m2) {sub : Span}
    (r : Resolves m1 sub) : Resolves m2 sub := by
  obtain ⟨md, hmd, rest⟩ := r
  exact ⟨md, h md hmd, rest⟩

theorem partOk_mono {m1 m2 : List MarkDef} (h : ∀ md ∈ m1, md ∈ m2) {part : Part} {sub : Span}
    (r : PartOk m1 part sub) : PartOk m2 part sub :=
  ⟨r.1, fun hu => resolves_mono h (r.2 hu)⟩

theorem childOk_mono {m1 m2 : List MarkDef} (h : ∀ md ∈ m1, md ∈ m2) {child : Span}
    {piece : List Span} (r : ChildOk m1 child piece) : ChildOk m2 child piece := by
  unfold ChildOk at *
  split
  · rename_i hc
    rw [if_pos hc] at r
    exact r.imp (fun _ _ hp => partOk_mono h hp)
  · rename_i hc
    rw [if_neg hc] at r
    exact r

theorem registerLink_spec (mds : List MarkDef) (key url : Str) (hk : AllKeyed mds) :
    AllKeyed (registerLink mds key url).1 ∧ (∀ md ∈ mds, md ∈ (registerLink mds key url).1) ∧
    ∃ md ∈ (registerLink mds key url).1, ∃ k, md._type = "link".toList ∧ md.href = some url ∧
      md._key = some k ∧ (registerLink mds key url).2 = some k := by
  unfold registerLink
  split
  · refine ⟨?_, ?_, ?_⟩
    · intro md hmd
      simp only [List.mem_append, List.mem_singleton] at hmd
      rcases hmd with hmd | hmd
      · exact hk md hmd
      · subst hmd; rfl
    · intro md hmd; simp [hmd]
    · exact ⟨⟨some key, "link".toList, some url⟩, by simp, key, rfl, rfl, rfl, rfl⟩
  · rename_i existing hfind
    have hmem := List.mem_of_find?_eq_some hfind
    have hp := List.find?_some hfind
    rw [Bool.and_eq_true] at hp
    refine ⟨hk, fun _ h => h, existing, hmem, ?_⟩
    have hkey := hk existing hmem
    rw [Option.isSome_iff_exists] at hkey
    obtain ⟨k, hk2⟩ := hkey
    exact ⟨k, by simpa using hp.1, by simpa using hp.2, hk2, hk2⟩

theorem partStep_spec (rnd : Nat → Str) (span : Span) (acc : List Span × Ctx) (part : Part)
    (hk : AllKeyed (acc.2.block.markDefs.getD [])) :
    AllKeyed ((partStep rnd span acc part).2.block.markDefs.getD []) ∧
    (∀ md ∈ acc.2.block.markDefs.getD [], md ∈ (partStep rnd span acc part).2.block.markDefs.getD []) ∧
    ∃ sub, (partStep rnd span acc part).1 = acc.1 ++ [sub] ∧
      PartOk ((partStep rnd span acc part).2.block.markDefs.getD []) part sub := by
  unfold partStep
  cases hty : part.type with
  | url =>
    simp only [Option.getD_some]
    obtain ⟨h1, h2, md, hmd, k, h3, h4, h5, h6⟩ :=
      registerLink_spec (acc.2.block.markDefs.getD []) ("link-".toList ++ rnd acc.2.drawn)
        (normalizeUrl part.content) hk
    refine ⟨h1, h2, _, rfl, rfl, fun _ => ⟨md, hmd, k, part.content, span.marks.getD [], h3, rfl, h4, h5, ?_⟩⟩
    simp only [h6]
  | text =>
    simp only []
    exact ⟨hk, fun _ h => h, _, rfl, rfl, fun h => by rw [hty] at h; cases h⟩

theorem foldl_partStep_spec (rnd : Nat → Str) (span : Span) (parts : List Part) :
    ∀ (acc : List Span × Ctx), AllKeyed (acc.2.block.markDefs.getD []) →
    AllKeyed ((parts.foldl (partStep rnd span) acc).2.block.markDefs.getD []) ∧
    (∀ md ∈ acc.2.block.markDefs.getD [],
      md ∈ (parts.foldl (partStep rnd span) acc).2.block.markDefs.getD []) ∧
    ∃ subs, (parts.foldl (partStep rnd span) acc).1 = acc.1 ++ subs ∧
      List.Forall₂ (PartOk ((parts.foldl (partStep rnd span) acc).2.block.markDefs.getD []))
        parts subs := by
  induction parts with
  | nil => intro acc hk; exact ⟨hk, fun _ h => h, [], by simp, List.Forall₂.nil⟩
  | cons p ps ih =>
    intro acc hk
    obtain ⟨h1, h2, sub, h3, h4⟩ := partStep_spec rnd span acc p hk
    obtain ⟨g1, g2, subs, g3, g4⟩ := ih (partStep rnd span acc p) h1
    rw [List.foldl_cons]
    refine ⟨g1, fun md hmd => g2 md (h2 md hmd), sub :: subs, ?_, ?_⟩
    · rw [g3, h3]; simp
    · exact List.Forall₂.cons (partOk_mono g2 h4) g4

theorem splitStep_mem (st : SplitState) (p : Str × Int) :
    (∀ q ∈ st.parts, q ∈ (splitStep st p).parts) ∧ (⟨.url, p.1⟩ : Part) ∈ (splitStep st p).parts := by
  unfold splitStep
  simp only []
  refine ⟨fun q hq => ?_, by simp⟩
  split
  · split
    · simp [hq]
    · simp [hq]
  · simp [hq]

theorem foldl_splitStep_mem (l : List (Str × Int)) :
    ∀ (st : SplitState), ∀ q ∈ st.parts, q ∈ (l.foldl splitStep st).parts := by
  induction l with
  | nil => intro st q hq; exact hq
  | cons p ps ih => intro st q hq; exact ih _ q ((splitStep_mem st p).1 q hq)

theorem splitTextWithUrls_has_url (text : Str) (h : 0 < (findUrls text).length) :
    ∃ p ∈ splitTextWithUrls text, p.type = .url := by
  unfold splitTextWithUrls
  simp only []
  rw [if_neg (by omega)]
  have hlen : (urlPositions text (findUrls text)).length = (findUrls text).length := by
    simp [urlPositions]
  cases hl : urlPositions text (findUrls text) with
  | nil => rw [hl] at hlen; simp at hlen; omega
  | cons p ps =>
    rw [List.foldl_cons]
    have hmem := foldl_splitStep_mem ps _ _ (splitStep_mem ⟨[], text, 0⟩ p).2
    refine ⟨⟨.url, p.1⟩, ?_, rfl⟩
    split
    · simp [hmem]
    · exact hmem

theorem convertSpanWithUrls_eq (rnd : Nat → Str) (span : Span) (ctx : Ctx)
    (h : 0 < (findUrls (span.text.getD [])).length) :
    convertSpanWithUrls rnd span ctx =
      (splitTextWithUrls (span.text.getD [])).foldl (partStep rnd span) ([], ctx) := by
  unfold convertSpanWithUrls
  simp only []
  split
  · rename_i content heq
    obtain ⟨p, hp, hty⟩ := splitTextWithUrls_has_url _ h
    rw [heq] at hp
    simp at hp
    rw [hp] at hty
    cases hty
  · rfl

theorem childStep_spec (rnd : Nat → Str) (st : BlockLoop) (child : Span)
    (hk : AllKeyed (st.ctx.block.markDefs.getD [])) :
    AllKeyed ((childStep rnd st child).ctx.block.markDefs.getD []) ∧
    (∀ md ∈ st.ctx.block.markDefs.getD [], md ∈ (childStep rnd st child).ctx.block.markDefs.getD []) ∧
    (∃ piece, (childStep rnd st child).newChildren = st.newChildren ++ piece ∧
      ChildOk ((childStep rnd st child).ctx.block.markDefs.getD []) child piece ∧
      ((childStep rnd st child).modified = false → piece = [child])) ∧
    ((childStep rnd st child).modified = false →
      st.modified = false ∧ (childStep rnd st child).ctx = st.ctx) := by
  unfold childStep
  split
  · rename_i hguard
    simp only []
    split
    · rename_i hurls
      have hconv : Converts child = true := by
        unfold Converts
        rw [hguard]
        simp [hurls]
      rw [convertSpanWithUrls_eq rnd child st.ctx hurls]
      obtain ⟨h1, h2, subs, h3, h4⟩ :=
        foldl_partStep_spec rnd child (splitTextWithUrls (child.text.getD [])) ([], st.ctx) hk
      refine ⟨h1, h2, ⟨subs, ?_, ?_, by simp⟩, by simp⟩
      · rw [h3]; simp
      · unfold ChildOk
        rw [if_pos hconv]
        exact h4
    · rename_i hurls
      refine ⟨hk, fun _ h => h, ⟨[child], rfl, ?_, fun _ => rfl⟩, fun h => ⟨h, rfl⟩⟩
      unfold ChildOk
      rw [if_neg]
      unfold Converts
      simp [hurls]
  · rename_i hguard
    refine ⟨hk, fun _ h => h, ⟨[child], rfl, ?_, fun _ => rfl⟩, fun h => ⟨h, rfl⟩⟩
    unfold ChildOk
    rw [if_neg]
    unfold Converts
    intro hc
    apply hguard
    simp only [Bool.and_eq_true] at hc ⊢
    exact hc.1

theorem foldl_childStep_spec (rnd : Nat → Str) (children : List Span) :
    ∀ (st : BlockLoop), AllKeyed (st.ctx.block.markDefs.getD []) →
    AllKeyed ((children.foldl (childStep rnd) st).ctx.block.markDefs.getD []) ∧
    (∀ md ∈ st.ctx.block.markDefs.getD [],
      md ∈ (children.foldl (childStep rnd) st).ctx.block.markDefs.getD []) ∧
    (∃ pieces, (children.foldl (childStep rnd) st).newChildren = st.newChildren ++ pieces.flatten ∧
      List.Forall₂ (ChildOk ((children.foldl (childStep rnd) st).ctx.block.markDefs.getD []))
        children pieces ∧
      ((children.foldl (childStep rnd) st).modified = false → pieces.flatten = children)) ∧
    ((children.foldl (childStep rnd) st).modified = false →
      st.modified = false ∧ (children.foldl (childStep rnd) st).ctx = st.ctx) := by
  induction children with
  | nil =>
    intro st hk
    exact ⟨hk, fun _ h => h, ⟨[], by simp, List.Forall₂.nil, fun _ => rfl⟩, fun h => ⟨h, rfl⟩⟩
  | cons c cs ih =>
    intro st hk
    obtain ⟨h1, h2, ⟨piece, h3, h4, h5⟩, h6⟩ := childStep_spec rnd st c hk
    obtain ⟨g1, g2, ⟨pieces, g3, g4, g5⟩, g6⟩ := ih (childStep rnd st c) h1
    rw [List.foldl_cons]
    refine ⟨g1, fun md hmd => g2 md (h2 md hmd), ⟨piece :: pieces, ?_, ?_, ?_⟩, ?_⟩
    · rw [g3, h3]; simp
    · exact List.Forall₂.cons (childOk_mono g2 h4) g4
    · intro hm
      have := g6 hm
      rw [List.flatten_cons, g5 hm, h5 this.1]
      rfl
    · intro hm
      have a := g6 hm
      have b := h6 a.1
      exact ⟨b.1, by rw [a.2, b.2]⟩

theorem processBlock_pieces (rnd : Nat → Str) (drawn : Nat) (block : Block)
    (children : List Span) (hchildren : block.children = some children)
    (htype : block._type = "block".toList) (hkeys : AllKeyed (block.markDefs.getD [])) :
    ∃ pieces : List (List Span),
      (processBlock rnd drawn block).block.children = some pieces.flatten ∧
      List.Forall₂ (ChildOk ((processBlock rnd drawn block).block.markDefs.getD []))
        children pieces := by
  obtain ⟨-, -, ⟨pieces, g3, g4, g5⟩, g6⟩ :=
    foldl_childStep_spec rnd children ⟨[], false, ⟨block, drawn⟩⟩ hkeys
  refine ⟨pieces, ?_⟩
  unfold processBlock
  rw [hchildren]
  simp only [htype, bne_self_eq_false, Bool.false_eq_true, if_false]
  split
  · refine ⟨?_, g4⟩
    simp only [g3, List.nil_append]
  · rename_i hm
    simp only [Bool.not_eq_true] at hm
    rw [(g6 hm).2] at g4 ⊢
    exact ⟨by simp only [hchildren, g5 hm], g4⟩

theorem processBlock_untouched (rnd : Nat → Str) (drawn : Nat) (block : Block)
    (h : block.children = none ∨ block._type ≠ "block".toList) :
    (processBlock rnd drawn block).block = block := by
  unfold processBlock
  split
  · rfl
  · rcases h with h | h
    · rename_i hc; rw [h] at hc; cases hc
    · rw [if_pos (by simpa using h)]

/-- C10: for every block whose markDefs all have a `_key`: a block that is not of type
`block` or has no children is returned as it is; otherwise the children returned by
`processBlock` are, child by child, the child itself or the sub-spans of the parts of its
text, and every sub-span made from a URL part carries as its last mark the `_key` of a link
definition of the returned markDefs whose `href` is `normalizeUrl` of the sub-span text. -/
theorem processBlock_url_spans_resolve (rnd : Nat → Str) (drawn : Nat) (block : Block)
    (hkeys : AllKeyed (block.markDefs.getD [])) :
    (block.children = none ∨ block._type ≠ "block".toList →
      (processBlock rnd drawn block).block = block) ∧
    (∀ children, block.children = some children → block._type = "block".toList →
      ∃ pieces : List (List Span),
        (processBlock rnd drawn block).block.children = some pieces.flatten ∧
        List.Forall₂ (ChildOk ((processBlock rnd drawn block).block.markDefs.getD []))
          children pieces) :=
  ⟨processBlock_untouched rnd drawn block,
   fun children hc ht => processBlock_pieces rnd drawn block children hc ht hkeys⟩

/-- Witness of C10 on the block whose registry already holds the sample link: its child is
converted, and the sub-span of the URL part resolves in the returned markDefs. -/
theorem processBlock_url_spans_resolve_witness :
    AllKeyed (keyedBlock.markDefs.getD []) ∧
    Converts ⟨"span".toList, "s".toList, some seeExampleCom, some []⟩ = true ∧
    ∃ pieces : List (List Span),
      (processBlock sampleRnd 0 keyedBlock).block.children = some pieces.flatten ∧
      List.Forall₂ (ChildOk ((processBlock sampleRnd 0 keyedBlock).block.markDefs.getD []))
        [⟨"span".toList, "s".toList, some seeExampleCom, some []⟩] pieces :=
  ⟨by simp [AllKeyed, keyedBlock], by decide,
   (processBlock_url_spans_resolve sampleRnd 0 keyedBlock
     (by simp [AllKeyed, keyedBlock])).2 _ rfl rfl⟩

theorem findUrls_chart : findUrls chartText = [] := by decide
theorem chart_nonempty : chartText.isEmpty = false := by decide

/-- C14: `findUrls` finds nothing in "see e.g. the chart...", `splitTextWithUrls` returns
the text as one plain-text part, the loop body of `processBlock` pushes a span with that
text unchanged, and `processBlock` returns the block of that span unchanged with
`modified = false`, for every random source. -/
theorem findUrls_chart_text_none :
    findUrls chartText = [] ∧ splitTextWithUrls chartText = [⟨.text, chartText⟩] ∧
    (∀ (rnd : Nat → Str) (st : BlockLoop) (span : Span), span.text = some chartText →
      childStep rnd st span = { st with newChildren := st.newChildren ++ [span] }) ∧
    (∀ (rnd : Nat → Str) (drawn : Nat),
      processBlock rnd drawn (plainBlock [chartText]) = ⟨plainBlock [chartText], false, drawn⟩) := by
  refine ⟨by decide, by decide, ?_, ?_⟩
  · intro rnd st span h
    unfold childStep
    simp [h, findUrls_chart]
  · intro rnd drawn
    simp [processBlock, plainBlock, childStep, findUrls_chart, chart_nonempty, hasLinkMark]

theorem findUrls_exampleCom : findUrls exampleCom = [exampleCom] := by decide
theorem split_exampleCom : splitTextWithUrls exampleCom = [⟨.url, exampleCom⟩] := by decide

/-- C11: a span that references a link definition of its block through a key that does
not start with `link-` is not left unchanged: `hasLinkMark` is false for it, and
`processBlock` on `linkedSpanBlock` (span text `example.com`, marks `["abc123"]`, markDefs
with the link `abc123`) reports `modified = true` and replaces the span by a new one whose
marks are `["abc123", "abc123"]`, for every random source. -/
theorem processBlock_rewrites_linked_span (rnd : Nat → Str) (drawn : Nat) :
    hasLinkMark ⟨"span".toList, "s".toList, some exampleCom, some [some "abc123".toList]⟩ = false ∧
    (processBlock rnd drawn linkedSpanBlock).modified = true ∧
    (processBlock rnd drawn linkedSpanBlock).block.children =
      some [⟨"span".toList, "span-".toList ++ rnd (drawn + 1), some exampleCom,
        some [some "abc123".toList, some "abc123".toList]⟩] := by
  refine ⟨by decide, ?_, ?_⟩ <;>
  simp [processBlock, linkedSpanBlock, childStep, hasLinkMark, findUrls_exampleCom,
    split_exampleCom, normalize_exampleCom, convertSpanWithUrls, partStep, registerLink,
    sample_texts_nonempty, List.isPrefixOf]

theorem childStep_noUrls (rnd : Nat → Str) (st : BlockLoop) (child : Span)
    (h : findUrls (child.text.getD []) = []) :
    childStep rnd st child = { st with newChildren := st.newChildren ++ [child] } := by
  unfold childStep
  simp [h]

theorem foldl_childStep_noUrls (rnd : Nat → Str) (children : List Span)
    (h : ∀ child ∈ children, findUrls (child.text.getD []) = []) :
    ∀ (st : BlockLoop), children.foldl (childStep rnd) st =
      { st with newChildren := st.newChildren ++ children } := by
  induction children with
  | nil => intro st; simp
  | cons c cs ih =>
    intro st
    rw [List.foldl_cons, childStep_noUrls rnd st c (h c (by simp)),
      ih (fun child hc => h child (by simp [hc]))]
    simp

theorem processBlock_noUrls (rnd : Nat → Str) (drawn : Nat) (block : Block)
    (h : ∀ child ∈ block.children.getD [], findUrls (child.text.getD []) = []) :
    processBlock rnd drawn block = ⟨block, false, drawn⟩ := by
  unfold processBlock
  split
  · rfl
  · rename_i children hc
    rw [hc] at h
    split
    · rfl
    · simp only [foldl_childStep_noUrls rnd children h]
      simp

theorem processPostBody_noUrls_aux (rnd : Nat → Str) (body : List Block) (h : NoUrls body) :
    ∀ (acc : BodyResult), body.foldl (fun acc block =>
      let result := processBlock rnd acc.drawn block
      (⟨acc.body ++ [result.block], acc.modified || result.modified, result.drawn⟩ : BodyResult))
      acc = ⟨acc.body ++ body, acc.modified, acc.drawn⟩ := by
  induction body with
  | nil => intro acc; simp
  | cons b bs ih =>
    intro acc
    rw [List.foldl_cons]
    simp only [processBlock_noUrls rnd acc.drawn b (h b (by simp))]
    rw [ih (fun block hb => h block (by simp [hb]))]
    simp

/-- C12: when `findUrls` finds no URL in the text of any span of the body,
`processPostBody` returns the input body itself (same blocks, same order, children and
markDefs untouched) with `modified = false`, and draws no random key. -/
theorem processPostBody_noUrls (rnd : Nat → Str) (drawn : Nat) (body : List Block) (h : NoUrls body) :
    processPostBody rnd drawn body = ⟨body, false, drawn⟩ := by
  unfold processPostBody
  rw [processPostBody_noUrls_aux rnd body h]
  simp

theorem registerLink_mark (mds : List MarkDef) (key url : Str) :
    (∀ md ∈ mds, md ∈ (registerLink mds key url).1) ∧
    ∃ md ∈ (registerLink mds key url).1, md._type = "link".toList ∧ md.href = some url ∧
      (registerLink mds key url).2 = md._key := by
  unfold registerLink
  split
  · exact ⟨fun md hmd => by simp [hmd],
      ⟨some key, "link".toList, some url⟩, by simp, rfl, rfl, rfl⟩
  · rename_i existing hfind
    have hmem := List.mem_of_find?_eq_some hfind
    have hp := List.find?_some hfind
    rw [Bool.and_eq_true] at hp
    exact ⟨fun _ h => h, existing, hmem, by simpa using hp.1, by simpa using hp.2, rfl⟩

theorem keepsMarks_mono {m1 m2 : List MarkDef} (h : ∀ md ∈ m1, md ∈ m2) {m : List Mark}
    {part : Part} {sub : Span} (r : KeepsMarks m1 m part sub) : KeepsMarks m2 m part sub := by
  unfold KeepsMarks at *
  cases hty : part.type with
  | text => rw [hty] at r; exact r
  | url =>
    rw [hty] at r
    obtain ⟨md, hmd, rest⟩ := r
    exact ⟨md, h md hmd, rest⟩

theorem partStep_marks (rnd : Nat → Str) (span : Span) (acc : List Span × Ctx) (part : Part) :
    (∀ md ∈ acc.2.block.markDefs.getD [], md ∈ (partStep rnd span acc part).2.block.markDefs.getD []) ∧
    ∃ sub, (partStep rnd span acc part).1 = acc.1 ++ [sub] ∧
      KeepsMarks ((partStep rnd span acc part).2.block.markDefs.getD []) (span.marks.getD [])
        part sub := by
  unfold partStep KeepsMarks
  cases hty : part.type with
  | url =>
    simp only [Option.getD_some]
    obtain ⟨h2, md, hmd, h3, h4, h6⟩ :=
      registerLink_mark (acc.2.block.markDefs.getD []) ("link-".toList ++ rnd acc.2.drawn)
        (normalizeUrl part.content)
    exact ⟨h2, _, rfl, md, hmd, h3, h4, by simp only [h6]⟩
  | text =>
    simp only []
    exact ⟨fun _ h => h, _, rfl, rfl⟩

theorem foldl_partStep_marks (rnd : Nat → Str) (span : Span) (parts : List Part) :
    ∀ (acc : List Span × Ctx),
    (∀ md ∈ acc.2.block.markDefs.getD [],
      md ∈ (parts.foldl (partStep rnd span) acc).2.block.markDefs.getD []) ∧
    ∃ subs, (parts.foldl (partStep rnd span) acc).1 = acc.1 ++ subs ∧
      List.Forall₂ (KeepsMarks ((parts.foldl (partStep rnd span) acc).2.block.markDefs.getD [])
        (span.marks.getD [])) parts subs := by
  induction parts with
  | nil => intro acc; exact ⟨fun _ h => h, [], by simp, List.Forall₂.nil⟩
  | cons p ps ih =>
    intro acc
    obtain ⟨h2, sub, h3, h4⟩ := partStep_marks rnd span acc p
    obtain ⟨g2, subs, g3, g4⟩ := ih (partStep rnd span acc p)
    rw [List.foldl_cons]
    refine ⟨fun md hmd => g2 md (h2 md hmd), sub :: subs, ?_, ?_⟩
    · rw [g3, h3]; simp
    · exact List.Forall₂.cons (keepsMarks_mono g2 h4) g4

/-- C13: for a span with marks `m` whose text yields at least one URL, the sub-spans
returned by `convertSpanWithUrls` correspond one to one to the parts of
`splitTextWithUrls`; the sub-span of a plain-text part has marks exactly `m`, the sub-span
of a URL part has marks `m` followed by the `_key` of a link definition of the returned
markDefs whose href is the normalized URL. -/
theorem convertSpanWithUrls_keeps_marks (rnd : Nat → Str) (span : Span) (ctx : Ctx)
    (h : 0 < (findUrls (span.text.getD [])).length) :
    List.Forall₂
      (KeepsMarks ((convertSpanWithUrls rnd span ctx).2.block.markDefs.getD [])
        (span.marks.getD []))
      (splitTextWithUrls (span.text.getD [])) (convertSpanWithUrls rnd span ctx).1 := by
  rw [convertSpanWithUrls_eq rnd span ctx h]
  obtain ⟨-, subs, g3, g4⟩ :=
    foldl_partStep_marks rnd span (splitTextWithUrls (span.text.getD [])) ([], ctx)
  rw [g3]
  simpa using g4

theorem isValidUrl_false_of (t : Str)
    (h : test reTwoDots t = true ∨ test reDotEdge t = true ∨ test reLettersDot t = false ∨
      ∃ p ∈ falsePositives, test p t = true) : isValidUrl t = false := by
  unfold isValidUrl
  split
  · rfl
  · split
    · rfl
    · split
      · rfl
      · rename_i h3
        split
        · rfl
        · rename_i h4
          split
          · rfl
          · rename_i h5
            split
            · rfl
            · rename_i h6
              exfalso
              rcases h with h | h | h | ⟨p, hp, h⟩
              · exact h3 h
              · exact h4 h
              · apply h5; unfold reLettersDot at h; rw [h]; rfl
              · apply h6
                rw [List.any_eq_true]
                exact ⟨p, hp, h⟩

theorem startsWithI_cons4 (c1 c2 c3 c4 : Char) (t : Str)
    (h : startsWithI [c1, c2, c3, c4] t = true) :
    ∃ x1 x2 x3 x4 rest, t = x1 :: x2 :: x3 :: x4 :: rest ∧ sameLetter x1 c1 = true ∧
      sameLetter x2 c2 = true ∧ sameLetter x3 c3 = true ∧ sameLetter x4 c4 = true := by
  rcases t with _ | ⟨x1, _ | ⟨x2, _ | ⟨x3, _ | ⟨x4, rest⟩⟩⟩⟩ <;>
    simp [startsWithI] at h
  exact ⟨x1, x2, x3, x4, rest, rfl, h.1, h.2.1, h.2.2.1, h.2.2.2⟩

theorem startsWithI_cons3 (c1 c2 c3 : Char) (t : Str)
    (h : startsWithI [c1, c2, c3] t = true) :
    ∃ x1 x2 x3 rest, t = x1 :: x2 :: x3 :: rest ∧ sameLetter x1 c1 = true ∧
      sameLetter x2 c2 = true ∧ sameLetter x3 c3 = true := by
  rcases t with _ | ⟨x1, _ | ⟨x2, _ | ⟨x3, rest⟩⟩⟩ <;>
    simp [startsWithI] at h
  exact ⟨x1, x2, x3, rest, rfl, h.1, h.2.1, h.2.2⟩

theorem sameLetter_dot (x : Char) (h : sameLetter x '.' = true) : x = '.' := by
  have e1 : Char.toLower '.' = '.' := by decide
  have e2 : Char.toUpper '.' = '.' := by decide
  simpa [sameLetter, e1, e2] using h

theorem matchRe_chrI (c : Char) (k : Cont) (pre rest : Str) (x : Char) (caps : List (Nat × Str))
    (h : sameLetter x c = true) :
    matchRe (chrI c) k ⟨pre, x :: rest, caps⟩ = k ⟨x :: pre, rest, caps⟩ := by
  unfold chrI
  rw [matchRe_cls_cons]
  unfold sameLetter at h
  rw [if_pos h]

theorem test_abbrev (t : Str) :
    (startsWithI "etc.".toList t = true →
      test (seqs [.bol, litI "etc", chr '.']) t = true) ∧
    (startsWithI "e.g.".toList t = true →
      test (seqs [.bol, chrI 'e', chr '.', chrI 'g', chr '.']) t = true) ∧
    (startsWithI "i.e.".toList t = true →
      test (seqs [.bol, chrI 'i', chr '.', chrI 'e', chr '.']) t = true) ∧
    (startsWithI "vs.".toList t = true →
      test (seqs [.bol, litI "vs", chr '.']) t = true) := by
  refine ⟨?_, ?_, ?_, ?_⟩
  · intro h
    obtain ⟨x1, x2, x3, x4, rest, rfl, h1, h2, h3, h4⟩ := startsWithI_cons4 _ _ _ _ t h
    have h4 := sameLetter_dot x4 h4
    subst h4
    apply test_of_execAt _ []
    simp [seqs, litI, matchRe_chrI, h1, h2, h3, chr]
  · intro h
    obtain ⟨x1, x2, x3, x4, rest, rfl, h1, h2, h3, h4⟩ := startsWithI_cons4 _ _ _ _ t h
    have h4 := sameLetter_dot x4 h4
    have h2 := sameLetter_dot x2 h2
    subst h4; subst h2
    apply test_of_execAt _ []
    simp [seqs, matchRe_chrI, h1, h3, chr]
  · intro h
    obtain ⟨x1, x2, x3, x4, rest, rfl, h1, h2, h3, h4⟩ := startsWithI_cons4 _ _ _ _ t h
    have h4 := sameLetter_dot x4 h4
    have h2 := sameLetter_dot x2 h2
    subst h4; subst h2
    apply test_of_execAt _ []
    simp [seqs, matchRe_chrI, h1, h3, chr]
  · intro h
    obtain ⟨x1, x2, x3, rest, rfl, h1, h2, h3⟩ := startsWithI_cons3 _ _ _ t h
    have h3 := sameLetter_dot x3 h3
    subst h3
    apply test_of_execAt _ []
    simp [seqs, litI, matchRe_chrI, h1, h2, chr]

theorem test_decimal (ds rest : Str) (d : Char) (hne : ds ≠ [])
    (hds : ∀ c ∈ ds, isDigit c = true) (hd : isDigit d = true) :
    test (seqs [.bol, many1 (.cls isDigit), chr '.', many1 (.cls isDigit)])
      (ds ++ '.' :: d :: rest) = true := by
  have hlen : 1 ≤ ds.length := by
    cases ds with
    | nil => exact absurd rfl hne
    | cons c cs => simp
  have hk : (matchRe (.seq (chr '.') (.rep 1 none true (.cls isDigit))) some
      ⟨ds.reverse ++ [], '.' :: d :: rest, []⟩).isSome = true := by
    simp only [chr, matchRe_seq, matchRe_cls_cons, beq_self_eq_true, if_true]
    exact matchRe_greedy_some isDigit 1 _ [d] rest [] (by simp)
      (by intro c hc; simp at hc; rw [hc]; exact hd)
  have hrun := matchRe_greedy_run isDigit
    (matchRe (.seq (chr '.') (.rep 1 none true (.cls isDigit))) some) 1 [] ds
    ('.' :: d :: rest) [] (by intro c hc; simp at hc; rw [← hc]; decide) hlen hds hk
  have key : (matchRe (seqs [.bol, many1 (.cls isDigit), chr '.', many1 (.cls isDigit)]) some
      ⟨([] : Str).reverse, ds ++ '.' :: d :: rest, []⟩).isSome = true := by
    simp only [seqs, many1, matchRe_seq, matchRe_bol, List.reverse_nil, List.isEmpty_nil,
      if_true]
    rw [hrun]
    exact hk
  exact test_of_execAt _ [] _ key

theorem test_twoDots (a b : Str) : test reTwoDots (a ++ '.' :: '.' :: b) = true := by
  apply test_of_execAt
  exact matchRe_greedy_some (fun x => x == '.') 2 _ ['.', '.'] b [] (by simp)
    (by intro c hc; simp at hc; simp [hc])

theorem test_dotEdge (rest : Str) : test reDotEdge ('.' :: rest) = true := by
  apply test_of_execAt _ []
  simp [reDotEdge, seqs, chr]

theorem test_endDot (a : Str) : test (seqs [many1 (chr '.'), .eol]) (a ++ ['.']) = true := by
  apply test_of_execAt
  simp only [seqs, many1, matchRe_seq, chr]
  have := matchRe_greedy_run (fun x => x == '.') (matchRe .eol some) 1 a.reverse ['.'] [] []
    (by simp) (by simp) (by intro c hc; simp at hc; simp [hc]) (by simp)
  rw [List.append_nil] at this
  rw [this]
  simp

theorem test_lettersDot_sound (t : Str) (h : test reLettersDot t = true) :
    ∃ a c d b, isLetter c = true ∧ isLetter d = true ∧ t = a ++ c :: d :: '.' :: b := by
  unfold test at h
  obtain ⟨a, r, hs, hm⟩ := searchFrom_sound _ _ _ h
  rw [execAt_isSome] at hm
  obtain ⟨res, hres⟩ := Option.isSome_iff_exists.mp hm
  simp only [reLettersDot, seqs, matchRe_seq] at hres
  obtain ⟨ls, r2, h1, h2, h3, h4⟩ :=
    matchRe_rep_sound isLetter true _ [] res 2 none _ r (by simp) hres
  cases r2 with
  | nil => simp [chr] at h4
  | cons x r3 =>
    have hx : x = '.' := by
      by_contra hne
      simp [chr, hne] at h4
    subst hx
    obtain ⟨ls0, c, d, hls⟩ : ∃ ls0 c d, ls = ls0 ++ [c, d] := by
      rcases hrev : ls.reverse with _ | ⟨d, _ | ⟨c, tl⟩⟩
      · have := congrArg List.length hrev
        simp only [List.length_reverse, List.length_nil] at this
        omega
      · have := congrArg List.length hrev
        simp only [List.length_reverse, List.length_cons, List.length_nil] at this
        omega
      · refine ⟨tl.reverse, c, d, ?_⟩
        have := congrArg List.reverse hrev
        simpa using this
    refine ⟨a ++ ls0, c, d, r3, h2 c (by simp [hls]), h2 d (by simp [hls]), ?_⟩
    rw [hs, h1, hls]
    simp

/-- C15: `isValidUrl t` is false for every text `t` that starts, in any case, with
`etc.`, `e.g.`, `i.e.` or `vs.`, or starts with digits, a dot and a digit, or contains
two consecutive dots, or starts with a dot, or ends with a dot, or contains no run of two
letters followed by a dot. -/
theorem isValidUrl_rejects (t : Str) (h : Rejected t) : isValidUrl t = false := by
  apply isValidUrl_false_of
  obtain ⟨e1, e2, e3, e4⟩ := test_abbrev t
  rcases h with h | h | h | h | ⟨ds, d, rest, h1, h2, h3, rfl⟩ | ⟨a, b, rfl⟩ | h | h | h
  · exact Or.inr (Or.inr (Or.inr ⟨_, by simp [falsePositives], e1 h⟩))
  · exact Or.inr (Or.inr (Or.inr ⟨_, by simp [falsePositives], e2 h⟩))
  · exact Or.inr (Or.inr (Or.inr ⟨_, by simp [falsePositives], e3 h⟩))
  · exact Or.inr (Or.inr (Or.inr ⟨_, by simp [falsePositives], e4 h⟩))
  · exact Or.inr (Or.inr (Or.inr ⟨_, by simp [falsePositives], test_decimal ds rest d h1 h2 h3⟩))
  · exact Or.inl (test_twoDots a b)
  · cases t with
    | nil => simp at h
    | cons c rest =>
      simp at h
      subst h
      exact Or.inr (Or.inl (test_dotEdge rest))
  · obtain ⟨a, rfl⟩ : ∃ a, t = a ++ ['.'] := by
      rw [List.getLast?_eq_some_iff] at h
      exact h
    exact Or.inr (Or.inr (Or.inr ⟨_, by simp [falsePositives], test_endDot a⟩))
  · right; right; left
    cases ht : test reLettersDot t with
    | false => rfl
    | true => exact absurd (test_lettersDot_sound t ht) h

theorem lit3_isSome (pre s : Str) (caps : List (Nat × Str)) :
    (matchRe (lit "://") some ⟨pre, s, caps⟩).isSome = startsWithI "://".toList s := by
  rcases s with _ | ⟨x1, _ | ⟨x2, _ | ⟨x3, rest⟩⟩⟩
  · simp [lit, seqs, chr, startsWithI, sameLetter]
  · by_cases h1 : x1 = ':' <;> simp [lit, seqs, chr, startsWithI, sameLetter, h1]
  · by_cases h1 : x1 = ':' <;> by_cases h2 : x2 = '/' <;>
      simp [lit, seqs, chr, startsWithI, sameLetter, h1, h2]
  · by_cases h1 : x1 = ':' <;> by_cases h2 : x2 = '/' <;> by_cases h3 : x3 = '/' <;>
      simp [lit, seqs, chr, startsWithI, sameLetter, h1, h2, h3]

theorem startsWithI_colon_s (x : Char) (s : Str) (hx : sameLetter x 's' = true) :
    startsWithI "://".toList (x :: s) = false := by
  have : x ≠ ':' := by
    intro h; subst h; revert hx; decide
  simp [startsWithI, sameLetter, this]

theorem optS_isSome (pre s : Str) (caps : List (Nat × Str)) :
    (matchRe (seqs [maybe (chrI 's'), lit "://"]) some ⟨pre, s, caps⟩).isSome
      = (startsWithI "://".toList s || startsWithI "s://".toList s) := by
  simp only [seqs, matchRe_seq, matchRe_eps]
  have hk : (fun s => matchRe (lit "://") (fun s => some s) s) = matchRe (lit "://") some := rfl
  rw [show maybe (chrI 's') = Re.rep 0 (some 1) true (.cls (fun y => sameLetter y 's')) from rfl]
  rcases s with _ | ⟨x, s⟩
  · rw [matchRe_optional_nil]
    simp [lit, seqs, chr, startsWithI]
  · by_cases hx : sameLetter x 's' = true
    · rw [matchRe_optional_take (fun y => sameLetter y 's') _ _ _ _ _ hx]
      have h2 : matchRe (lit "://") some ⟨pre, x :: s, caps⟩ = none := by
        have := lit3_isSome pre (x :: s) caps
        rw [startsWithI_colon_s x s hx] at this
        simpa using this
      rw [h2, startsWithI_colon_s x s hx]
      have h3 := lit3_isSome (x :: pre) s caps
      cases hm : matchRe (lit "://") some ⟨x :: pre, s, caps⟩ with
      | none =>
        rw [hm] at h3
        simp only [orElse, Bool.false_or]
        rw [show startsWithI "s://".toList (x :: s) = (sameLetter x 's' && startsWithI "://".toList s) from rfl,
          ← h3, hx]; rfl
      | some r =>
        rw [hm] at h3
        simp only [orElse, Bool.false_or]
        rw [show startsWithI "s://".toList (x :: s) = (sameLetter x 's' && startsWithI "://".toList s) from rfl,
          ← h3, hx]; rfl
    · simp only [Bool.not_eq_true] at hx
      rw [matchRe_optional_skip (fun y => sameLetter y 's') _ _ _ _ _ hx]
      rw [lit3_isSome]
      rw [show startsWithI "s://".toList (x :: s) = (sameLetter x 's' && startsWithI "://".toList s) from rfl,
        hx]
      simp


theorem test_reSchemeStart (s : Str) : test reSchemeStart s = hasScheme s := by
  rw [show reSchemeStart = .seq .bol (.seq (litI "http") (seqs [maybe (chrI 's'), lit "://"]))
    from rfl, test_bol, execAt_isSome]
  rcases s with _ | ⟨x1, _ | ⟨x2, _ | ⟨x3, _ | ⟨x4, s⟩⟩⟩⟩
  · simp [litI, seqs, chrI, hasScheme, startsWithI]
  · by_cases h1 : sameLetter x1 'h' = true <;>
      simp [sameLetter] at h1 <;>
      simp [litI, seqs, chrI, hasScheme, startsWithI, sameLetter, h1]
  · by_cases h1 : sameLetter x1 'h' = true <;> by_cases h2 : sameLetter x2 't' = true <;>
      simp [sameLetter] at h1 h2 <;>
      simp [litI, seqs, chrI, hasScheme, startsWithI, sameLetter, h1, h2]
  · by_cases h1 : sameLetter x1 'h' = true <;> by_cases h2 : sameLetter x2 't' = true <;>
      by_cases h3 : sameLetter x3 't' = true <;>
      simp [sameLetter] at h1 h2 h3 <;>
      simp [litI, seqs, chrI, hasScheme, startsWithI, sameLetter, h1, h2, h3]
  · have key : matchRe (.seq .bol (.seq (litI "http") (seqs [maybe (chrI 's'), lit "://"]))) some
        ⟨[], x1 :: x2 :: x3 :: x4 :: s, []⟩ =
        if sameLetter x1 'h' && sameLetter x2 't' && sameLetter x3 't' && sameLetter x4 'p' then
          matchRe (seqs [maybe (chrI 's'), lit "://"]) some ⟨[x4, x3, x2, x1], s, []⟩
        else none := by
      by_cases h1 : sameLetter x1 'h' = true <;> by_cases h2 : sameLetter x2 't' = true <;>
        by_cases h3 : sameLetter x3 't' = true <;> by_cases h4 : sameLetter x4 'p' = true <;>
        simp only [h1, h2, h3, h4, Bool.and_true, Bool.and_false, Bool.false_and, if_true] <;>
        simp [sameLetter] at h1 h2 h3 h4 <;>
        simp [litI, chrI, h1, h2, h3, h4, matchRe_seq, seqs]
    rw [key]
    have hs : hasScheme (x1 :: x2 :: x3 :: x4 :: s) =
        (sameLetter x1 'h' && sameLetter x2 't' && sameLetter x3 't' && sameLetter x4 'p' &&
          (startsWithI "://".toList s || startsWithI "s://".toList s)) := by
      simp only [hasScheme]
      rw [show startsWithI "http://".toList (x1 :: x2 :: x3 :: x4 :: s) =
        (sameLetter x1 'h' && (sameLetter x2 't' && (sameLetter x3 't' && (sameLetter x4 'p' &&
          startsWithI "://".toList s)))) from rfl,
        show startsWithI "https://".toList (x1 :: x2 :: x3 :: x4 :: s) =
        (sameLetter x1 'h' && (sameLetter x2 't' && (sameLetter x3 't' && (sameLetter x4 'p' &&
          startsWithI "s://".toList s)))) from rfl]
      cases sameLetter x1 'h' <;> cases sameLetter x2 't' <;> cases sameLetter x3 't' <;>
        cases sameLetter x4 'p' <;> simp
    rw [hs]
    split
    · rename_i h
      rw [optS_isSome, h]; simp
    · rename_i h
      simp only [Bool.not_eq_true] at h
      rw [h]; rfl

theorem dropWhile_snoc (p : Char → Bool) (c : Char) :
    ∀ l : Str, (l ++ [c]).dropWhile p =
      if l.all p then [c].dropWhile p else l.dropWhile p ++ [c] := by
  intro l
  induction l with
  | nil => simp
  | cons x xs ih =>
    by_cases hx : p x = true
    · have e : (x :: xs).dropWhile p = xs.dropWhile p := by simp [List.dropWhile_cons, hx]
      have e2 : ((x :: xs) ++ [c]).dropWhile p = (xs ++ [c]).dropWhile p := by
        simp [List.dropWhile_cons, hx]
      rw [e2, e, List.all_cons, hx, Bool.true_and]
      exact ih
    · simp only [Bool.not_eq_true] at hx
      simp [List.dropWhile_cons, hx]

theorem stripTrailingPunct_cons (c : Char) (cs : Str) :
    stripTrailingPunct (c :: cs) =
      if (c :: cs).all isTrailingPunct then [] else c :: stripTrailingPunct cs := by
  unfold stripTrailingPunct
  rw [List.reverse_cons, dropWhile_snoc]
  by_cases hcs : cs.all isTrailingPunct = true
  · have h1 : cs.reverse.all isTrailingPunct = true := by
      rw [List.all_eq_true] at hcs ⊢
      intro x hx; exact hcs x (List.mem_reverse.mp hx)
    have h2 : cs.reverse.dropWhile isTrailingPunct = [] := by
      rw [List.dropWhile_eq_nil_iff]
      intro x hx
      rw [List.all_eq_true] at h1
      exact h1 x hx
    by_cases hc : isTrailingPunct c = true
    · simp [h1, hcs, hc]
    · simp only [Bool.not_eq_true] at hc
      simp [h1, hcs, hc, h2]
  · have h1 : ¬ cs.reverse.all isTrailingPunct = true := by
      intro h; apply hcs
      rw [List.all_eq_true] at h ⊢
      intro x hx; exact h x (List.mem_reverse.mpr hx)
    simp only [Bool.not_eq_true] at hcs h1
    simp [h1, hcs]

theorem execAt_rePunctEnd_some (pre rest : Str) (hne : rest ≠ [])
    (hall : ∀ c ∈ rest, isTrailingPunct c = true) :
    execAt rePunctEnd pre rest = some ⟨rest, []⟩ := by
  have h := matchRe_greedy_run isTrailingPunct (matchRe .eol some) 1 pre rest [] []
    (by simp) (by cases rest with
      | nil => exact absurd rfl hne
      | cons _ _ => simp) hall (by simp)
  have := execAt_of_matchRe rePunctEnd pre rest [] (rest.reverse ++ pre) []
    (by
      rw [show rePunctEnd = .seq (.rep 1 none true (.cls isTrailingPunct)) .eol from rfl,
        matchRe_seq]
      rw [h]
      simp)
  simpa using this

theorem execAt_rePunctEnd_none (pre rest : Str)
    (h : ¬ (rest ≠ [] ∧ ∀ c ∈ rest, isTrailingPunct c = true)) :
    execAt rePunctEnd pre rest = none := by
  apply execAt_of_matchRe_none
  cases hm : matchRe rePunctEnd some ⟨pre, rest, []⟩ with
  | none => rfl
  | some res =>
    exfalso; apply h
    rw [show rePunctEnd = .seq (.rep 1 none true (.cls isTrailingPunct)) .eol from rfl,
      matchRe_seq] at hm
    obtain ⟨ls, r, e, hp, hlo, hk⟩ := matchRe_rep_sound isTrailingPunct true _ [] res 1 none
      pre rest (by simp) hm
    have hr : r = [] := by
      cases r with
      | nil => rfl
      | cons _ _ => simp at hk
    subst hr
    simp only [List.append_nil] at e
    subst e
    refine ⟨?_, hp⟩
    intro h0; subst h0; simp at hlo

theorem searchFrom_rePunctEnd (s : Str) :
    ∀ pre : Str,
      (match searchFrom rePunctEnd pre s with
        | none => pre.reverse ++ s
        | some (before, m) =>
          before ++ ([] : Str) ++ (pre.reverse ++ s).drop (before.length + m.text.length)) =
        pre.reverse ++ stripTrailingPunct s := by
  induction s with
  | nil =>
    intro pre
    rw [searchFrom, execAt_rePunctEnd_none pre [] (by simp)]
    rfl
  | cons c cs ih =>
    intro pre
    rw [searchFrom, stripTrailingPunct_cons]
    by_cases hall : (c :: cs).all isTrailingPunct = true
    · rw [execAt_rePunctEnd_some pre (c :: cs) (by simp) (List.all_eq_true.mp hall)]
      simp [hall]
    · rw [execAt_rePunctEnd_none pre (c :: cs) (fun h => hall (List.all_eq_true.mpr h.2))]
      have := ih (c :: pre)
      simp only [List.reverse_cons, List.append_assoc, List.singleton_append] at this
      rw [if_neg hall]
      simp only [List.append_assoc]
      exact this

theorem replaceFirst_rePunctEnd (s : Str) :
    replaceFirst rePunctEnd [] s = stripTrailingPunct s := by
  have := searchFrom_rePunctEnd s []
  simp only [List.reverse_nil, List.nil_append] at this
  unfold replaceFirst
  rw [← this]

theorem stripTrailingPunct_getLast (t : Str) (c : Char)
    (h : (stripTrailingPunct t).getLast? = some c) : isTrailingPunct c = false := by
  unfold stripTrailingPunct at h
  rw [List.getLast?_reverse] at h
  have := List.head?_dropWhile_not isTrailingPunct t.reverse
  rw [h] at this
  simpa using this

theorem normalizeUrl_eq (u : Str) :
    normalizeUrl u =
      if hasScheme (stripTrailingPunct (jsTrim u)) then stripTrailingPunct (jsTrim u)
      else "https://".toList ++ stripTrailingPunct (jsTrim u) := by
  have := replaceFirst_rePunctEnd (jsTrim u)
  have h2 := test_reSchemeStart (stripTrailingPunct (jsTrim u))
  unfold rePunctEnd at this
  unfold reSchemeStart at h2
  unfold normalizeUrl
  simp only [this, h2]
  cases hasScheme (stripTrailingPunct (jsTrim u)) <;> rfl

/-- C17: for every string `u`, with `s` the trimmed `u` without its trailing run of
`. , ; : ! ?`: `normalizeUrl u` is `s` itself when `s` starts, in any case, with `http://`
or `https://`, and `https://` followed by `s` otherwise; the result always starts with
one of the two schemes and its last character is none of `. , ; : ! ?`. -/
theorem normalizeUrl_scheme_and_punct (u : Str) :
    normalizeUrl u =
      (if hasScheme (stripTrailingPunct (jsTrim u)) then stripTrailingPunct (jsTrim u)
       else "https://".toList ++ stripTrailingPunct (jsTrim u)) ∧
    hasScheme (normalizeUrl u) = true ∧
    ∀ c, (normalizeUrl u).getLast? = some c → isTrailingPunct c = false := by
  refine ⟨normalizeUrl_eq u, ?_, ?_⟩
  · rw [normalizeUrl_eq]
    by_cases h : hasScheme (stripTrailingPunct (jsTrim u)) = true
    · simp [h]
    · simp only [h]
      simp [hasScheme, startsWithI, sameLetter]
  · intro c hc
    rw [normalizeUrl_eq] at hc
    by_cases h : hasScheme (stripTrailingPunct (jsTrim u)) = true
    · simp only [h, if_true] at hc
      exact stripTrailingPunct_getLast _ _ hc
    · rw [if_neg h, List.getLast?_append] at hc
      cases hl : (stripTrailingPunct (jsTrim u)).getLast? with
      | none =>
        rw [hl] at hc
        have : c = '/' := by
          simp at hc
          exact hc.symm
        subst this; decide
      | some d =>
        rw [hl] at hc
        simp at hc
        subst hc
        exact stripTrailingPunct_getLast _ _ hl

/-- Witness of C12 on the body made of the block with the one span "see e.g. the chart...". -/
theorem processPostBody_noUrls_witness :
    NoUrls [plainBlock [chartText]] ∧
    processPostBody sampleRnd 0 [plainBlock [chartText]] =
      ⟨[plainBlock [chartText]], false, 0⟩ :=
  ⟨by
    intro block hb child hc
    simp only [List.mem_singleton] at hb
    subst hb
    simp only [plainBlock, List.map_cons, List.map_nil, Option.getD_some,
      List.mem_singleton] at hc
    subst hc
    exact findUrls_chart,
   processPostBody_noUrls sampleRnd 0 [plainBlock [chartText]] (by
    intro block hb child hc
    simp only [List.mem_singleton] at hb
    subst hb
    simp only [plainBlock, List.map_cons, List.map_nil, Option.getD_some,
      List.mem_singleton] at hc
    subst hc
    exact findUrls_chart)⟩

/-- Witness of C13 on the span "see example.com" with the mark `strong`, in the block whose
registry already holds the sample link. -/
theorem convertSpanWithUrls_keeps_marks_witness :
    0 < (findUrls seeExampleCom).length ∧
    List.Forall₂
      (KeepsMarks
        ((convertSpanWithUrls sampleRnd
          ⟨"span".toList, "s".toList, some seeExampleCom, some [some "strong".toList]⟩
          ⟨keyedBlock, 0⟩).2.block.markDefs.getD [])
        [some "strong".toList])
      (splitTextWithUrls seeExampleCom)
      (convertSpanWithUrls sampleRnd
        ⟨"span".toList, "s".toList, some seeExampleCom, some [some "strong".toList]⟩
        ⟨keyedBlock, 0⟩).1 :=
  ⟨by decide,
   convertSpanWithUrls_keeps_marks sampleRnd
     ⟨"span".toList, "s".toList, some seeExampleCom, some [some "strong".toList]⟩
     ⟨keyedBlock, 0⟩ (by decide)⟩

/-- Witness of C15 on the text `etc.com`. -/
theorem isValidUrl_rejects_witness :
    Rejected "etc.com".toList ∧ isValidUrl "etc.com".toList = false :=
  ⟨Or.inl (by decide), isValidUrl_rejects "etc.com".toList (Or.inl (by decide))⟩

theorem convertSpanWithUrls_single (rnd : Nat → Str) (u : Str) (span : Span) (ctx : Ctx)
    (h : splitTextWithUrls u = [⟨.url, u⟩]) (ht : span.text = some u) :
    ∃ md, (convertSpanWithUrls rnd span ctx).1 =
        [⟨"span".toList, "span-".toList ++ rnd (ctx.drawn + 1), some u,
          some (span.marks.getD [] ++ [md._key])⟩] ∧
      md ∈ (convertSpanWithUrls rnd span ctx).2.block.markDefs.getD [] ∧
      md._type = "link".toList ∧ md.href = some (normalizeUrl u) := by
  obtain ⟨-, md, hmd, h3, h4, h6⟩ :=
    registerLink_mark (ctx.block.markDefs.getD []) ("link-".toList ++ rnd ctx.drawn)
      (normalizeUrl u)
  refine ⟨md, ?_, ?_, h3, h4⟩
  · unfold convertSpanWithUrls
    simp only [ht, Option.getD_some, h, List.foldl_cons, List.foldl_nil, partStep, h6]
    rfl
  · unfold convertSpanWithUrls
    simp only [ht, Option.getD_some, h, List.foldl_cons, List.foldl_nil, partStep]
    exact hmd

/-- C16: for each of the URL forms `https://example.com`, `http://example.com`,
`www.example.com`, `example.com`, `asivuri.com` of the header comment, `findUrls u` is
`[u]`, and `convertSpanWithUrls` turns any span with text `u`, in any block, into a single
sub-span with text `u` whose marks are the marks of the span followed by the `_key` of a
link definition of the returned markDefs with href `normalizeUrl u`. -/
theorem convertSpanWithUrls_header_forms (rnd : Nat → Str) (u : Str) (span : Span) (ctx : Ctx)
    (hu : u ∈ headerUrls) (ht : span.text = some u) :
    findUrls u = [u] ∧
    ∃ md, (convertSpanWithUrls rnd span ctx).1 =
        [⟨"span".toList, "span-".toList ++ rnd (ctx.drawn + 1), some u,
          some (span.marks.getD [] ++ [md._key])⟩] ∧
      md ∈ (convertSpanWithUrls rnd span ctx).2.block.markDefs.getD [] ∧
      md._type = "link".toList ∧ md.href = some (normalizeUrl u) := by
  have hf : headerUrls.map findUrls = headerUrls.map (fun u => [u]) := by decide
  have hs : headerUrls.map splitTextWithUrls = headerUrls.map (fun u => [⟨.url, u⟩]) := by
    decide
  exact ⟨List.map_inj_left.mp hf u hu,
    convertSpanWithUrls_single rnd u span ctx (List.map_inj_left.mp hs u hu) ht⟩

/-- Witness of C16 on a span with the text `example.com` in a block with an empty
registry. -/
theorem convertSpanWithUrls_header_forms_witness :
    exampleCom ∈ headerUrls ∧
    findUrls exampleCom = [exampleCom] ∧
    ∃ md, (convertSpanWithUrls sampleRnd ⟨"span".toList, "s".toList, some exampleCom, some []⟩
          ⟨plainBlock [exampleCom], 0⟩).1 =
        [⟨"span".toList, "span-".toList ++ sampleRnd (0 + 1), some exampleCom,
          some ([] ++ [md._key])⟩] ∧
      md ∈ (convertSpanWithUrls sampleRnd ⟨"span".toList, "s".toList, some exampleCom, some []⟩
          ⟨plainBlock [exampleCom], 0⟩).2.block.markDefs.getD [] ∧
      md._type = "link".toList ∧ md.href = some (normalizeUrl exampleCom) :=
  ⟨by decide,
   convertSpanWithUrls_header_forms sampleRnd exampleCom
     ⟨"span".toList, "s".toList, some exampleCom, some []⟩ ⟨plainBlock [exampleCom], 0⟩
     (by decide) rfl⟩

theorem partStep_frame (rnd : Nat → Str) (span : Span) (b : Block) (acc : List Span × Ctx)
    (part : Part) (h : SameFrame b acc.2.block) :
    SameFrame b (partStep rnd span acc part).2.block := by
  unfold partStep
  cases part.type <;> exact h

theorem foldl_partStep_frame (rnd : Nat → Str) (span : Span) (b : Block) (parts : List Part) :
    ∀ acc : List Span × Ctx, SameFrame b acc.2.block →
      SameFrame b (parts.foldl (partStep rnd span) acc).2.block := by
  induction parts with
  | nil => intro acc h; exact h
  | cons p ps ih => intro acc h; exact ih _ (partStep_frame rnd span b acc p h)

theorem convertSpanWithUrls_frame (rnd : Nat → Str) (span : Span) (b : Block) (ctx : Ctx)
    (h : SameFrame b ctx.block) : SameFrame b (convertSpanWithUrls rnd span ctx).2.block := by
  unfold convertSpanWithUrls
  simp only []
  split
  · exact h
  · exact foldl_partStep_frame rnd span b _ ([], ctx) h

theorem childStep_frame (rnd : Nat → Str) (b : Block) (st : BlockLoop) (child : Span)
    (h : SameFrame b st.ctx.block) : SameFrame b (childStep rnd st child).ctx.block := by
  unfold childStep
  split
  · simp only []
    split
    · exact convertSpanWithUrls_frame rnd child b st.ctx h
    · exact h
  · exact h

theorem foldl_childStep_frame (rnd : Nat → Str) (b : Block) (children : List Span) :
    ∀ st : BlockLoop, SameFrame b st.ctx.block →
      SameFrame b (children.foldl (childStep rnd) st).ctx.block := by
  induction children with
  | nil => intro st h; exact h
  | cons c cs ih => intro st h; exact ih _ (childStep_frame rnd b st c h)

theorem processBlock_corresponds (rnd : Nat → Str) (drawn : Nat) (block : Block) :
    Corresponds block (processBlock rnd drawn block).block := by
  refine ⟨fun h => processBlock_untouched rnd drawn block (Or.symm h), ?_⟩
  unfold processBlock
  split
  · exact ⟨rfl, rfl, rfl, rfl, rfl⟩
  · rename_i children hc
    split
    · exact ⟨rfl, rfl, rfl, rfl, rfl⟩
    · have hf := foldl_childStep_frame rnd block children ⟨[], false, ⟨block, drawn⟩⟩
        ⟨rfl, rfl, rfl, rfl, rfl⟩
      simp only []
      split
      · exact hf
      · exact hf

theorem processPostBody_aux (rnd : Nat → Str) (body : List Block) :
    ∀ acc : BodyResult, ∃ out : List Block,
      (body.foldl (fun acc block =>
        let result := processBlock rnd acc.drawn block
        (⟨acc.body ++ [result.block], acc.modified || result.modified, result.drawn⟩ :
          BodyResult)) acc).body = acc.body ++ out ∧
      List.Forall₂ Corresponds body out := by
  induction body with
  | nil => intro acc; exact ⟨[], by simp, List.Forall₂.nil⟩
  | cons b bs ih =>
    intro acc
    rw [List.foldl_cons]
    obtain ⟨out, h1, h2⟩ := ih
      ⟨acc.body ++ [(processBlock rnd acc.drawn b).block],
        acc.modified || (processBlock rnd acc.drawn b).modified,
        (processBlock rnd acc.drawn b).drawn⟩
    refine ⟨(processBlock rnd acc.drawn b).block :: out, ?_, ?_⟩
    · rw [h1]; simp
    · exact List.Forall₂.cons (processBlock_corresponds rnd acc.drawn b) h2

/-- C29: for every body, `processPostBody` returns a body of the same length whose i-th
element corresponds to the i-th input element: an element that is not of type `block` or
has no children is returned unchanged, and in any case the fields `_type`, `_key`,
`style`, `listItem` and `level` are those of the input element. -/
theorem processPostBody_keeps_frame (rnd : Nat → Str) (drawn : Nat) (body : List Block) :
    (processPostBody rnd drawn body).body.length = body.length ∧
    List.Forall₂ Corresponds body (processPostBody rnd drawn body).body := by
  obtain ⟨out, h1, h2⟩ := processPostBody_aux rnd body ⟨[], false, drawn⟩
  unfold processPostBody
  rw [h1]
  simp only [List.nil_append]
  exact ⟨h2.length_eq.symm, h2⟩

theorem addValid_spec (Q : Str → Prop) (found : List Str) :
    ∀ urls : List Str, urls.Nodup → (∀ u ∈ urls, Q u) →
      (∀ m ∈ found, isValidUrl m = true → Q m) →
      (addValid urls found).Nodup ∧ ∀ u ∈ addValid urls found, Q u := by
  induction found with
  | nil => intro urls h1 h2 _; exact ⟨h1, h2⟩
  | cons m ms ih =>
    intro urls h1 h2 h3
    unfold addValid
    rw [List.foldl_cons]
    have hms : ∀ x ∈ ms, isValidUrl x = true → Q x := fun x hx => h3 x (by simp [hx])
    by_cases hv : isValidUrl m = true
    · rw [if_pos hv]
      by_cases hc : urls.contains m = true
      · rw [if_pos hc]
        exact ih urls h1 h2 hms
      · rw [if_neg hc]
        refine ih (urls ++ [m]) ?_ ?_ hms
        · refine List.Nodup.append h1 (List.nodup_singleton m) ?_
          intro x hx hx2
          simp only [List.mem_singleton] at hx2
          subst hx2
          exact hc (by simpa using hx)
        · intro u hu
          simp only [List.mem_append, List.mem_singleton] at hu
          rcases hu with hu | hu
          · exact h2 u hu
          · subst hu; exact h3 u (by simp) hv
    · rw [if_neg hv]
      exact ih urls h1 h2 hms

/-- The strings returned by `findUrls` are distinct, not empty, and occur in the text. -/
theorem findUrls_spec (t : Str) :
    (findUrls t).Nodup ∧ ∀ u ∈ findUrls t, u ≠ [] ∧ u <:+: t := by
  have hQ : ∀ re, ∀ m ∈ (matchAll re t).getD [], isValidUrl m = true → m ≠ [] ∧ m <:+: t := by
    intro re m hm hv
    rw [matchAll_getD] at hm
    refine ⟨?_, matchAllGo_infix re t 0 [] m hm⟩
    intro h
    subst h
    revert hv
    decide
  have h0 := addValid_spec (fun u => u ≠ [] ∧ u <:+: t) ((matchAll URL_REGEX t).getD []) []
    List.nodup_nil (by intro u hu; cases hu) (hQ URL_REGEX)
  unfold findUrls
  simp only []
  generalize addValid [] ((matchAll URL_REGEX t).getD []) = urls0 at h0
  generalize SPECIFIC_PATTERNS = pats
  induction pats generalizing urls0 with
  | nil => exact h0
  | cons p ps ih =>
    rw [List.foldl_cons]
    exact ih _ (addValid_spec _ _ urls0 h0.1 h0.2 (hQ p))

/-- `indexOf` gives the start of an occurrence of a string that occurs in the text. -/
theorem indexOf_of_infix (u : Str) (t : Str) (h : u <:+: t) :
    ∃ a b, t = a ++ u ++ b ∧ indexOf u t = (a.length : Int) := by
  induction t with
  | nil =>
    have : u = [] := List.eq_nil_of_infix_nil h
    subst this
    exact ⟨[], [], rfl, rfl⟩
  | cons c cs ih =>
    unfold indexOf
    by_cases hp : u.isPrefixOf (c :: cs) = true
    · rw [if_pos hp]
      obtain ⟨b, hb⟩ := List.isPrefixOf_iff_prefix.mp hp
      exact ⟨[], b, by simp [hb], rfl⟩
    · rw [if_neg hp]
      rw [List.infix_cons_iff] at h
      rcases h with h | h
      · exact absurd (List.isPrefixOf_iff_prefix.mpr h) hp
      · obtain ⟨a, b, hab, hidx⟩ := ih h
        rw [hidx]
        exact ⟨c :: a, b, by simp [hab], by simp⟩

theorem urlContents_append (p q : List Part) :
    urlContents (p ++ q) = urlContents p ++ urlContents q := by
  simp [urlContents]

theorem append_split (done rem a x : Str) (h : done ++ rem = a ++ x)
    (hlen : done.length ≤ a.length) : ∃ mid, a = done ++ mid ∧ rem = mid ++ x := by
  rw [List.append_eq_append_iff] at h
  rcases h with ⟨mid, h1, h2⟩ | ⟨mid, h1, h2⟩
  · exact ⟨mid, h1, h2⟩
  · have : mid = [] := by
      have := congrArg List.length h1
      simp only [List.length_append] at this
      exact List.length_eq_zero.mp (by omega)
    subst this
    exact ⟨[], by simpa using h1.symm, by simpa using h2.symm⟩

/-- One step of the loop of `splitTextWithUrls` for a URL that occurs at its index, at or
after the current offset. -/
theorem splitStep_spec (t : Str) (st : SplitState) (done : Str) (u : Str) (i : Int)
    (ht : t = done ++ st.remainingText) (hoff : st.offset = (done.length : Int))
    (hparts : (st.parts.map Part.content).flatten = done)
    (hocc : ∃ a b, t = a ++ u ++ b ∧ i = (a.length : Int)) (hle : st.offset ≤ i) :
    ∃ done', t = done' ++ (splitStep st (u, i)).remainingText ∧
      (splitStep st (u, i)).offset = (done'.length : Int) ∧
      ((splitStep st (u, i)).parts.map Part.content).flatten = done' ∧
      (splitStep st (u, i)).offset = i + u.length ∧
      urlContents (splitStep st (u, i)).parts = urlContents st.parts ++ [u] := by
  obtain ⟨a, b, hab, hi⟩ := hocc
  have hlen : done.length ≤ a.length := by
    rw [hoff, hi] at hle
    exact Int.ofNat_le.mp hle
  obtain ⟨mid, ha, hrem⟩ := append_split done st.remainingText a (u ++ b)
    (by rw [← ht, hab]; simp) hlen
  have hdiff : i - st.offset = (mid.length : Int) := by
    rw [hi, hoff, ha]
    simp
  have hbefore : substringTo st.remainingText (i - st.offset) = mid := by
    unfold substringTo
    rw [hdiff, Int.toNat_ofNat, hrem]
    simp
  have hafter : substringFrom st.remainingText (i - st.offset + u.length) = b := by
    unfold substringFrom
    rw [hdiff, hrem]
    have : ((mid.length : Int) + (u.length : Int)).toNat = (mid ++ u).length := by
      rw [List.length_append]
      exact Int.toNat_ofNat _
    rw [this, ← List.append_assoc, List.drop_left]
  refine ⟨a ++ u, ?_, ?_, ?_, ?_, ?_⟩
  · unfold splitStep
    simp only []
    rw [hafter, hab]
  · unfold splitStep
    simp only []
    rw [hi]
    simp
  · unfold splitStep
    simp only []
    rw [hbefore]
    by_cases hgt : i > st.offset
    · rw [if_pos hgt]
      have hmid : mid ≠ [] := by
        intro h
        subst h
        simp at hdiff
        omega
      have : (!mid.isEmpty) = true := by
        cases mid with
        | nil => exact absurd rfl hmid
        | cons _ _ => rfl
      rw [if_pos this]
      simp [hparts, ha]
    · rw [if_neg hgt]
      have hmid : mid = [] := by
        have : (mid.length : Int) = 0 := by omega
        exact List.length_eq_zero.mp (by exact_mod_cast this)
      subst hmid
      simp [hparts, ha]
  · unfold splitStep
    rfl
  · unfold splitStep
    simp only []
    split
    · split
      · simp [urlContents]
      · simp [urlContents]
    · simp [urlContents]

theorem foldl_splitStep_spec (t : Str) (ps : List (Str × Int)) :
    ∀ (st : SplitState) (done : Str),
      t = done ++ st.remainingText → st.offset = (done.length : Int) →
      (st.parts.map Part.content).flatten = done →
      (∀ p ∈ ps, ∃ a b, t = a ++ p.1 ++ b ∧ p.2 = (a.length : Int)) →
      (∀ p ∈ ps, st.offset ≤ p.2) →
      ps.Pairwise (fun p q : Str × Int => p.2 + (p.1.length : Int) ≤ q.2) →
      ((ps.foldl splitStep st).parts.map Part.content).flatten ++
          (ps.foldl splitStep st).remainingText = t ∧
        urlContents (ps.foldl splitStep st).parts = urlContents st.parts ++ ps.map Prod.fst := by
  induction ps with
  | nil =>
    intro st done ht _ hparts _ _ _
    simp only [List.foldl_nil, List.map_nil, List.append_nil]
    exact ⟨by rw [hparts, ← ht], trivial⟩
  | cons p ps ih =>
    intro st done ht hoff hparts hocc hle hpw
    obtain ⟨done', g1, g2, g3, g4, g5⟩ :=
      splitStep_spec t st done p.1 p.2 ht hoff hparts (hocc p (by simp)) (hle p (by simp))
    rw [List.pairwise_cons] at hpw
    have := ih (splitStep st p) done' g1 g2 g3 (fun q hq => hocc q (by simp [hq]))
      (fun q hq => by
        have e : splitStep st p = splitStep st (p.1, p.2) := rfl
        rw [e, g4]
        exact hpw.1 q hq)
      hpw.2
    rw [List.foldl_cons]
    refine ⟨this.1, ?_⟩
    rw [this.2]
    have e : splitStep st p = splitStep st (p.1, p.2) := rfl
    rw [e, g5]
    simp

theorem urlPositions_spec (t : Str) (urls : List Str)
    (hocc : ∀ u ∈ urls, u ≠ [] ∧ u <:+: t) (hdis : FirstOccurrencesDisjoint t urls) :
    ((urlPositions t urls).map Prod.fst).Perm urls ∧
    (∀ p ∈ urlPositions t urls, p.1 ≠ [] ∧ p.2 = indexOf p.1 t ∧
      ∃ a b, t = a ++ p.1 ++ b ∧ p.2 = (a.length : Int)) ∧
    (urlPositions t urls).Pairwise
      (fun p q : Str × Int => p.2 + (p.1.length : Int) ≤ q.2) := by
  haveI : IsTotal (Str × Int) (fun a b => a.2 ≤ b.2) := ⟨fun a b => Int.le_total a.2 b.2⟩
  haveI : IsTrans (Str × Int) (fun a b => a.2 ≤ b.2) :=
    ⟨fun a b c h1 h2 => Int.le_trans h1 h2⟩
  have hp := List.perm_insertionSort (fun a b : Str × Int => a.2 ≤ b.2)
    (urls.map (fun url => (url, indexOf url t)))
  have hs := List.sorted_insertionSort (fun a b : Str × Int => a.2 ≤ b.2)
    (urls.map (fun url => (url, indexOf url t)))
  have hmem : ∀ p ∈ urlPositions t urls, p.1 ≠ [] ∧ p.2 = indexOf p.1 t ∧
      ∃ a b, t = a ++ p.1 ++ b ∧ p.2 = (a.length : Int) := by
    intro p hp2
    have := (hp.mem_iff).mp hp2
    rw [List.mem_map] at this
    obtain ⟨u, hu, rfl⟩ := this
    obtain ⟨a, b, hab, hidx⟩ := indexOf_of_infix u t (hocc u hu).2
    exact ⟨(hocc u hu).1, rfl, a, b, hab, hidx⟩
  have hd0 : (urls.map (fun url => (url, indexOf url t))).Pairwise
      (fun p q : Str × Int =>
        p.2 + (p.1.length : Int) ≤ q.2 ∨ q.2 + (q.1.length : Int) ≤ p.2) := by
    rw [List.pairwise_map]
    exact hdis
  have hd : (urlPositions t urls).Pairwise
      (fun p q : Str × Int =>
        p.2 + (p.1.length : Int) ≤ q.2 ∨ q.2 + (q.1.length : Int) ≤ p.2) :=
    (hp.pairwise_iff (fun {x y} h => Or.symm h)).mpr hd0
  refine ⟨?_, hmem, ?_⟩
  · have := hp.map Prod.fst
    simpa [urlPositions, Function.comp_def] using this
  · have hboth := List.Pairwise.and hs hd
    refine List.Pairwise.imp_of_mem ?_ hboth
    intro p q _ hq h
    rcases h.2 with h2 | h2
    · exact h2
    · have hne := (hmem q hq).1
      have : 0 < q.1.length := List.length_pos.mpr hne
      have h1 : p.2 ≤ q.2 := h.1
      omega

/-- C30: for every text whose URLs, as returned by `findUrls`, have pairwise disjoint
first occurrences, the contents of the parts of `splitTextWithUrls` concatenate to the
text, and the URL parts are exactly the strings of `findUrls`, each once, ordered by the
position of their first occurrence. -/
theorem splitTextWithUrls_partitions (t : Str)
    (h : FirstOccurrencesDisjoint t (findUrls t)) :
    ((splitTextWithUrls t).map Part.content).flatten = t ∧
    (urlContents (splitTextWithUrls t)).Perm (findUrls t) ∧ (findUrls t).Nodup ∧
    (urlContents (splitTextWithUrls t)).Pairwise (fun a b => indexOf a t < indexOf b t) := by
  obtain ⟨hnodup, hocc⟩ := findUrls_spec t
  unfold splitTextWithUrls
  simp only []
  by_cases h0 : (findUrls t).length = 0
  · rw [if_pos h0]
    have : findUrls t = [] := List.length_eq_zero.mp h0
    rw [this]
    exact ⟨by simp, by simp [urlContents], List.nodup_nil, by simp [urlContents]⟩
  · rw [if_neg h0]
    obtain ⟨hperm, hmem, hpw⟩ := urlPositions_spec t (findUrls t) hocc h
    obtain ⟨g1, g2⟩ := foldl_splitStep_spec t (urlPositions t (findUrls t)) ⟨[], t, 0⟩ []
      rfl rfl rfl (fun p hp => (hmem p hp).2.2)
      (fun p hp => by
        obtain ⟨a, b, -, hi⟩ := (hmem p hp).2.2
        rw [hi]
        exact Int.ofNat_nonneg _)
      hpw
    have hurls : urlContents ((urlPositions t (findUrls t)).foldl splitStep ⟨[], t, 0⟩).parts =
        (urlPositions t (findUrls t)).map Prod.fst := by
      rw [g2]; simp [urlContents]
    have hsorted : ((urlPositions t (findUrls t)).map Prod.fst).Pairwise
        (fun a b => indexOf a t < indexOf b t) := by
      rw [List.pairwise_map]
      refine List.Pairwise.imp_of_mem ?_ hpw
      intro p q hp hq hpq
      have hne := (hmem p hp).1
      have : 0 < p.1.length := List.length_pos.mpr hne
      rw [← (hmem p hp).2.1, ← (hmem q hq).2.1]
      omega
    by_cases hr : (!((urlPositions t (findUrls t)).foldl splitStep
        ⟨[], t, 0⟩).remainingText.isEmpty) = true
    · rw [if_pos hr]
      refine ⟨?_, ?_, hnodup, ?_⟩
      · simp only [List.map_append, List.flatten_append, List.map_cons, List.map_nil,
          List.flatten_cons, List.flatten_nil, List.append_nil]
        exact g1
      · rw [urlContents_append, hurls]
        simpa [urlContents] using hperm
      · rw [urlContents_append, hurls]
        simpa [urlContents] using hsorted
    · rw [if_neg hr]
      have hrem : ((urlPositions t (findUrls t)).foldl splitStep
          ⟨[], t, 0⟩).remainingText = [] := by
        simpa using hr
      rw [hrem, List.append_nil] at g1
      exact ⟨g1, by rw [hurls]; exact hperm, hnodup, by rw [hurls]; exact hsorted⟩

theorem findUrls_twoUrls :
    findUrls twoUrlsText = ["example.com".toList, "asivuri.com".toList] := by decide

/-- Witness of C30 on the text "see example.com or asivuri.com". -/
theorem splitTextWithUrls_partitions_witness :
    FirstOccurrencesDisjoint twoUrlsText (findUrls twoUrlsText) ∧
    ((splitTextWithUrls twoUrlsText).map Part.content).flatten = twoUrlsText ∧
    (urlContents (splitTextWithUrls twoUrlsText)).Perm (findUrls twoUrlsText) ∧
    (findUrls twoUrlsText).Nodup ∧
    (urlContents (splitTextWithUrls twoUrlsText)).Pairwise
      (fun a b => indexOf a twoUrlsText < indexOf b twoUrlsText) :=
  ⟨by rw [findUrls_twoUrls]; unfold FirstOccurrencesDisjoint; decide,
   splitTextWithUrls_partitions twoUrlsText
     (by rw [findUrls_twoUrls]; unfold FirstOccurrencesDisjoint; decide)⟩

end FormatLinks

/-! ### `convert-wordpress-to-sanity.js` -/

namespace ConvertWordpress

open JsRe

theorem reHeaderMarker_group (s : Str) (m : Match) (h : jsMatch reHeaderMarker s = some m) :
    ∃ d, isDigit d = true ∧ m.group 1 = [d] := by
  unfold jsMatch at h
  cases hs : searchFrom reHeaderMarker [] s with
  | none => rw [hs] at h; cases h
  | some bm =>
    rw [hs] at h
    simp only [Option.map_some', Option.some.injEq] at h
    obtain ⟨b, m'⟩ := bm
    simp only at h
    subst h
    obtain ⟨pre, r, hx⟩ := searchFrom_some_execAt _ _ _ _ _ hs
    obtain ⟨res, hres, hcaps⟩ := execAt_some_caps _ _ _ _ hx
    have e : matchRe reHeaderMarker some ⟨pre, r, []⟩ =
        matchRe (seqs ("---HEADER".toList.map chr))
          (matchRe (.grp 1 (.cls isDigit))
            (matchRe (seqs ("---".toList.map chr)) (matchRe (.grp 2 (many1 dot)) some)))
          ⟨pre, r, []⟩ := rfl
    rw [e] at hres
    obtain ⟨r1, -, h1⟩ := matchRe_chars_sound _ _ _ _ _ _ hres
    rw [matchRe_grp] at h1
    cases r1 with
    | nil => simp at h1
    | cons d r2 =>
      simp only [matchRe_cls_cons] at h1
      split at h1
      · rename_i hd
        obtain ⟨r3, -, h3⟩ := matchRe_chars_sound _ _ _ _ _ _ h1
        rw [matchRe_grp] at h3
        obtain ⟨ls, r4, -, -, -, h4⟩ :=
          matchRe_rep_sound _ true _ _ res 1 none _ _ (by simp) h3
        simp only [Option.some.injEq] at h4
        refine ⟨d, hd, ?_⟩
        unfold Match.group
        rw [hcaps, ← h4]
        simp
      · cases h1

theorem parseInt_digit (d : Char) (h : isDigit d = true) : parseInt [d] < 10 := by
  unfold isDigit at h
  simp only [Bool.and_eq_true, decide_eq_true_eq] at h
  have h2 : d.toNat ≤ '9'.toNat := h.2
  have e : ('9'.toNat) = 57 := rfl
  have e0 : ('0'.toNat) = 48 := rfl
  simp only [parseInt, List.foldl_cons, List.foldl_nil]
  omega

theorem paragraphStep_styles (st : List Block × Nat) (paragraph : Str)
    (h : ∀ b ∈ st.1, StyleOk b.style) : ∀ b ∈ (paragraphStep st paragraph).1, StyleOk b.style := by
  have hpush : ∀ (style text : Str), StyleOk style →
      ∀ b ∈ st.1 ++ [mkBlock st.2 style text], StyleOk b.style := by
    intro style text hs b hb
    simp only [List.mem_append, List.mem_singleton] at hb
    rcases hb with hb | hb
    · exact h b hb
    · subst hb; exact hs
  unfold paragraphStep
  simp only []
  split
  · exact h
  · split
    · rename_i headerMatch hm
      obtain ⟨d, hd, hg⟩ := reHeaderMarker_group _ _ hm
      split
      · exact hpush _ _ (Or.inr ⟨parseInt (headerMatch.group 1),
          by rw [hg]; exact parseInt_digit d hd, rfl⟩)
      · exact h
    · split
      · split
        · exact hpush _ _ (Or.inl rfl)
        · exact h
      · split
        · exact hpush _ _ (Or.inl rfl)
        · exact h

theorem foldl_paragraphStep_styles (ps : List Str) :
    ∀ st : List Block × Nat, (∀ b ∈ st.1, StyleOk b.style) →
      ∀ b ∈ (ps.foldl paragraphStep st).1, StyleOk b.style := by
  induction ps with
  | nil => intro st h; exact h
  | cons p ps ih => intro st h; exact ih _ (paragraphStep_styles st p h)

theorem convert_styles (html : Str) : ∀ b ∈ convertHtmlToPortableText html, StyleOk b.style := by
  unfold convertHtmlToPortableText
  simp only []
  split
  · exact foldl_paragraphStep_styles _ _ (by intro b hb; cases hb)
  · intro b hb
    simp only [List.mem_singleton] at hb
    subst hb
    exact Or.inl rfl

/-- C22: every returned block has a style that is `normal` or `h` followed by one decimal
digit, and a style outside `normal`, `h1`..`h6` is returned: the header marker is matched
with `\d`, so for the input text `---HEADER9---x` `convertHtmlToPortableText` returns one
block of style `h9`, `---HEADER0---x` gives `h0` and the paragraph `<p>---HEADER7---x</p>`
gives `h7`; a real `<h2>` element gives `h2`. -/
theorem convert_header_marker_any_digit :
    (∀ (html : Str), ∀ b ∈ convertHtmlToPortableText html, StyleOk b.style) ∧
    (convertHtmlToPortableText "---HEADER9---x".toList).map (fun b => (b.style, b.children)) =
      [("h9".toList, [⟨"span".toList, "x".toList, []⟩])] ∧
    (convertHtmlToPortableText "---HEADER0---x".toList).map Block.style = ["h0".toList] ∧
    (convertHtmlToPortableText "<p>---HEADER7---x</p>".toList).map Block.style =
      ["h7".toList] ∧
    (convertHtmlToPortableText "<h2>T</h2><p>x</p>".toList).map Block.style =
      ["h2".toList, "normal".toList] :=
  ⟨convert_styles, by rfl, by rfl, by rfl, by rfl⟩

end ConvertWordpress
